import Mathlib

/-!
# Verification of the Myers diff repository

Shallow embedding of the core of the Myers-Algorithm repository
(`src/algorithms/myers.py`, `src/algorithms/hirschberg.py`,
`src/algorithms/utils.py`) and proofs about it.

Python `dict`s with `.get(k, 0)` lookups are modelled as total functions
`Int → Int` (a missing key and a key bound to `0` are indistinguishable
through the operations the code uses: `get` with default `0`, item
assignment, and `copy`).  Python `int`s are `Int`.  Python list indexing
is modelled by `pyGet` (negative indices wrap, as in Python); the code
only ever indexes in range, so the `Option` is peeled off with a default
(`pyIdx`) where the source stores the element into a script.
`raise ValueError` is modelled by returning `none`.
-/

set_option maxHeartbeats 1000000
set_option linter.unusedSectionVars false

namespace MyersVerif

universe u

variable {α : Type} [DecidableEq α] [Inhabited α]

/-! ## Edit script model — `src/algorithms/utils.py` -/

/-- `OpType` enumeration from `utils.py`. -/
inductive OpType : Type
  | insert
  | delete
  | equal
  | replace
deriving DecidableEq, Repr

/-- `EditAction` named tuple from `utils.py`: an operation, the value it
carries, and (for `replace` only) the value being replaced. -/
structure EditAction (α : Type) where
  op : OpType
  value : α
  old_value : Option α := none
deriving DecidableEq, Repr

/-- `make_insert` from `utils.py`. -/
def make_insert (v : α) : EditAction α := ⟨OpType.insert, v, none⟩

/-- `make_delete` from `utils.py`. -/
def make_delete (v : α) : EditAction α := ⟨OpType.delete, v, none⟩

/-- `make_equal` from `utils.py`. -/
def make_equal (v : α) : EditAction α := ⟨OpType.equal, v, none⟩

/-- `make_replace` from `utils.py`. -/
def make_replace (nv ov : α) : EditAction α := ⟨OpType.replace, nv, some ov⟩

/-! ## Spec-side views of a script

The reconstruction invariant of the spec speaks about the `value`s of the
`Equal`/`Delete` entries (the original sequence) and of the
`Equal`/`Insert` entries (the modified sequence). -/

/-- Values of the `Equal`/`Delete` entries of a script, in order: the
original sequence the script describes. -/
def origOf (s : List (EditAction α)) : List α :=
  (s.filter fun e => e.op = OpType.equal ∨ e.op = OpType.delete).map (·.value)

/-- Values of the `Equal`/`Insert` entries of a script, in order: the
modified sequence the script describes. -/
def modOf (s : List (EditAction α)) : List α :=
  (s.filter fun e => e.op = OpType.equal ∨ e.op = OpType.insert).map (·.value)

/-- Number of non-`Equal` entries of a script (its cost). -/
def cost (s : List (EditAction α)) : Nat :=
  (s.filter fun e => e.op ≠ OpType.equal).length

/-- A script that uses only `Insert`/`Delete`/`Equal` entries. -/
def ReplaceFree (s : List (EditAction α)) : Prop :=
  ∀ e ∈ s, e.op ≠ OpType.replace

/-- A script transforms `A` into `B` when its `Equal`/`Delete` values spell
`A` and its `Equal`/`Insert` values spell `B`, using no `Replace`. -/
def ValidScript (s : List (EditAction α)) (A B : List α) : Prop :=
  ReplaceFree s ∧ origOf s = A ∧ modOf s = B

/-- The costs realizable by insert/delete edit scripts from `A` to `B`. -/
def edCosts (A B : List α) : Set Nat :=
  {c | ∃ s : List (EditAction α), ValidScript s A B ∧ cost s = c}

/-! ## Python list indexing -/

/-- Python list indexing: non-negative indices from the front, negative
indices wrap from the back; out of range gives `none` (an `IndexError`
in the source, which never happens on the paths the code reaches). -/
def pyGet (l : List α) (i : Int) : Option α :=
  if 0 ≤ i then l.get? i.toNat else l.get? (i + l.length).toNat

/-- In-range Python indexing with the `Option` peeled off. -/
def pyIdx (l : List α) (i : Int) : α := (pyGet l i).getD default

/-- Python slicing `l[s:e]` for the non-negative bounds the code uses. -/
def pySlice (l : List α) (s e : Int) : List α :=
  (l.drop s.toNat).take (e - s).toNat

/-! ## `patch` — `myers.py` lines 86–112

The cursor `orig_idx` starts at `0` and only increments, so it is a `Nat`.
Each `raise ValueError` becomes `none`. -/

/-- The loop of `patch`, with the final cursor check folded in at the end
of the script. -/
def patchGo (original : List α) : List (EditAction α) → Nat → Option (List α)
  | [], idx => if idx = original.length then some [] else none
  | e :: rest, idx =>
    if e.op = OpType.equal then
      match original.get? idx with
      | none => none
      | some x =>
        if x = e.value then (patchGo original rest (idx + 1)).map (e.value :: ·)
        else none
    else if e.op = OpType.delete then
      match original.get? idx with
      | none => none
      | some x => if x = e.value then patchGo original rest (idx + 1) else none
    else if e.op = OpType.insert then
      (patchGo original rest idx).map (e.value :: ·)
    else -- REPLACE: only the bounds check, the value is never compared
      match original.get? idx with
      | none => none
      | some _ => (patchGo original rest (idx + 1)).map (e.value :: ·)

/-- `patch(original, script)` from `myers.py`. -/
def patch (original : List α) (script : List (EditAction α)) : Option (List α) :=
  patchGo original script 0

/-! ## Quadratic engine — `MyersDiff` in `myers.py`

The diagonal map `v` is a total function `Int → Int` (see the header
comment); the seed `{1: 0}` is extensionally the all-zero function. -/

/-- Functional update of a diagonal map, `v[k] = x`. -/
def upd (v : Int → Int) (k x : Int) : Int → Int :=
  fun j => if j = k then x else v j

/-- The greedy choice of the starting `x` on diagonal `k` at depth `d`:
`if k == -d or (k != d and v.get(k-1,0) < v.get(k+1,0)): x = v.get(k+1,0)
else: x = v.get(k-1,0) + 1` (`myers.py` lines 33–36). -/
def chooseX (v : Int → Int) (d k : Int) : Int :=
  if k = -d ∨ (k ≠ d ∧ v (k - 1) < v (k + 1)) then v (k + 1) else v (k - 1) + 1

/-- The loop body of the snake slide, structurally recursive on a fuel
that counts the iterations the guard `x < n` still allows. -/
def slideGo (a b : List α) : Nat → Int → Int → Int × Int
  | 0, x, y => (x, y)
  | fuel + 1, x, y =>
    if x < (a.length : Int) ∧ y < (b.length : Int) ∧ pyGet a x = pyGet b y then
      slideGo a b fuel (x + 1) (y + 1)
    else (x, y)

/-- The snake slide, `while x < n and y < m and original[x] == modified[y]`
(`myers.py` lines 38–40).  The fuel `(n - x).toNat` is exhausted exactly
when the guard `x < n` fails, so this is the while loop verbatim. -/
def slideEnd (a b : List α) (x y : Int) : Int × Int :=
  slideGo a b ((a.length : Int) - x).toNat x y

/-- `range(-d, d + 1, 2)`: the diagonals visited at depth `d`. -/
def ks (d : Int) : List Int :=
  (List.range (d.toNat + 1)).map fun i : Nat => -d + 2 * (i : Int)

/-- The inner `for k` loop of `_find_path` at depth `d`: threads the map
`v`, returning early with the reached corner when `x >= n and y >= m`. -/
def fwdSteps (a b : List α) (d : Int) :
    List Int → (Int → Int) → (Int → Int) × Option (Int × Int)
  | [], v => (v, none)
  | k :: rest, v =>
    let x0 := chooseX v d k
    let p := slideEnd a b x0 (x0 - k)
    let v' := upd v k p.1
    if (a.length : Int) ≤ p.1 ∧ (b.length : Int) ≤ p.2 then (v', some (p.1, p.2))
    else fwdSteps a b d rest v'

/-- The outer `for d` loop of `_find_path`: appends a copy of `v` to the
trace at the start of each depth; on success returns the depth reached.
`fuel` stands for the remaining iterations of `range(max_d + 1)`. -/
def findPathGo (a b : List α) :
    Nat → Int → (Int → Int) → List (Int → Int) → List (Int → Int) × Option Int
  | 0, _, _, trace => (trace, none)
  | fuel + 1, d, v, trace =>
    let trace' := trace ++ [v]
    match fwdSteps a b d (ks d) v with
    | (_, some _) => (trace', some d)
    | (v', none) => findPathGo a b fuel (d + 1) v' trace'

/-- `_find_path` (`myers.py` lines 25–45) together with the
`_edit_distance` it records (`none` when the loop runs out, as for the
early-returned empty-input cases that never call it). -/
def findPath (a b : List α) : List (Int → Int) × Option Int :=
  findPathGo a b (a.length + b.length + 1) 0 (fun _ => 0) []

/-- The loop body of the backward snake walk, structurally recursive on a
fuel that counts the iterations the guard `x > prev_x` still allows. -/
def backSnakeGo (a : List α) : Nat → Int → Int → Int → Int → Int × Int × List (EditAction α)
  | 0, x, y, _, _ => (x, y, [])
  | fuel + 1, x, y, px, py =>
    if px < x ∧ py < y then
      let r := backSnakeGo a fuel (x - 1) (y - 1) px py
      (r.1, r.2.1, make_equal (pyIdx a (x - 1)) :: r.2.2)
    else (x, y, [])

/-- The `while x > prev_x and y > prev_y` loop of `_trace_path`: walks the
snake backwards, emitting `Equal` entries in the order the source appends
them to `script_reversed`.  The fuel `(x - px).toNat` is exhausted exactly
when the guard `x > prev_x` fails. -/
def backSnake (a : List α) (x y px py : Int) : Int × Int × List (EditAction α) :=
  backSnakeGo a (x - px).toNat x y px py

/-- The `for d in range(len(trace) - 1, -1, -1)` loop of `_trace_path`,
consuming the trace back to front (each entry paired with its depth) and
producing `script_reversed`. -/
def tracePathGo (a b : List α) :
    List (Nat × (Int → Int)) → Int → Int → List (EditAction α)
  | [], _, _ => []
  | (d, v) :: rest, x, y =>
    let k := x - y
    let pk :=
      if k = -(d : Int) ∨ (k ≠ (d : Int) ∧ v (k - 1) < v (k + 1)) then k + 1 else k - 1
    let px := v pk
    let py := px - pk
    let r := backSnake a x y px py
    if 0 < d then
      if r.1 = px then
        r.2.2 ++ make_insert (pyIdx b (r.2.1 - 1)) :: tracePathGo a b rest r.1 (r.2.1 - 1)
      else
        r.2.2 ++ make_delete (pyIdx a (r.1 - 1)) :: tracePathGo a b rest (r.1 - 1) r.2.1
    else r.2.2 ++ tracePathGo a b rest r.1 r.2.1

/-- `_trace_path` (`myers.py` lines 47–71): walk the trace backwards from
`(n, m)` and reverse the accumulated script. -/
def tracePath (a b : List α) (trace : List (Int → Int)) : List (EditAction α) :=
  (tracePathGo a b trace.enum.reverse (a.length : Int) (b.length : Int)).reverse

/-- `MyersDiff.compute` (`myers.py` lines 15–23). -/
def compute (a b : List α) : List (EditAction α) :=
  if a.length = 0 ∧ b.length = 0 then []
  else if a.length = 0 then b.map make_insert
  else if b.length = 0 then a.map make_delete
  else tracePath a b (findPath a b).1

/-- `diff(original, modified)` (`myers.py` lines 82–84). -/
def diff (a b : List α) : List (EditAction α) := compute a b

/-- `edit_distance` (`myers.py` lines 114–116) through
`get_edit_distance` (lines 73–76): the empty-input early returns of
`compute` never set `_edit_distance`, and `self._edit_distance or 0`
substitutes `0`. -/
def edit_distance (a b : List α) : Int :=
  if a.length = 0 ∧ b.length = 0 then 0
  else if a.length = 0 then 0
  else if b.length = 0 then 0
  else ((findPath a b).2).getD 0

/-- The value the inner loop computes and stores for diagonal `k` at depth
`d` from the diagonal map `v`: the greedy start `chooseX` followed by the
snake slide. -/
def fwdVal (a b : List α) (v : Int → Int) (d k : Int) : Int :=
  (slideEnd a b (chooseX v d k) (chooseX v d k - k)).1

/-- The diagonal map of `_find_path` at the start of depth `d`, assuming
no earlier depth fired: depth `d`'s entry of the recorded trace. -/
def runState (a b : List α) : Nat → (Int → Int)
  | 0 => fun _ => 0
  | d + 1 => (fwdSteps a b (d : Int) (ks (d : Int)) (runState a b d)).1

/-- A run of `Equal` entries for `a[x0], a[x0+1], …` of length `s`. -/
def runEquals (a : List α) (x0 : Int) (s : Nat) : List (EditAction α) :=
  (List.range s).map fun i => make_equal (pyIdx a (x0 + i))

/-- The depth-annotated trace of the pruned run, deepest entry first: the
list `_trace_path` iterates over when no depth below `dd` fired. -/
def revTrace (a b : List α) (dd : Nat) : List (Nat × (Int → Int)) :=
  ((List.range (dd + 1)).map fun i : Nat => (i, runState a b i)).reverse

/-! ## Linear-space engine — `LinearSpaceMyers` in `hirschberg.py`

The arrays `v_forward`/`v_backward` (indexed `k + max_d`, initialized to
zero) are modelled as total functions `Int → Int`; the only accesses the
guards allow are in range, so the array-offset plumbing is invisible. -/

/-- Loop body of the backward snake slide of `_find_middle_snake`,
structurally recursive on the same style of fuel as `slideGo`. -/
def slideRevGo (a b : List α) : Nat → Int → Int → Int × Int
  | 0, x, y => (x, y)
  | fuel + 1, x, y =>
    if x < (a.length : Int) ∧ y < (b.length : Int) ∧
        pyGet a ((a.length : Int) - 1 - x) = pyGet b ((b.length : Int) - 1 - y) then
      slideRevGo a b fuel (x + 1) (y + 1)
    else (x, y)

/-- The backward snake slide of `_find_middle_snake`:
`while x < n and y < m and a[n - 1 - x] == b[m - 1 - y]`. -/
def slideEndRev (a b : List α) (x y : Int) : Int × Int :=
  slideRevGo a b ((a.length : Int) - x).toNat x y

/-- The value the backward `for k` loop computes and stores for diagonal
`k` from the backward map `v`: greedy start, then the reverse snake slide. -/
def bwdVal (a b : List α) (v : Int → Int) (d k : Int) : Int :=
  (slideEndRev a b (chooseX v d k) (chooseX v d k - k)).1

/-- The forward `for k` half-step of `_find_middle_snake` at depth `d`,
with the odd-delta overlap check. -/
def snakeFwdSteps (a b : List α) (n delta : Int) (odd : Bool) (d : Int) :
    List Int → (Int → Int) → (Int → Int) →
      (Int → Int) × Option (Int × Int × Int × Int × Int)
  | [], vf, _ => (vf, none)
  | k :: rest, vf, vb =>
    let x0 := chooseX vf d k
    let p := slideEnd a b x0 (x0 - k)
    let vf' := upd vf k p.1
    if odd ∧ (-(d - 1) ≤ k - delta ∧ k - delta ≤ d - 1) ∧ n ≤ vf' k + vb (delta - k) then
      (vf', some (x0, x0 - k, p.1, p.2, 2 * d - 1))
    else snakeFwdSteps a b n delta odd d rest vf' vb

/-- The backward `for k` half-step of `_find_middle_snake` at depth `d`,
with the even-delta overlap check. -/
def snakeBwdSteps (a b : List α) (n m delta : Int) (odd : Bool) (d : Int) :
    List Int → (Int → Int) → (Int → Int) →
      (Int → Int) × Option (Int × Int × Int × Int × Int)
  | [], _, vb => (vb, none)
  | k :: rest, vf, vb =>
    let x0 := chooseX vb d k
    let p := slideEndRev a b x0 (x0 - k)
    let vb' := upd vb k p.1
    if ¬odd ∧ (-d ≤ k - delta ∧ k - delta ≤ d) ∧ n ≤ vb' k + vf (delta - k) then
      (vb', some (n - vb' k, m - (vb' k - k), n - p.1, m - p.2, 2 * d))
    else snakeBwdSteps a b n m delta odd d rest vf vb'

/-- The `for d` loop of `_find_middle_snake`; `fuel` stands for the
remaining iterations of `range(max_d + 1)`. -/
def findMiddleSnakeGo (a b : List α) (n m delta : Int) (odd : Bool) :
    Nat → Int → (Int → Int) → (Int → Int) → Option (Int × Int × Int × Int × Int)
  | 0, _, _, _ => none
  | fuel + 1, d, vf, vb =>
    match snakeFwdSteps a b n delta odd d (ks d) vf vb with
    | (_, some r) => some r
    | (vf', none) =>
      match snakeBwdSteps a b n m delta odd d (ks d) vf' vb with
      | (_, some r) => some r
      | (vb', none) => findMiddleSnakeGo a b n m delta odd fuel (d + 1) vf' vb'

/-- `LinearSpaceMyers._find_middle_snake` (`hirschberg.py` lines 147–194);
the final `return (0, 0, n, m, n + m)` is the `getD` default. -/
def find_middle_snake (a b : List α) : Int × Int × Int × Int × Int :=
  let n : Int := a.length
  let m : Int := b.length
  let delta := n - m
  (findMiddleSnakeGo a b n m delta (delta % 2 ≠ 0) (((n + m + 1) / 2).toNat + 1)
      0 (fun _ => 0) (fun _ => 0)).getD (0, 0, n, m, n + m)

/-- Sanity of a returned middle snake `(xm, ym, u, v, dv)` against the
inputs: it lies on the grid, runs along one diagonal over equal elements,
and when its reported distance sends `_lcs_diff` into the recursive branch
both sub-problems are strictly smaller. -/
def SnakeOK (a b : List α) (r : Int × Int × Int × Int × Int) : Prop :=
  0 ≤ r.1 ∧ r.1 ≤ r.2.2.1 ∧ r.2.2.1 ≤ (a.length : Int) ∧
  0 ≤ r.2.1 ∧ r.2.1 ≤ r.2.2.2.1 ∧ r.2.2.2.1 ≤ (b.length : Int) ∧
  r.2.2.1 - r.1 = r.2.2.2.1 - r.2.1 ∧
  (∀ i : Int, r.1 ≤ i → i < r.2.2.1 → pyGet a i = pyGet b (i - r.1 + r.2.1)) ∧
  (1 < r.2.2.2.2 →
    r.1 + r.2.1 < (a.length : Int) + (b.length : Int) ∧ 0 < r.2.2.1 + r.2.2.2.1)

/-- `LinearSpaceMyers._simple_diff` (`hirschberg.py` lines 125–145).
Inside the main `while i < len(a) and j < len(b)` loop the guard of the
`elif i < len(a)` branch is always true, so its `else` branch (an insert)
is dead code; the two trailing `while` loops drain the leftovers. -/
def simple_diff : List α → List α → List (EditAction α)
  | x :: a, y :: b =>
    if x = y then make_equal x :: simple_diff a b
    else make_delete x :: simple_diff a (y :: b)
  | a, b => a.map make_delete ++ b.map make_insert

/-- The `for i in range(x_mid, u)` loop of `_lcs_diff` emitting the middle
snake's `Equal` entries. -/
def middleEquals (orig : List α) (xs xmid u : Int) : List (EditAction α) :=
  (List.range (u - xmid).toNat).map
    fun i : Nat => make_equal (pyIdx orig (xs + (xmid + (i : Int))))

/-- `LinearSpaceMyers._lcs_diff` (`hirschberg.py` lines 102–123).  The
Python recursion carries index ranges into the two buffers; `fuel` bounds
the recursion depth, `none` standing for a `RecursionError`. -/
def lcsDiff (orig modl : List α) :
    Nat → Int → Int → Int → Int → Option (List (EditAction α))
  | 0, _, _, _, _ => none
  | fuel + 1, xs, xe, ys, ye =>
    let a := pySlice orig xs xe
    let b := pySlice modl ys ye
    if a.length = 0 then some (b.map make_insert)
    else if b.length = 0 then some (a.map make_delete)
    else if a.length = 1 ∨ b.length = 1 then some (simple_diff a b)
    else
      let s := find_middle_snake a b
      if 1 < s.2.2.2.2 then do
        let left ← lcsDiff orig modl fuel xs (xs + s.1) ys (ys + s.2.1)
        let right ← lcsDiff orig modl fuel (xs + s.2.2.1) xe (ys + s.2.2.2.1) ye
        some (left ++ middleEquals orig xs s.1 s.2.2.1 ++ right)
      else some (simple_diff a b)

/-- `LinearSpaceMyers.compute` (`hirschberg.py` lines 93–100).  The fuel
`n + m + 1` bounds the divide-and-conquer depth, which Python leaves to
the interpreter's recursion limit. -/
def linearCompute (a b : List α) : Option (List (EditAction α)) :=
  if a.length = 0 ∧ b.length = 0 then some []
  else if a.length = 0 then some (b.map make_insert)
  else if b.length = 0 then some (a.map make_delete)
  else lcsDiff a b (a.length + b.length + 1) 0 (a.length : Int) 0 (b.length : Int)

/-- `diff_linear_myers` (`hirschberg.py` lines 197–199). -/
def diff_linear_myers (a b : List α) : Option (List (EditAction α)) :=
  linearCompute a b

/-- `DiffEngine.diff` (`hirschberg.py` lines 206–210): dispatches between
the linear-space engine and the quadratic one. -/
def engineDiff (useLinearSpace : Bool) (a b : List α) : Option (List (EditAction α)) :=
  if useLinearSpace then diff_linear_myers a b else some (diff a b)

/-! ## `split_into_hunks` — `utils.py` lines 171–192 -/

/-- Indices of the non-`Equal` entries of a script, in order. -/
def changeIndices (script : List (EditAction α)) : List Nat :=
  (script.enum.filter fun p => p.2.op ≠ OpType.equal).map (·.1)

/-- `script[s : e + 1]` as the source slices a hunk out. -/
def hunkSlice (script : List (EditAction α)) (s e : Nat) : List (EditAction α) :=
  (script.drop s).take (e + 1 - s)

/-- The `for idx in change_indices[1:]` loop of `split_into_hunks`,
carrying the current window `[s, e]`.  Natural-number subtraction renders
Python's `max(0, idx - context)` clipping. -/
def hunksGo (script : List (EditAction α)) (context : Nat) :
    List Nat → Nat → Nat → List (List (EditAction α))
  | [], s, e => [hunkSlice script s e]
  | idx :: rest, s, e =>
    if idx - context ≤ e + 1 then
      hunksGo script context rest s (min (script.length - 1) (idx + context))
    else
      hunkSlice script s e ::
        hunksGo script context rest (idx - context) (min (script.length - 1) (idx + context))

/-- `split_into_hunks(script, context)` from `utils.py`.  The claims only
concern non-negative contexts, so `context : Nat`. -/
def split_into_hunks (script : List (EditAction α)) (context : Nat) :
    List (List (EditAction α)) :=
  if script.isEmpty then []
  else
    match changeIndices script with
    | [] => []
    | c :: cs => hunksGo script context cs (c - context) (min (script.length - 1) (c + context))

/-! ## Claim-side definitions -/

/-- The failure condition of `apply` as claim C5 states it: an `Equal`,
`Delete` or `Replace` entry whose recorded value does not match `original`
at the cursor (out of range counting as a mismatch), or a final cursor
different from `len(original)`.  `Insert` entries do not move the cursor. -/
def claimPatchFails (original : List α) : List (EditAction α) → Nat → Bool
  | [], idx => idx ≠ original.length
  | e :: rest, idx =>
    if e.op = OpType.insert then claimPatchFails original rest idx
    else original.get? idx ≠ some e.value || claimPatchFails original rest (idx + 1)

/-- The failure condition `patch` actually implements: as claim C5, except
that a `Replace` entry is only bounds-checked — its value is never
compared against `original`. -/
def codePatchFails (original : List α) : List (EditAction α) → Nat → Bool
  | [], idx => idx ≠ original.length
  | e :: rest, idx =>
    if e.op = OpType.insert then codePatchFails original rest idx
    else if e.op = OpType.replace then
      original.length ≤ idx || codePatchFails original rest (idx + 1)
    else original.get? idx ≠ some e.value || codePatchFails original rest (idx + 1)

/-- Hunk windows as claim C9 literally states them: change indices are
merged when they lie within `context` entries of each other. -/
def claimHunksGo (script : List (EditAction α)) (context : Nat) :
    List Nat → Nat → Nat → List (List (EditAction α))
  | [], first, last =>
    [hunkSlice script (first - context) (min (script.length - 1) (last + context))]
  | idx :: rest, first, last =>
    if idx - last ≤ context then claimHunksGo script context rest first idx
    else
      hunkSlice script (first - context) (min (script.length - 1) (last + context)) ::
        claimHunksGo script context rest idx idx

/-- Hunk windows per claim C9's literal reading. -/
def claimHunks (script : List (EditAction α)) (context : Nat) :
    List (List (EditAction α)) :=
  match changeIndices script with
  | [] => []
  | c :: cs => claimHunksGo script context cs c c

/-- Hunk windows as the code computes them: change indices are merged
exactly when their context-extended windows overlap or touch, i.e. when
successive change indices are at most `2 * context + 1` apart. -/
def amendedHunksGo (script : List (EditAction α)) (context : Nat) :
    List Nat → Nat → Nat → List (List (EditAction α))
  | [], first, last =>
    [hunkSlice script (first - context) (min (script.length - 1) (last + context))]
  | idx :: rest, first, last =>
    if idx - last ≤ 2 * context + 1 then amendedHunksGo script context rest first idx
    else
      hunkSlice script (first - context) (min (script.length - 1) (last + context)) ::
        amendedHunksGo script context rest idx idx

/-- Hunk windows of the amended claim C9. -/
def amendedHunks (script : List (EditAction α)) (context : Nat) :
    List (List (EditAction α)) :=
  match changeIndices script with
  | [] => []
  | c :: cs => amendedHunksGo script context cs c c

/-- Scripts whose entries are only `Insert`, `Delete` or `Equal` — what
claim C8 asserts about everything the engines emit. -/
def pureOps (s : List (EditAction α)) : Prop :=
  ∀ e ∈ s, e.op = OpType.insert ∨ e.op = OpType.delete ∨ e.op = OpType.equal

/-- Reachability in the edit graph of `a` against `b`: `Reach a b d x y`
holds when some insert/delete/equal script transforms `a.take x` into
`b.take y` using `d` non-`Equal` operations.  This is the path notion of
the Myers algorithm: horizontal moves delete, vertical moves insert,
diagonal moves consume equal elements for free. -/
inductive Reach (a b : List α) : Nat → Nat → Nat → Prop
  | nil : Reach a b 0 0 0
  | del {d x y} : Reach a b d x y → x < a.length → Reach a b (d + 1) (x + 1) y
  | ins {d x y} : Reach a b d x y → y < b.length → Reach a b (d + 1) x (y + 1)
  | eq {d x y} : Reach a b d x y → (hx : x < a.length) → (hy : y < b.length) →
      a.get ⟨x, hx⟩ = b.get ⟨y, hy⟩ → Reach a b d (x + 1) (y + 1)

/-- Invariant of a value `x` stored for diagonal `k` at depth `d` of the
forward search.  First, soundness: some genuinely reached grid point
`(x₀, y₀)` lies (weakly) below-left of `(x, x - k)` and the spent budget
`d` covers its depth plus the city-block distance to `(x, x - k)` (the
search can step one past the grid edges; such overshoot values still cost
moves).  Second, exactness on the grid: when `(x, x - k)` lies within the
grid it is reached at exactly depth `d`. -/
def PtInv (a b : List α) (d : Nat) (k x : Int) : Prop :=
  (∃ (x₀ y₀ d₀ : Nat), (x₀ : Int) ≤ x ∧ (y₀ : Int) ≤ x - k ∧ Reach a b d₀ x₀ y₀ ∧
      (d₀ : Int) + (x - x₀) + (x - k - y₀) ≤ (d : Int)) ∧
  (x ≤ (a.length : Int) → x - k ≤ (b.length : Int) →
    Reach a b d x.toNat (x - k).toNat)

/-! # Theorems -/

/-! ## Basic script lemmas -/

@[simp]
theorem origOf_nil : origOf ([] : List (EditAction α)) = [] := rfl

@[simp]
theorem modOf_nil : modOf ([] : List (EditAction α)) = [] := rfl

@[simp]
theorem cost_nil : cost ([] : List (EditAction α)) = 0 := rfl

@[simp]
theorem origOf_equal_cons (v : α) (s : List (EditAction α)) :
    origOf (make_equal v :: s) = v :: origOf s := by
  simp [origOf, make_equal]

@[simp]
theorem origOf_delete_cons (v : α) (s : List (EditAction α)) :
    origOf (make_delete v :: s) = v :: origOf s := by
  simp [origOf, make_delete]

@[simp]
theorem origOf_insert_cons (v : α) (s : List (EditAction α)) :
    origOf (make_insert v :: s) = origOf s := by
  simp [origOf, make_insert]

@[simp]
theorem modOf_equal_cons (v : α) (s : List (EditAction α)) :
    modOf (make_equal v :: s) = v :: modOf s := by
  simp [modOf, make_equal]

@[simp]
theorem modOf_delete_cons (v : α) (s : List (EditAction α)) :
    modOf (make_delete v :: s) = modOf s := by
  simp [modOf, make_delete]

@[simp]
theorem modOf_insert_cons (v : α) (s : List (EditAction α)) :
    modOf (make_insert v :: s) = v :: modOf s := by
  simp [modOf, make_insert]

@[simp]
theorem cost_equal_cons (v : α) (s : List (EditAction α)) :
    cost (make_equal v :: s) = cost s := by
  simp [cost, make_equal]

@[simp]
theorem cost_delete_cons (v : α) (s : List (EditAction α)) :
    cost (make_delete v :: s) = cost s + 1 := by
  simp [cost, make_delete]

@[simp]
theorem cost_insert_cons (v : α) (s : List (EditAction α)) :
    cost (make_insert v :: s) = cost s + 1 := by
  simp [cost, make_insert]

@[simp]
theorem origOf_cons_ins (v : α) (ov : Option α) (s : List (EditAction α)) :
    origOf (⟨OpType.insert, v, ov⟩ :: s) = origOf s := by
  simp [origOf]

@[simp]
theorem origOf_cons_del (v : α) (ov : Option α) (s : List (EditAction α)) :
    origOf (⟨OpType.delete, v, ov⟩ :: s) = v :: origOf s := by
  simp [origOf]

@[simp]
theorem origOf_cons_eq (v : α) (ov : Option α) (s : List (EditAction α)) :
    origOf (⟨OpType.equal, v, ov⟩ :: s) = v :: origOf s := by
  simp [origOf]

@[simp]
theorem origOf_cons_rep (v : α) (ov : Option α) (s : List (EditAction α)) :
    origOf (⟨OpType.replace, v, ov⟩ :: s) = origOf s := by
  simp [origOf]

@[simp]
theorem modOf_cons_ins (v : α) (ov : Option α) (s : List (EditAction α)) :
    modOf (⟨OpType.insert, v, ov⟩ :: s) = v :: modOf s := by
  simp [modOf]

@[simp]
theorem modOf_cons_del (v : α) (ov : Option α) (s : List (EditAction α)) :
    modOf (⟨OpType.delete, v, ov⟩ :: s) = modOf s := by
  simp [modOf]

@[simp]
theorem modOf_cons_eq (v : α) (ov : Option α) (s : List (EditAction α)) :
    modOf (⟨OpType.equal, v, ov⟩ :: s) = v :: modOf s := by
  simp [modOf]

@[simp]
theorem modOf_cons_rep (v : α) (ov : Option α) (s : List (EditAction α)) :
    modOf (⟨OpType.replace, v, ov⟩ :: s) = modOf s := by
  simp [modOf]

@[simp]
theorem cost_cons_ins (v : α) (ov : Option α) (s : List (EditAction α)) :
    cost (⟨OpType.insert, v, ov⟩ :: s) = cost s + 1 := by
  simp [cost]

@[simp]
theorem cost_cons_del (v : α) (ov : Option α) (s : List (EditAction α)) :
    cost (⟨OpType.delete, v, ov⟩ :: s) = cost s + 1 := by
  simp [cost]

@[simp]
theorem cost_cons_eq (v : α) (ov : Option α) (s : List (EditAction α)) :
    cost (⟨OpType.equal, v, ov⟩ :: s) = cost s := by
  simp [cost]

@[simp]
theorem cost_cons_rep (v : α) (ov : Option α) (s : List (EditAction α)) :
    cost (⟨OpType.replace, v, ov⟩ :: s) = cost s + 1 := by
  simp [cost]

@[simp]
theorem origOf_append (s t : List (EditAction α)) :
    origOf (s ++ t) = origOf s ++ origOf t := by
  simp [origOf]

@[simp]
theorem modOf_append (s t : List (EditAction α)) :
    modOf (s ++ t) = modOf s ++ modOf t := by
  simp [modOf]

@[simp]
theorem cost_append (s t : List (EditAction α)) :
    cost (s ++ t) = cost s + cost t := by
  simp [cost]

@[simp]
theorem origOf_map_insert (l : List α) : origOf (l.map make_insert) = [] := by
  induction l with
  | nil => rfl
  | cons x xs ih => simpa using ih

@[simp]
theorem modOf_map_insert (l : List α) : modOf (l.map make_insert) = l := by
  induction l with
  | nil => rfl
  | cons x xs ih => simpa using ih

@[simp]
theorem origOf_map_delete (l : List α) : origOf (l.map make_delete) = l := by
  induction l with
  | nil => rfl
  | cons x xs ih => simpa using ih

@[simp]
theorem modOf_map_delete (l : List α) : modOf (l.map make_delete) = [] := by
  induction l with
  | nil => rfl
  | cons x xs ih => simpa using ih

@[simp]
theorem cost_map_insert (l : List α) : cost (l.map make_insert) = l.length := by
  induction l with
  | nil => rfl
  | cons x xs ih => simp [ih]

@[simp]
theorem cost_map_delete (l : List α) : cost (l.map make_delete) = l.length := by
  induction l with
  | nil => rfl
  | cons x xs ih => simp [ih]

/-! ## Claim C6 — boundary behavior on empty inputs -/

/-- **C6.** `diff([], B)` is exactly `len(B)` `Insert` entries carrying
`B`'s elements in order, and `diff(A, [])` is exactly `len(A)` `Delete`
entries in `A`'s order — in the quadratic engine and in the linear-space
engine alike. -/
theorem C6_boundary_empty (B : List α) :
    diff ([] : List α) B = B.map make_insert ∧
    diff B ([] : List α) = B.map make_delete ∧
    diff_linear_myers ([] : List α) B = some (B.map make_insert) ∧
    diff_linear_myers B ([] : List α) = some (B.map make_delete) := by
  refine ⟨?_, ?_, ?_, ?_⟩ <;>
    cases B with
    | nil => rfl
    | cons x xs => simp [diff, compute, diff_linear_myers, linearCompute]

/-! ## Claim C10 — `edit_distance` returns 0 when either input is empty -/

/-- **C10.** Whenever either input sequence is empty, `edit_distance`
returns `0` — the empty-input early returns of `compute` never set the
internal `_edit_distance`, and `get_edit_distance` substitutes `0`. -/
theorem C10_edit_distance_empty_zero (A : List α) :
    edit_distance A ([] : List α) = 0 ∧ edit_distance ([] : List α) A = 0 := by
  constructor <;> by_cases h : A.length = 0 <;> simp [edit_distance, h]

/-! ## Scripts of zero cost -/

theorem all_equal_of_cost_eq_zero {s : List (EditAction α)} (h : cost s = 0) :
    ∀ e ∈ s, e.op = OpType.equal := by
  intro e he
  by_contra hne
  have : e ∈ s.filter fun e => e.op ≠ OpType.equal := by
    simp [List.mem_filter, he, hne]
  have hpos : 0 < (s.filter fun e => e.op ≠ OpType.equal).length :=
    List.length_pos.mpr (List.ne_nil_of_mem this)
  simp only [cost] at h
  omega

theorem origOf_eq_modOf_of_all_equal {s : List (EditAction α)}
    (h : ∀ e ∈ s, e.op = OpType.equal) : origOf s = modOf s := by
  induction s with
  | nil => rfl
  | cons e rest ih =>
    have he : e.op = OpType.equal := h e (List.mem_cons_self _ _)
    have ih' := ih fun e' he' => h e' (List.mem_cons_of_mem _ he')
    simp [origOf, modOf, List.filter_cons, he] at ih' ⊢
    exact ih'

/-! ## Claim C4 — `edit_distance` on an empty side (code bug)

The accessor `get_edit_distance` returns `self._edit_distance or 0`, and
the empty-input early returns of `compute` never set `_edit_distance`, so
`edit_distance(['a'], [])` is `0` while the true distance — the value the
repository's own unit test `test_edit_distance_one_empty` expects — is
the length of the non-empty side. -/

/-- **C4 (bug evaluation).** At the failing input `original = [1]`,
`modified = []`, the code returns `0`, while the minimum number of
insert/delete operations transforming `[1]` into `[]` is `1`. -/
theorem C4_edit_distance_empty_bug :
    edit_distance ([1] : List Nat) [] = 0 ∧ IsLeast (edCosts ([1] : List Nat) []) 1 := by
  refine ⟨by decide, ⟨[make_delete 1], ⟨?_, rfl, rfl⟩, rfl⟩, ?_⟩
  · intro e he
    simp only [List.mem_singleton] at he
    subst he
    decide
  · rintro c ⟨s, ⟨-, ho, hm⟩, hc⟩
    by_contra hlt
    have hc0 : cost s = 0 := by omega
    have := origOf_eq_modOf_of_all_equal (all_equal_of_cost_eq_zero hc0)
    rw [ho, hm] at this
    exact List.cons_ne_nil _ _ this

/-! ## Claim C7 — triangle inequality (counterexample via the C4 bug) -/

/-- **C7 (counterexample).** The triangle inequality fails for the code's
`edit_distance` when the middle sequence is empty: with `A = [1]`,
`B = []`, `C = [2]` the two right-hand calls hit the empty-input bug and
return `0`, while `edit_distance([1], [2]) = 2`. -/
theorem C7_triangle_counterexample :
    ¬ edit_distance ([1] : List Nat) [2] ≤
        edit_distance ([1] : List Nat) [] + edit_distance ([] : List Nat) [2] := by
  decide

/-! ## Claim C2 — cross-engine agreement (counterexample) -/

/-- **C2 (counterexample).** On `A = [1]`, `B = [2, 1]` the linear-space
engine returns the three-entry script `[Delete 1, Insert 2, Insert 1]`
(its `_simple_diff` base case never matches a later occurrence), while
the quadratic engine returns the two-entry script `[Insert 2, Equal 1]`:
the scripts do not have equal length. -/
theorem C2_length_counterexample :
    (diff_linear_myers ([1] : List Nat) [2, 1]).map List.length = some 3 ∧
      (diff ([1] : List Nat) [2, 1]).length = 2 := by
  constructor <;> decide

/-! ## Claim C9 — hunk windowing -/

theorem changeIndices_lt_length {script : List (EditAction α)} :
    ∀ i ∈ changeIndices script, i < script.length := by
  intro i hi
  simp only [changeIndices, List.mem_map, List.mem_filter] at hi
  obtain ⟨⟨j, e⟩, ⟨hmem, -⟩, rfl⟩ := hi
  have := List.mem_enum_iff_getElem?.mp hmem
  simp only at this
  exact (List.getElem?_eq_some.mp this).1

theorem hunksGo_eq_amendedHunksGo (script : List (EditAction α)) (context : Nat) :
    ∀ (rest : List Nat) (first last : Nat),
      (∀ i ∈ rest, i < script.length) → last < script.length →
      hunksGo script context rest (first - context)
          (min (script.length - 1) (last + context)) =
        amendedHunksGo script context rest first last := by
  intro rest
  induction rest with
  | nil => intro first last _ _; rfl
  | cons idx rest ih =>
    intro first last hrest hlast
    have hidx : idx < script.length := hrest idx (List.mem_cons_self _ _)
    have hrest' : ∀ i ∈ rest, i < script.length := fun i hi =>
      hrest i (List.mem_cons_of_mem _ hi)
    have hcond : (idx - context ≤ min (script.length - 1) (last + context) + 1) ↔
        (idx - last ≤ 2 * context + 1) := by omega
    by_cases h : idx - last ≤ 2 * context + 1
    · rw [hunksGo, amendedHunksGo, if_pos (hcond.mpr h), if_pos h]
      exact ih first idx hrest' hidx
    · rw [hunksGo, amendedHunksGo, if_neg (fun hc => h (hcond.mp hc)), if_neg h]
      rw [ih idx idx hrest' hidx]

/-- **C9 (amended).** `split_into_hunks` groups the non-`Equal` indices by
merging successive change indices whose context-extended windows overlap
or touch — i.e. lie at most `2·context + 1` apart — and returns, per
group, the slice from `first − context` to `min(len − 1, last + context)`,
in original order; a script without changes yields `[]`. -/
theorem C9_hunks_amended (script : List (EditAction α)) (context : Nat) :
    split_into_hunks script context = amendedHunks script context ∧
      (changeIndices script = [] → split_into_hunks script context = []) := by
  constructor
  · unfold split_into_hunks amendedHunks
    by_cases hemp : script.isEmpty
    · have : script = [] := List.isEmpty_iff.mp hemp
      subst this
      rfl
    · simp only [hemp, if_false, Bool.false_eq_true]
      match hci : changeIndices script with
      | [] => rfl
      | c :: cs =>
        have hlt := @changeIndices_lt_length α _ _ script
        rw [hci] at hlt
        exact hunksGo_eq_amendedHunksGo script context cs c c
          (fun i hi => hlt i (List.mem_cons_of_mem _ hi))
          (hlt c (List.mem_cons_self _ _))
  · intro hci
    unfold split_into_hunks
    by_cases hemp : script.isEmpty
    · simp [hemp]
    · simp only [hemp, if_false, Bool.false_eq_true, hci]

/-- Witness for `C9_hunks_amended` at a concrete input. -/
theorem C9_hunks_amended_witness :
    split_into_hunks ([make_delete 1, make_equal 2, make_equal 3, make_delete 4] :
        List (EditAction Nat)) 1 =
      amendedHunks [make_delete 1, make_equal 2, make_equal 3, make_delete 4] 1 ∧
    split_into_hunks ([make_equal 5, make_equal 6] : List (EditAction Nat)) 1 = [] :=
  ⟨(C9_hunks_amended _ 1).1,
    (C9_hunks_amended [make_equal 5, make_equal 6] 1).2 (by decide)⟩

/-- **C9 (counterexample).** With `context = 1` and the script
`[Delete, Equal, Equal, Delete]` the two change indices `0` and `3` are
*not* within `1` entry of each other, yet the code merges them into a
single hunk, because their context windows `[0,1]` and `[2,3]` touch:
the claim's literal grouping produces two hunks, the code one. -/
theorem C9_hunks_counterexample :
    split_into_hunks ([make_delete 1, make_equal 2, make_equal 3, make_delete 4] :
        List (EditAction Nat)) 1 ≠
      claimHunks [make_delete 1, make_equal 2, make_equal 3, make_delete 4] 1 := by
  decide

/-! ## Claim C5 — when `patch` fails -/

theorem patchGo_eq_none_iff (o : List α) :
    ∀ (s : List (EditAction α)) (idx : Nat),
      patchGo o s idx = none ↔ codePatchFails o s idx = true := by
  intro s
  induction s with
  | nil =>
    intro idx
    by_cases h : idx = o.length <;> simp [patchGo, codePatchFails, h]
  | cons e rest ih =>
    intro idx
    obtain ⟨op, v, ov⟩ := e
    cases op with
    | equal =>
      simp only [patchGo, codePatchFails]
      cases hg : o.get? idx with
      | none => simp [hg]
      | some x =>
        by_cases hx : x = v
        · subst hx
          simp [hg, Option.map_eq_none', ih (idx + 1)]
        · simp [hg, hx, fun h => hx (Option.some.inj h).symm]
    | delete =>
      simp only [patchGo, codePatchFails]
      cases hg : o.get? idx with
      | none => simp [hg]
      | some x =>
        by_cases hx : x = v
        · subst hx
          simp [hg, ih (idx + 1)]
        · simp [hg, hx, fun h => hx (Option.some.inj h).symm]
    | insert =>
      simp only [patchGo, codePatchFails]
      simpa using ih idx
    | replace =>
      simp only [patchGo, codePatchFails]
      cases hg : o.get? idx with
      | none =>
        have : o.length ≤ idx := by
          have := List.get?_eq_none.mp hg
          omega
        simp [hg, this]
      | some x =>
        have : ¬ o.length ≤ idx := by
          have := (List.get?_eq_some.mp hg).1
          omega
        simp [hg, this, Option.map_eq_none', ih (idx + 1)]

theorem patchGo_success (o : List α) :
    ∀ (s : List (EditAction α)) (idx : Nat), ReplaceFree s →
      origOf s = o.drop idx → idx ≤ o.length →
      patchGo o s idx = some (modOf s) := by
  intro s
  induction s with
  | nil =>
    intro idx _ ho hle
    have : o.drop idx = [] := ho.symm
    have : o.length ≤ idx := by
      have := List.drop_eq_nil_iff_le.mp this
      omega
    have : idx = o.length := le_antisymm hle this
    simp [patchGo, this, modOf]
  | cons e rest ih =>
    intro idx hrf ho hle
    have hrf' : ReplaceFree rest := fun e' he' => hrf e' (List.mem_cons_of_mem _ he')
    obtain ⟨op, v, ov⟩ := e
    cases op with
    | equal =>
      have ho' : v :: origOf rest = o.drop idx := by
        simpa [origOf, make_equal, List.filter_cons] using ho
      have hidx : idx < o.length := by
        by_contra hge
        rw [List.drop_eq_nil_of_le (by omega)] at ho'
        exact List.cons_ne_nil _ _ ho'
      rw [List.drop_eq_getElem_cons hidx] at ho'
      have hv : o[idx] = v := (List.cons.injEq _ _ _ _ ▸ ho').1.symm
      have hrest : origOf rest = o.drop (idx + 1) :=
        (List.cons.injEq _ _ _ _ ▸ ho').2
      have hg : o.get? idx = some v := by
        rw [List.get?_eq_getElem?, List.getElem?_eq_getElem hidx, hv]
      simp only [patchGo, hg]
      rw [ih (idx + 1) hrf' hrest (by omega)]
      simp [modOf, make_equal, List.filter_cons]
    | delete =>
      have ho' : v :: origOf rest = o.drop idx := by
        simpa [origOf, make_delete, List.filter_cons] using ho
      have hidx : idx < o.length := by
        by_contra hge
        rw [List.drop_eq_nil_of_le (by omega)] at ho'
        exact List.cons_ne_nil _ _ ho'
      rw [List.drop_eq_getElem_cons hidx] at ho'
      have hv : o[idx] = v := (List.cons.injEq _ _ _ _ ▸ ho').1.symm
      have hrest : origOf rest = o.drop (idx + 1) :=
        (List.cons.injEq _ _ _ _ ▸ ho').2
      have hg : o.get? idx = some v := by
        rw [List.get?_eq_getElem?, List.getElem?_eq_getElem hidx, hv]
      simp only [patchGo, hg]
      rw [ih (idx + 1) hrf' hrest (by omega)]
      simp [modOf, make_delete, List.filter_cons]
    | insert =>
      have ho' : origOf rest = o.drop idx := by
        simpa [origOf, make_insert, List.filter_cons] using ho
      simp only [patchGo]
      rw [ih idx hrf' ho' hle]
      simp [modOf, make_insert, List.filter_cons]
    | replace =>
      exact absurd rfl (hrf ⟨OpType.replace, v, ov⟩ (List.mem_cons_self _ _))

/-- **C5 (amended).** `patch` fails exactly when an `Equal` or `Delete`
entry's recorded value does not match `original` at the cursor (out of
range included), when a `Replace` entry occurs with the cursor out of
range — a `Replace` entry's value is only bounds-checked, never compared —
or when the final cursor differs from `len(original)`; and it succeeds on
every replace-free script derived from the given original, returning that
script's `Equal`/`Insert` values. -/
theorem C5_patch_failure_amended (o : List α) (s : List (EditAction α)) :
    (patch o s = none ↔ codePatchFails o s 0 = true) ∧
      (ReplaceFree s → origOf s = o → patch o s = some (modOf s)) := by
  refine ⟨patchGo_eq_none_iff o s 0, fun hrf ho => ?_⟩
  exact patchGo_success o s 0 hrf (by simpa using ho) (Nat.zero_le _)

/-- Witness for `C5_patch_failure_amended` at concrete inputs. -/
theorem C5_patch_failure_amended_witness :
    (patch ([1, 2] : List Nat) [make_equal 1, make_delete 9] = none ↔
        codePatchFails ([1, 2] : List Nat) [make_equal 1, make_delete 9] 0 = true) ∧
      patch ([1, 2] : List Nat) [make_equal 1, make_delete 2] =
        some (modOf [make_equal 1, make_delete 2]) :=
  ⟨(C5_patch_failure_amended [1, 2] [make_equal 1, make_delete 9]).1,
    (C5_patch_failure_amended [1, 2] [make_equal 1, make_delete 2]).2
      (by intro e he; fin_cases he <;> decide) (by decide)⟩

/-- **C5 (counterexample).** The claim's "raises exactly when an `Equal`,
`Delete` or `Replace` entry's recorded value does not match" is false: on
`original = [0]` and the script `[Replace(value 1, old 2)]` every recorded
value differs from `original[0]`, the claim-side failure condition holds,
yet `patch` silently succeeds and returns `[1]`. -/
theorem C5_patch_counterexample :
    patch ([0] : List Nat) [make_replace 1 2] = some [1] ∧
      claimPatchFails ([0] : List Nat) [make_replace 1 2] 0 = true := by
  constructor <;> decide

/-! ## Claim C8 — the engines never emit `Replace` -/

theorem backSnakeGo_ops (a : List α) :
    ∀ (fuel : Nat) (x y px py : Int), ∀ e ∈ (backSnakeGo a fuel x y px py).2.2,
      e.op = OpType.equal := by
  intro fuel
  induction fuel with
  | zero => intro x y px py e he; simp [backSnakeGo] at he
  | succ n ih =>
    intro x y px py e he
    by_cases h : px < x ∧ py < y
    · simp only [backSnakeGo, if_pos h, List.mem_cons] at he
      rcases he with rfl | he
      · rfl
      · exact ih _ _ _ _ e he
    · simp [backSnakeGo, if_neg h] at he

theorem tracePathGo_ops (a b : List α) :
    ∀ (tr : List (Nat × (Int → Int))) (x y : Int), ∀ e ∈ tracePathGo a b tr x y,
      e.op = OpType.insert ∨ e.op = OpType.delete ∨ e.op = OpType.equal := by
  intro tr
  induction tr with
  | nil => intro x y e he; simp [tracePathGo] at he
  | cons hd rest ih =>
    intro x y e he
    obtain ⟨d, v⟩ := hd
    simp only [tracePathGo, backSnake] at he
    split at he
    · split at he
      all_goals
        split at he
        · rcases List.mem_append.mp he with he | he
          · exact Or.inr (Or.inr (backSnakeGo_ops a _ _ _ _ _ e he))
          · rcases List.mem_cons.mp he with rfl | he
            · exact Or.inl rfl
            · exact ih _ _ e he
        · rcases List.mem_append.mp he with he | he
          · exact Or.inr (Or.inr (backSnakeGo_ops a _ _ _ _ _ e he))
          · rcases List.mem_cons.mp he with rfl | he
            · exact Or.inr (Or.inl rfl)
            · exact ih _ _ e he
    · split at he
      all_goals
        rcases List.mem_append.mp he with he | he
        · exact Or.inr (Or.inr (backSnakeGo_ops a _ _ _ _ _ e he))
        · exact ih _ _ e he

theorem diff_pureOps (A B : List α) : pureOps (diff A B) := by
  intro e he
  simp only [diff, compute, tracePath] at he
  split at he
  · simp at he
  · split at he
    · obtain ⟨v, -, rfl⟩ := List.mem_map.mp he
      exact Or.inl rfl
    · split at he
      · obtain ⟨v, -, rfl⟩ := List.mem_map.mp he
        exact Or.inr (Or.inl rfl)
      · exact tracePathGo_ops A B _ _ _ e (List.mem_reverse.mp he)

theorem simple_diff_ops :
    ∀ (a b : List α), ∀ e ∈ simple_diff a b,
      e.op = OpType.insert ∨ e.op = OpType.delete ∨ e.op = OpType.equal := by
  intro a
  induction a with
  | nil =>
    intro b e he
    cases b with
    | nil => simp [simple_diff] at he
    | cons y b =>
      simp only [simple_diff] at he
      rcases List.mem_append.mp he with he | he
      · simp at he
      · obtain ⟨v, -, rfl⟩ := List.mem_map.mp he
        exact Or.inl rfl
  | cons x a ih =>
    intro b e he
    cases b with
    | nil =>
      simp only [simple_diff] at he
      rcases List.mem_append.mp he with he | he
      · obtain ⟨v, -, rfl⟩ := List.mem_map.mp he
        exact Or.inr (Or.inl rfl)
      · simp at he
    | cons y b =>
      simp only [simple_diff] at he
      by_cases hxy : x = y
      · rw [if_pos hxy] at he
        rcases List.mem_cons.mp he with rfl | he
        · exact Or.inr (Or.inr rfl)
        · exact ih b e he
      · rw [if_neg hxy] at he
        rcases List.mem_cons.mp he with rfl | he
        · exact Or.inr (Or.inl rfl)
        · exact ih (y :: b) e he

theorem lcsDiff_ops (orig modl : List α) :
    ∀ (fuel : Nat) (xs xe ys ye : Int) (s : List (EditAction α)),
      lcsDiff orig modl fuel xs xe ys ye = some s → pureOps s := by
  intro fuel
  induction fuel with
  | zero => intro xs xe ys ye s h; simp [lcsDiff] at h
  | succ n ih =>
    intro xs xe ys ye s h e he
    simp only [lcsDiff] at h
    split at h
    · cases h
      obtain ⟨v, -, rfl⟩ := List.mem_map.mp he
      exact Or.inl rfl
    · split at h
      · cases h
        obtain ⟨v, -, rfl⟩ := List.mem_map.mp he
        exact Or.inr (Or.inl rfl)
      · split at h
        · cases h
          exact simple_diff_ops _ _ e he
        · split at h
          · simp only [Option.bind_eq_bind] at h
            rcases Option.bind_eq_some.mp h with ⟨left, hl, h2⟩
            rcases Option.bind_eq_some.mp h2 with ⟨right, hr, h3⟩
            obtain rfl := Option.some.inj h3
            rcases List.mem_append.mp he with he | he
            · rcases List.mem_append.mp he with he | he
              · exact ih _ _ _ _ _ hl e he
              · obtain ⟨i, -, rfl⟩ := List.mem_map.mp he
                exact Or.inr (Or.inr rfl)
            · exact ih _ _ _ _ _ hr e he
          · cases h
            exact simple_diff_ops _ _ e he

/-- **C8.** Every entry of a script produced by either engine is an
`Insert`, `Delete` or `Equal`; neither engine ever emits `Replace`. -/
theorem C8_no_replace (A B : List α) :
    (∀ e ∈ diff A B, e.op ≠ OpType.replace ∧
        (e.op = OpType.insert ∨ e.op = OpType.delete ∨ e.op = OpType.equal)) ∧
      (∀ s, diff_linear_myers A B = some s →
        ∀ e ∈ s, e.op ≠ OpType.replace ∧
          (e.op = OpType.insert ∨ e.op = OpType.delete ∨ e.op = OpType.equal)) := by
  have hop : ∀ (e : EditAction α),
      (e.op = OpType.insert ∨ e.op = OpType.delete ∨ e.op = OpType.equal) →
      e.op ≠ OpType.replace := by
    rintro e (h | h | h) hr <;> rw [hr] at h <;> cases h
  constructor
  · intro e he
    have := diff_pureOps A B e he
    exact ⟨hop e this, this⟩
  · intro s hs e he
    simp only [diff_linear_myers, linearCompute] at hs
    split at hs
    · cases hs; simp at he
    · split at hs
      · cases hs
        obtain ⟨v, -, rfl⟩ := List.mem_map.mp he
        exact ⟨hop _ (Or.inl rfl), Or.inl rfl⟩
      · split at hs
        · cases hs
          obtain ⟨v, -, rfl⟩ := List.mem_map.mp he
          exact ⟨hop _ (Or.inr (Or.inl rfl)), Or.inr (Or.inl rfl)⟩
        · have := lcsDiff_ops A B _ _ _ _ _ _ hs e he
          exact ⟨hop e this, this⟩

/-- Witness for `C8_no_replace` at a concrete input. -/
theorem C8_no_replace_witness :
    (make_insert 2).op ≠ OpType.replace ∧ make_insert 2 ∈ (diff ([1] : List Nat) [2, 1]) :=
  ⟨((C8_no_replace ([1] : List Nat) [2, 1]).1 (make_insert 2) (by decide)).1, by decide⟩

/-! ## Slide lemmas -/

theorem pyGet_nonneg (l : List α) {i : Int} (h : 0 ≤ i) :
    pyGet l i = l.get? i.toNat := by
  simp [pyGet, h]

/-- The defining while-loop equation of `slideEnd`. -/
theorem slideEnd_eq (a b : List α) (x y : Int) :
    slideEnd a b x y =
      if x < (a.length : Int) ∧ y < (b.length : Int) ∧ pyGet a x = pyGet b y then
        slideEnd a b (x + 1) (y + 1)
      else (x, y) := by
  unfold slideEnd
  rcases hf : ((a.length : Int) - x).toNat with _ | f
  · have hx : ¬ x < (a.length : Int) := by omega
    simp [slideGo, hx]
  · have hf' : ((a.length : Int) - (x + 1)).toNat = f := by omega
    simp [slideGo, hf']

/-- Master specification of the snake slide: the result dominates the
start, stays on the diagonal, passes only equal in-range elements, is
bounded by the sequence lengths when the start is, and stops only when
the while-guard fails. -/
theorem slideEnd_spec (a b : List α) (x y : Int) :
    x ≤ (slideEnd a b x y).1 ∧
    (slideEnd a b x y).1 - (slideEnd a b x y).2 = x - y ∧
    (∀ i : Int, x ≤ i → i < (slideEnd a b x y).1 →
      i < (a.length : Int) ∧ i - x + y < (b.length : Int) ∧
        pyGet a i = pyGet b (i - x + y)) ∧
    (x ≤ (a.length : Int) → (slideEnd a b x y).1 ≤ (a.length : Int)) ∧
    (y ≤ (b.length : Int) → (slideEnd a b x y).2 ≤ (b.length : Int)) ∧
    ¬((slideEnd a b x y).1 < (a.length : Int) ∧
      (slideEnd a b x y).2 < (b.length : Int) ∧
      pyGet a (slideEnd a b x y).1 = pyGet b (slideEnd a b x y).2) := by
  have main : ∀ (fuel : Nat) (x y : Int), ((a.length : Int) - x).toNat ≤ fuel →
      x ≤ (slideEnd a b x y).1 ∧
      (slideEnd a b x y).1 - (slideEnd a b x y).2 = x - y ∧
      (∀ i : Int, x ≤ i → i < (slideEnd a b x y).1 →
        i < (a.length : Int) ∧ i - x + y < (b.length : Int) ∧
          pyGet a i = pyGet b (i - x + y)) ∧
      (x ≤ (a.length : Int) → (slideEnd a b x y).1 ≤ (a.length : Int)) ∧
      (y ≤ (b.length : Int) → (slideEnd a b x y).2 ≤ (b.length : Int)) ∧
      ¬((slideEnd a b x y).1 < (a.length : Int) ∧
        (slideEnd a b x y).2 < (b.length : Int) ∧
        pyGet a (slideEnd a b x y).1 = pyGet b (slideEnd a b x y).2) := by
    intro fuel
    induction fuel with
    | zero =>
      intro x y hfu
      have hx : ¬ x < (a.length : Int) := by omega
      have hc : ¬(x < (a.length : Int) ∧ y < (b.length : Int) ∧ pyGet a x = pyGet b y) :=
        fun h => hx h.1
      rw [slideEnd_eq, if_neg hc]
      exact ⟨le_refl x, rfl,
        fun i hi1 hi2 => absurd (lt_of_le_of_lt hi1 hi2) (lt_irrefl x),
        fun h => h, fun h => h, hc⟩
    | succ f ih =>
      intro x y hfu
      rw [slideEnd_eq]
      by_cases hc : x < (a.length : Int) ∧ y < (b.length : Int) ∧ pyGet a x = pyGet b y
      · rw [if_pos hc]
        have hfu' : ((a.length : Int) - (x + 1)).toNat ≤ f := by omega
        obtain ⟨h1, h2, h3, h4, h5, h6⟩ := ih (x + 1) (y + 1) hfu'
        refine ⟨by omega, by omega, ?_, fun _ => h4 (by omega), fun _ => h5 (by omega), h6⟩
        intro i hi1 hi2
        rcases eq_or_lt_of_le hi1 with heq | hlt
        · subst heq
          refine ⟨hc.1, by have := hc.2.1; omega, ?_⟩
          have hxy : x - x + y = y := by ring
          rw [hxy]
          exact hc.2.2
        · obtain ⟨ha, hb, hcc⟩ := h3 i (by omega) hi2
          refine ⟨ha, by omega, ?_⟩
          have heq2 : i - (x + 1) + (y + 1) = i - x + y := by ring
          rw [heq2] at hcc
          exact hcc
      · rw [if_neg hc]
        exact ⟨le_refl x, rfl,
          fun i hi1 hi2 => absurd (lt_of_le_of_lt hi1 hi2) (lt_irrefl x),
          fun h => h, fun h => h, hc⟩
  exact main (((a.length : Int) - x).toNat) x y le_rfl

/-- Slide completeness: a run of equal in-range elements starting at the
slide's start is fully consumed by the slide. -/
theorem slideEnd_complete (a b : List α) (x y z : Int) (hz : x ≤ z)
    (hrun : ∀ i : Int, x ≤ i → i < z →
      i < (a.length : Int) ∧ i - x + y < (b.length : Int) ∧
        pyGet a i = pyGet b (i - x + y)) :
    z ≤ (slideEnd a b x y).1 := by
  have main : ∀ (fuel : Nat) (x y : Int), (z - x).toNat ≤ fuel → x ≤ z →
      (∀ i : Int, x ≤ i → i < z →
        i < (a.length : Int) ∧ i - x + y < (b.length : Int) ∧
          pyGet a i = pyGet b (i - x + y)) →
      z ≤ (slideEnd a b x y).1 := by
    intro fuel
    induction fuel with
    | zero =>
      intro x y hfu hz hrun
      have : z = x := by omega
      subst this
      exact (slideEnd_spec a b z y).1
    | succ f ih =>
      intro x y hfu hz hrun
      rcases eq_or_lt_of_le hz with rfl | hlt
      · exact (slideEnd_spec a b x y).1
      · have hx := hrun x le_rfl hlt
        have hx' : x - x + y = y := by ring
        rw [hx'] at hx
        rw [slideEnd_eq, if_pos ⟨hx.1, hx.2.1, hx.2.2⟩]
        apply ih (x + 1) (y + 1) (by omega) (by omega)
        intro i hi1 hi2
        have := hrun i (by omega) hi2
        have heq : i - (x + 1) + (y + 1) = i - x + y := by ring
        rw [heq]
        exact this
  exact main ((z - x).toNat) x y le_rfl hz hrun

/-! ## Reachability lemmas -/

theorem Reach.le_lengths {a b : List α} {d x y : Nat} (h : Reach a b d x y) :
    x ≤ a.length ∧ y ≤ b.length := by
  induction h with
  | nil => exact ⟨Nat.zero_le _, Nat.zero_le _⟩
  | del _ hx ih => exact ⟨hx, ih.2⟩
  | ins _ hy ih => exact ⟨ih.1, hy⟩
  | eq _ hx hy _ ih => exact ⟨hx, hy⟩

theorem Reach.diag_bound {a b : List α} {d x y : Nat} (h : Reach a b d x y) :
    x ≤ y + d ∧ y ≤ x + d := by
  induction h with
  | nil => omega
  | del _ _ ih => omega
  | ins _ _ ih => omega
  | eq _ _ _ _ ih => omega

theorem Reach.parity {a b : List α} {d x y : Nat} (h : Reach a b d x y) :
    (x + y + d) % 2 = 0 := by
  induction h with
  | nil => rfl
  | del _ _ ih => omega
  | ins _ _ ih => omega
  | eq _ _ _ _ ih => omega

theorem Reach.to_corner {a b : List α} {d x y : Nat} (h : Reach a b d x y) :
    Reach a b (d + (a.length - x) + (b.length - y)) a.length b.length := by
  obtain ⟨hx, hy⟩ := h.le_lengths
  have dels : ∀ (k : Nat) (d x y : Nat), x + k = a.length → y ≤ b.length →
      Reach a b d x y → Reach a b (d + k) a.length y := by
    intro k
    induction k with
    | zero => intro d x y hk _ h; rw [← hk]; simpa using h
    | succ k ih =>
      intro d x y hk hy h
      have := ih (d + 1) (x + 1) y (by omega) hy (h.del (by omega))
      simpa [Nat.add_assoc, Nat.add_comm 1 k] using this
  have inss : ∀ (k : Nat) (d y : Nat), y + k = b.length →
      Reach a b d a.length y → Reach a b (d + k) a.length b.length := by
    intro k
    induction k with
    | zero => intro d y hk h; rw [← hk]; simpa using h
    | succ k ih =>
      intro d y hk h
      have := ih (d + 1) (y + 1) (by omega) (h.ins (by omega))
      simpa [Nat.add_assoc, Nat.add_comm 1 k] using this
  have h1 : Reach a b (d + (a.length - x)) a.length y :=
    dels (a.length - x) d x y (by omega) hy h
  exact inss (b.length - y) _ y (by omega) h1

theorem take_snoc_of_take {l : List α} {x : Nat} {t : List α} {v : α}
    (hx : x ≤ l.length) (h : t ++ [v] = l.take x) :
    1 ≤ x ∧ t = l.take (x - 1) ∧
      ∃ hlt : x - 1 < l.length, l.get ⟨x - 1, hlt⟩ = v := by
  have hlen : t.length + 1 = x := by
    have := congrArg List.length h
    simp [List.length_take] at this
    omega
  have hx1 : 1 ≤ x := by omega
  have hlt : x - 1 < l.length := by omega
  have htake : l.take x = l.take (x - 1) ++ [l.get ⟨x - 1, hlt⟩] := by
    have hx2 : x = (x - 1) + 1 := by omega
    conv_lhs => rw [hx2]
    rw [List.take_succ]
    congr 1
    simp [List.getElem?_eq_getElem hlt]
  rw [htake] at h
  have := List.append_inj' h (by rfl)
  refine ⟨hx1, this.1, hlt, ?_⟩
  have := this.2
  simpa using this.symm

/-- Every reachability witness comes from a replace-free script aligning
the corresponding prefixes, and conversely. -/
theorem Reach.to_script {a b : List α} {d x y : Nat} (h : Reach a b d x y) :
    ∃ s : List (EditAction α), ReplaceFree s ∧
      origOf s = a.take x ∧ modOf s = b.take y ∧ cost s = d := by
  induction h with
  | nil => exact ⟨[], fun e he => absurd he (List.not_mem_nil e), rfl, rfl, rfl⟩
  | @del d x y _ hx ih =>
    obtain ⟨s, hrf, ho, hm, hc⟩ := ih
    refine ⟨s ++ [make_delete (a.get ⟨x, hx⟩)], ?_, ?_, ?_, ?_⟩
    · intro e he
      rcases List.mem_append.mp he with he | he
      · exact hrf e he
      · rcases List.mem_singleton.mp he with rfl
        intro hcontra
        cases hcontra
    · rw [origOf_append, ho, origOf_delete_cons, origOf_nil, List.take_succ]
      congr 1
      simp [List.getElem?_eq_getElem hx]
    · rw [modOf_append, hm, modOf_delete_cons, modOf_nil, List.append_nil]
    · rw [cost_append, hc]
      simp
  | @ins d x y _ hy ih =>
    obtain ⟨s, hrf, ho, hm, hc⟩ := ih
    refine ⟨s ++ [make_insert (b.get ⟨y, hy⟩)], ?_, ?_, ?_, ?_⟩
    · intro e he
      rcases List.mem_append.mp he with he | he
      · exact hrf e he
      · rcases List.mem_singleton.mp he with rfl
        intro hcontra
        cases hcontra
    · rw [origOf_append, ho, origOf_insert_cons, origOf_nil, List.append_nil]
    · rw [modOf_append, hm, modOf_insert_cons, modOf_nil, List.take_succ]
      congr 1
      simp [List.getElem?_eq_getElem hy]
    · rw [cost_append, hc]
      simp
  | @eq d x y _ hx hy heq ih =>
    obtain ⟨s, hrf, ho, hm, hc⟩ := ih
    refine ⟨s ++ [make_equal (a.get ⟨x, hx⟩)], ?_, ?_, ?_, ?_⟩
    · intro e he
      rcases List.mem_append.mp he with he | he
      · exact hrf e he
      · rcases List.mem_singleton.mp he with rfl
        intro hcontra
        cases hcontra
    · rw [origOf_append, ho, origOf_equal_cons, origOf_nil, List.take_succ]
      congr 1
      simp [List.getElem?_eq_getElem hx]
    · rw [modOf_append, hm, modOf_equal_cons, modOf_nil, List.take_succ, heq]
      congr 1
      simp [List.getElem?_eq_getElem hy]
    · rw [cost_append, hc]
      simp

theorem script_to_reach {a b : List α} :
    ∀ (s : List (EditAction α)), ReplaceFree s → ∀ (x y : Nat),
      x ≤ a.length → y ≤ b.length →
      origOf s = a.take x → modOf s = b.take y → Reach a b (cost s) x y := by
  intro s
  induction s using List.reverseRecOn with
  | nil =>
    intro _ x y hx hy ho hm
    have hx0 : x = 0 := by
      have h' := congrArg List.length ho
      simp only [origOf_nil, List.length_nil, List.length_take] at h'
      omega
    have hy0 : y = 0 := by
      have h' := congrArg List.length hm
      simp only [modOf_nil, List.length_nil, List.length_take] at h'
      omega
    subst hx0; subst hy0
    exact Reach.nil
  | append_singleton s e ih =>
    intro hrf x y hx hy ho hm
    have hrf' : ReplaceFree s := fun e' he' => hrf e' (List.mem_append_left _ he')
    obtain ⟨op, v, ov⟩ := e
    cases op with
    | replace => exact absurd rfl (hrf ⟨OpType.replace, v, ov⟩ (List.mem_append_right _ (List.mem_singleton.mpr rfl)))
    | delete =>
      rw [origOf_append, origOf_cons_del, origOf_nil] at ho
      rw [modOf_append, modOf_cons_del, modOf_nil, List.append_nil] at hm
      obtain ⟨hx1, ht, hlt, hv⟩ := take_snoc_of_take hx ho
      have hr := ih hrf' (x - 1) y (by omega) hy ht hm
      have hstep := hr.del hlt
      have hxx : x - 1 + 1 = x := by omega
      rw [hxx] at hstep
      have hcost : cost (s ++ [(⟨OpType.delete, v, ov⟩ : EditAction α)]) = cost s + 1 := by
        rw [cost_append]; simp
      rw [hcost]
      exact hstep
    | insert =>
      rw [origOf_append, origOf_cons_ins, origOf_nil, List.append_nil] at ho
      rw [modOf_append, modOf_cons_ins, modOf_nil] at hm
      obtain ⟨hy1, ht, hlt, hv⟩ := take_snoc_of_take hy hm
      have hr := ih hrf' x (y - 1) hx (by omega) ho ht
      have hstep := hr.ins hlt
      have hyy : y - 1 + 1 = y := by omega
      rw [hyy] at hstep
      have hcost : cost (s ++ [(⟨OpType.insert, v, ov⟩ : EditAction α)]) = cost s + 1 := by
        rw [cost_append]; simp
      rw [hcost]
      exact hstep
    | equal =>
      rw [origOf_append, origOf_cons_eq, origOf_nil] at ho
      rw [modOf_append, modOf_cons_eq, modOf_nil] at hm
      obtain ⟨hx1, hto, hlto, hvo⟩ := take_snoc_of_take hx ho
      obtain ⟨hy1, htm, hltm, hvm⟩ := take_snoc_of_take hy hm
      have hr := ih hrf' (x - 1) (y - 1) (by omega) (by omega) hto htm
      have hstep := hr.eq hlto hltm (by rw [hvo, hvm])
      have hxx : x - 1 + 1 = x := by omega
      have hyy : y - 1 + 1 = y := by omega
      rw [hxx, hyy] at hstep
      have hcost : cost (s ++ [(⟨OpType.equal, v, ov⟩ : EditAction α)]) = cost s := by
        rw [cost_append]; simp
      rw [hcost]
      exact hstep

/-- The realizable costs are exactly the reachability depths of the
far corner. -/
theorem mem_edCosts_iff_reach {a b : List α} {c : Nat} :
    c ∈ edCosts a b ↔ Reach a b c a.length b.length := by
  constructor
  · rintro ⟨s, ⟨hrf, ho, hm⟩, rfl⟩
    exact script_to_reach s hrf a.length b.length le_rfl le_rfl
      (by rw [ho, List.take_length]) (by rw [hm, List.take_length])
  · intro h
    obtain ⟨s, hrf, ho, hm, hc⟩ := h.to_script
    rw [List.take_length] at ho hm
    exact ⟨s, ⟨hrf, ho, hm⟩, hc⟩

theorem edCosts_nonempty (a b : List α) : (edCosts a b).Nonempty := by
  refine ⟨a.length + b.length, a.map make_delete ++ b.map make_insert, ⟨?_, ?_, ?_⟩, ?_⟩
  · intro e he
    rcases List.mem_append.mp he with he | he
    · obtain ⟨v, -, rfl⟩ := List.mem_map.mp he
      intro hcontra; cases hcontra
    · obtain ⟨v, -, rfl⟩ := List.mem_map.mp he
      intro hcontra; cases hcontra
  · rw [origOf_append, origOf_map_delete, origOf_map_insert, List.append_nil]
  · rw [modOf_append, modOf_map_delete, modOf_map_insert, List.nil_append]
  · rw [cost_append, cost_map_delete, cost_map_insert]

/-- Stripping the trailing diagonal run off a reachability witness. -/
theorem Reach.decomp {a b : List α} {d x y : Nat} (h : Reach a b d x y) :
    ∃ (s x₁ y₁ : Nat), x = x₁ + s ∧ y = y₁ + s ∧
      (∀ i < s, ∃ (hxi : x₁ + i < a.length) (hyi : y₁ + i < b.length),
        a.get ⟨x₁ + i, hxi⟩ = b.get ⟨y₁ + i, hyi⟩) ∧
      ((d = 0 ∧ x₁ = 0 ∧ y₁ = 0) ∨
        (∃ d', d = d' + 1 ∧
          ((∃ x₂, x₁ = x₂ + 1 ∧ x₂ < a.length ∧ Reach a b d' x₂ y₁) ∨
           (∃ y₂, y₁ = y₂ + 1 ∧ y₂ < b.length ∧ Reach a b d' x₁ y₂)))) := by
  induction h with
  | nil =>
    exact ⟨0, 0, 0, rfl, rfl, fun i hi => absurd hi (Nat.not_lt_zero i), Or.inl ⟨rfl, rfl, rfl⟩⟩
  | @del d x y h hx ih =>
    exact ⟨0, x + 1, y, rfl, rfl, fun i hi => absurd hi (Nat.not_lt_zero i),
      Or.inr ⟨d, rfl, Or.inl ⟨x, rfl, hx, h⟩⟩⟩
  | @ins d x y h hy ih =>
    exact ⟨0, x, y + 1, rfl, rfl, fun i hi => absurd hi (Nat.not_lt_zero i),
      Or.inr ⟨d, rfl, Or.inr ⟨y, rfl, hy, h⟩⟩⟩
  | @eq d x y h hx hy heq ih =>
    obtain ⟨s, x₁, y₁, hxs, hys, hrun, hbase⟩ := ih
    refine ⟨s + 1, x₁, y₁, by omega, by omega, ?_, hbase⟩
    intro i hi
    rcases Nat.lt_succ_iff_lt_or_eq.mp hi with hi | heqi
    · exact hrun i hi
    · subst heqi
      subst hxs
      subst hys
      exact ⟨hx, hy, heq⟩

/-! ## The forward search: per-diagonal invariants -/

theorem pyGet_eq_get {l : List α} {i : Int} (h0 : 0 ≤ i) (h : i < (l.length : Int)) :
    ∃ hn : i.toNat < l.length, pyGet l i = some (l.get ⟨i.toNat, hn⟩) := by
  have hn : i.toNat < l.length := by omega
  refine ⟨hn, ?_⟩
  rw [pyGet_nonneg l h0, List.get?_eq_get hn]

theorem mem_ks {d : Nat} {k : Int} :
    k ∈ ks (d : Int) ↔ -(d : Int) ≤ k ∧ k ≤ (d : Int) ∧ (k + d) % 2 = 0 := by
  simp only [ks, List.mem_map, List.mem_range]
  constructor
  · rintro ⟨i, hi, rfl⟩
    have : ((d : Int)).toNat = d := by omega
    rw [this] at hi
    omega
  · rintro ⟨h1, h2, h3⟩
    refine ⟨((k + d) / 2).toNat, ?_, ?_⟩
    · have : ((d : Int)).toNat = d := by omega
      rw [this]
      omega
    · omega

theorem chooseX_ge_right {v : Int → Int} {d k : Int} (hk : k ≠ d) :
    v (k + 1) ≤ chooseX v d k := by
  unfold chooseX
  by_cases hc : k = -d ∨ (k ≠ d ∧ v (k - 1) < v (k + 1))
  · rw [if_pos hc]
  · rw [if_neg hc]
    push_neg at hc
    have := hc.2 hk
    omega

theorem chooseX_ge_left {v : Int → Int} {d k : Int} (hk : k ≠ -d) :
    v (k - 1) + 1 ≤ chooseX v d k := by
  unfold chooseX
  by_cases hc : k = -d ∨ (k ≠ d ∧ v (k - 1) < v (k + 1))
  · rw [if_pos hc]
    rcases hc with hc | hc
    · exact absurd hc hk
    · omega
  · rw [if_neg hc]

theorem chooseX_congr {v v' : Int → Int} {d k : Int}
    (h : ∀ j, (j = k - 1 ∨ j = k + 1) → v' j = v j) :
    chooseX v' d k = chooseX v d k := by
  unfold chooseX
  rw [h (k - 1) (Or.inl rfl), h (k + 1) (Or.inr rfl)]

theorem fwdVal_congr {a b : List α} {v v' : Int → Int} {d k : Int}
    (h : ∀ j, (j = k - 1 ∨ j = k + 1) → v' j = v j) :
    fwdVal a b v' d k = fwdVal a b v d k := by
  unfold fwdVal
  rw [chooseX_congr h]

/-- Extending an on-grid reachability witness along a run of equal
elements (stated over `pyGet` as the slide checks them). -/
theorem reach_extend_run (a b : List α) {d : Nat} :
    ∀ (s : Nat) (x0 y0 : Int), 0 ≤ x0 → 0 ≤ y0 →
      Reach a b d x0.toNat y0.toNat →
      (∀ i : Int, x0 ≤ i → i < x0 + s →
        i < (a.length : Int) ∧ i - x0 + y0 < (b.length : Int) ∧
          pyGet a i = pyGet b (i - x0 + y0)) →
      Reach a b d (x0 + s).toNat (y0 + s).toNat := by
  intro s
  induction s with
  | zero => intro x0 y0 _ _ h _; simpa using h
  | succ t ih =>
    intro x0 y0 hx0 hy0 h hrun
    have hstep := hrun (x0 + t) (by omega) (by push_cast; omega)
    obtain ⟨ha, hb, heq⟩ := hstep
    have hprev : Reach a b d (x0 + t).toNat (y0 + t).toNat := by
      apply ih x0 y0 hx0 hy0 h
      intro i hi1 hi2
      exact hrun i hi1 (by omega)
    have hyj : x0 + t - x0 + y0 = y0 + t := by ring
    rw [hyj] at hb heq
    obtain ⟨hna, hga⟩ := pyGet_eq_get (by omega : (0:Int) ≤ x0 + t) ha
    obtain ⟨hnb, hgb⟩ := pyGet_eq_get (by omega : (0:Int) ≤ y0 + t) hb
    rw [hga, hgb] at heq
    have hgeq := Option.some.inj heq
    have hr := hprev.eq (by omega : (x0 + t).toNat < a.length)
      (by omega : (y0 + t).toNat < b.length) hgeq
    have e1 : (x0 + ((t + 1 : Nat) : Int)).toNat = (x0 + (t : Int)).toNat + 1 := by
      push_cast; omega
    have e2 : (y0 + ((t + 1 : Nat) : Int)).toNat = (y0 + (t : Int)).toNat + 1 := by
      push_cast; omega
    rw [e1, e2]
    exact hr

/-- The slide preserves the per-diagonal invariant. -/
theorem slide_ptInv (a b : List α) {d : Nat} {k x0 : Int}
    (h : PtInv a b d k x0) : PtInv a b d k ((slideEnd a b x0 (x0 - k)).1) := by
  obtain ⟨⟨x₀, y₀, d₀, hx0, hy0, hR, hsum⟩, hog⟩ := h
  obtain ⟨hle, hdiag, hrun, hbx, hby, hstop⟩ := slideEnd_spec a b x0 (x0 - k)
  rcases eq_or_lt_of_le hle with heq | hlt
  · rw [← heq]
    exact ⟨⟨x₀, y₀, d₀, hx0, hy0, hR, hsum⟩, hog⟩
  · obtain ⟨hxn, hym, -⟩ := hrun x0 le_rfl hlt
    have hym' : x0 - k < (b.length : Int) := by omega
    have hreach0 : Reach a b d x0.toNat (x0 - k).toNat :=
      hog (le_of_lt hxn) (le_of_lt hym')
    set p := slideEnd a b x0 (x0 - k) with hp
    have hs : x0 + (((p.1 - x0).toNat : Nat) : Int) = p.1 := by omega
    have hreach : Reach a b d p.1.toNat (p.1 - k).toNat := by
      have hext := reach_extend_run a b ((p.1 - x0).toNat) x0 (x0 - k)
        (by omega) (by omega) hreach0 ?_
      · have e1 : (x0 + (((p.1 - x0).toNat : Nat) : Int)).toNat = p.1.toNat := by omega
        have e2 : (x0 - k + (((p.1 - x0).toNat : Nat) : Int)).toNat = (p.1 - k).toNat := by
          omega
        rw [e1, e2] at hext
        exact hext
      · intro i hi1 hi2
        rw [hs] at hi2
        have := hrun i hi1 hi2
        have e3 : i - x0 + (x0 - k) = i - k := by ring
        rw [e3] at this
        refine ⟨this.1, by omega, ?_⟩
        rw [e3]
        exact this.2.2
    refine ⟨⟨p.1.toNat, (p.1 - k).toNat, d, by omega, by omega, hreach, by omega⟩,
      fun _ _ => hreach⟩

/-- One diagonal step of the search (depth at least 1) preserves the
invariant, taking it from whichever neighbour the tie-break chooses. -/
theorem step_ptInv (a b : List α) {d : Nat} (hd : 1 ≤ d) {k : Int} (v : Int → Int)
    (hR : (k = -(d : Int) ∨ (k ≠ (d : Int) ∧ v (k - 1) < v (k + 1))) →
      PtInv a b (d - 1) (k + 1) (v (k + 1)))
    (hL : ¬(k = -(d : Int) ∨ (k ≠ (d : Int) ∧ v (k - 1) < v (k + 1))) →
      PtInv a b (d - 1) (k - 1) (v (k - 1))) :
    PtInv a b d k (fwdVal a b v (d : Int) k) := by
  have hdc : ((d - 1 : Nat) : Int) = (d : Int) - 1 := by omega
  unfold fwdVal chooseX
  by_cases hc : k = -(d : Int) ∨ (k ≠ (d : Int) ∧ v (k - 1) < v (k + 1))
  · rw [if_pos hc]
    obtain ⟨⟨x₀, y₀, d₀, h1, h2, h3, h4⟩, hog⟩ := hR hc
    apply slide_ptInv
    refine ⟨⟨x₀, y₀, d₀, h1, by omega, h3, by omega⟩, ?_⟩
    intro hxn hym
    have h2' : (0 : Int) ≤ v (k + 1) - k - 1 := by omega
    have hpar := hog hxn (by omega)
    have hlt : (v (k + 1) - (k + 1)).toNat < b.length := by omega
    have hstep := hpar.ins hlt
    have e1 : (v (k + 1) - (k + 1)).toNat + 1 = (v (k + 1) - k).toNat := by omega
    have hd1 : d - 1 + 1 = d := by omega
    rw [e1, hd1] at hstep
    exact hstep
  · rw [if_neg hc]
    obtain ⟨⟨x₀, y₀, d₀, h1, h2, h3, h4⟩, hog⟩ := hL hc
    apply slide_ptInv
    refine ⟨⟨x₀, y₀, d₀, by omega, by omega, h3, by omega⟩, ?_⟩
    intro hxn hym
    have hpar := hog (by omega) (by omega)
    have hlt : (v (k - 1)).toNat < a.length := by omega
    have hstep := hpar.del hlt
    have e1 : (v (k - 1)).toNat + 1 = (v (k - 1) + 1).toNat := by omega
    have e2 : (v (k - 1) - (k - 1)).toNat = (v (k - 1) + 1 - k).toNat := by omega
    have hd1 : d - 1 + 1 = d := by omega
    rw [e1, e2, hd1] at hstep
    exact hstep

/-- The depth-`0` computation on diagonal `0` satisfies the invariant. -/
theorem base_ptInv (a b : List α) :
    PtInv a b 0 0 (fwdVal a b (fun _ => 0) 0 0) := by
  unfold fwdVal chooseX
  have hc : (0 : Int) = -0 ∨ ((0 : Int) ≠ 0 ∧ (0 : Int) < 0) := Or.inl (by ring)
  rw [if_pos hc]
  apply slide_ptInv
  have h0 : PtInv a b 0 0 0 :=
    ⟨⟨0, 0, 0, by omega, by omega, Reach.nil, by omega⟩,
      fun _ _ => by simpa using Reach.nil⟩
  exact h0

/-- Characterization of one depth's inner loop: all diagonals in the list
have the parity of the depth, so each step's reads (at odd offsets) are
unaffected by earlier writes; on a normal exit every listed diagonal holds
its computed value and none passed the corner check, and an early exit
returns a computed value that did. -/
theorem fwdSteps_cases (a b : List α) (d : Int) :
    ∀ (L : List Int) (v : Int → Int), (∀ k ∈ L, (k - d) % 2 = 0) → L.Nodup →
      (∀ v' : Int → Int, fwdSteps a b d L v = (v', none) →
        (∀ j, j ∉ L → v' j = v j) ∧
        (∀ k ∈ L, v' k = fwdVal a b v d k) ∧
        (∀ k ∈ L, ¬((a.length : Int) ≤ fwdVal a b v d k ∧
            (b.length : Int) ≤ fwdVal a b v d k - k))) ∧
      (∀ (v' : Int → Int) (r : Int × Int), fwdSteps a b d L v = (v', some r) →
        ∃ k ∈ L, r.1 = fwdVal a b v d k ∧ r.2 = fwdVal a b v d k - k ∧
          (a.length : Int) ≤ r.1 ∧ (b.length : Int) ≤ r.2) := by
  intro L
  induction L with
  | nil =>
    intro v _ _
    constructor
    · intro v' h
      simp only [fwdSteps] at h
      injection h with h1 h2
      subst h1
      exact ⟨fun j _ => rfl, fun k hk => absurd hk (List.not_mem_nil k),
        fun k hk => absurd hk (List.not_mem_nil k)⟩
    · intro v' r h
      simp [fwdSteps] at h
  | cons k L' ih =>
    intro v hpar hnd
    have hp2 : (slideEnd a b (chooseX v d k) (chooseX v d k - k)).2 =
        fwdVal a b v d k - k := by
      have := (slideEnd_spec a b (chooseX v d k) (chooseX v d k - k)).2.1
      unfold fwdVal
      omega
    have hfv : (slideEnd a b (chooseX v d k) (chooseX v d k - k)).1 =
        fwdVal a b v d k := rfl
    have hkpar : (k - d) % 2 = 0 := hpar k (List.mem_cons_self _ _)
    have hpar' : ∀ k' ∈ L', (k' - d) % 2 = 0 := fun k' hk' =>
      hpar k' (List.mem_cons_of_mem _ hk')
    have hknotin : k ∉ L' := (List.nodup_cons.mp hnd).1
    have hnd' : L'.Nodup := (List.nodup_cons.mp hnd).2
    have hupd : ∀ k' ∈ L', ∀ j, (j = k' - 1 ∨ j = k' + 1) →
        upd v k (fwdVal a b v d k) j = v j := by
      rintro k' hk' j (rfl | rfl)
      all_goals
        have hp' := hpar' k' hk'
        have : k' - 1 ≠ k ∧ k' + 1 ≠ k := by constructor <;> (intro hcon; omega)
        unfold upd
        first
        | rw [if_neg this.1]
        | rw [if_neg this.2]
    have hfvcongr : ∀ k' ∈ L',
        fwdVal a b (upd v k (fwdVal a b v d k)) d k' = fwdVal a b v d k' :=
      fun k' hk' => fwdVal_congr (hupd k' hk')
    by_cases hfire : (a.length : Int) ≤ fwdVal a b v d k ∧
        (b.length : Int) ≤ fwdVal a b v d k - k
    · constructor
      · intro v' h
        simp only [fwdSteps, hfv, hp2] at h
        rw [if_pos hfire] at h
        injection h with h1 h2
        injection h2
      · intro v' r h
        simp only [fwdSteps, hfv, hp2] at h
        rw [if_pos hfire] at h
        injection h with h1 h2
        injection h2 with h2
        refine ⟨k, List.mem_cons_self _ _, by rw [← h2], by rw [← h2],
          by rw [← h2]; exact hfire.1, by rw [← h2]; exact hfire.2⟩
    · have hnot : ¬((a.length : Int) ≤
          (slideEnd a b (chooseX v d k) (chooseX v d k - k)).1 ∧
          (b.length : Int) ≤ (slideEnd a b (chooseX v d k) (chooseX v d k - k)).2) := by
        rw [hfv, hp2]
        exact hfire
      obtain ⟨ihnone, ihsome⟩ := ih (upd v k (fwdVal a b v d k)) hpar' hnd'
      constructor
      · intro v' h
        simp only [fwdSteps] at h
        rw [if_neg hnot] at h
        obtain ⟨hun, hval, hnofire⟩ := ihnone v' (by
          have : upd v k ((slideEnd a b (chooseX v d k) (chooseX v d k - k)).1) =
              upd v k (fwdVal a b v d k) := by rw [hfv]
          rw [← this]
          exact h)
        refine ⟨?_, ?_, ?_⟩
        · intro j hj
          have hj1 : j ∉ L' := fun hc => hj (List.mem_cons_of_mem _ hc)
          have hj2 : j ≠ k := fun hc => hj (hc ▸ List.mem_cons_self _ _)
          rw [hun j hj1]
          unfold upd
          rw [if_neg hj2]
        · intro k' hk'
          rcases List.mem_cons.mp hk' with rfl | hk'
          · rw [hun k' hknotin]
            unfold upd
            rw [if_pos rfl]
          · rw [hval k' hk', hfvcongr k' hk']
        · intro k' hk'
          rcases List.mem_cons.mp hk' with rfl | hk'
          · exact hfire
          · have := hnofire k' hk'
            rw [hfvcongr k' hk'] at this
            exact this
      · intro v' r h
        simp only [fwdSteps] at h
        rw [if_neg hnot] at h
        obtain ⟨k', hk', h1, h2, h3, h4⟩ := ihsome v' r (by
          have : upd v k ((slideEnd a b (chooseX v d k) (chooseX v d k - k)).1) =
              upd v k (fwdVal a b v d k) := by rw [hfv]
          rw [← this]
          exact h)
        rw [hfvcongr k' hk'] at h1 h2
        exact ⟨k', List.mem_cons_of_mem _ hk', h1, h2, h3, h4⟩

theorem ks_nodup (d : Int) : (ks d).Nodup := by
  refine List.Nodup.map ?_ (List.nodup_range _)
  intro i j h
  have h' : -d + 2 * (i : Int) = -d + 2 * (j : Int) := h
  omega

theorem ks_parity {d : Int} : ∀ k ∈ ks d, (k - d) % 2 = 0 := by
  intro k hk
  simp only [ks, List.mem_map, List.mem_range] at hk
  obtain ⟨i, -, rfl⟩ := hk
  omega

/-- Translating a diagonal run of equal elements into the form the slide
lemmas use. -/
theorem run_to_pyGet (a b : List α) {s x₁ y₁ : Nat}
    (hrun : ∀ i < s, ∃ (hxi : x₁ + i < a.length) (hyi : y₁ + i < b.length),
        a.get ⟨x₁ + i, hxi⟩ = b.get ⟨y₁ + i, hyi⟩) :
    ∀ i : Int, (x₁ : Int) ≤ i → i < (x₁ : Int) + (s : Int) →
      i < (a.length : Int) ∧ i - (x₁ : Int) + (y₁ : Int) < (b.length : Int) ∧
        pyGet a i = pyGet b (i - (x₁ : Int) + (y₁ : Int)) := by
  intro i hi1 hi2
  have hj : (i - (x₁ : Int)).toNat < s := by omega
  obtain ⟨hxi, hyi, heq⟩ := hrun (i - (x₁ : Int)).toNat hj
  have hin : i < (a.length : Int) := by omega
  have hyn : i - (x₁ : Int) + (y₁ : Int) < (b.length : Int) := by omega
  refine ⟨hin, hyn, ?_⟩
  obtain ⟨hna, hga⟩ := pyGet_eq_get (by omega : (0 : Int) ≤ i) hin
  obtain ⟨hnb, hgb⟩ := pyGet_eq_get (by omega : (0 : Int) ≤ i - (x₁ : Int) + (y₁ : Int)) hyn
  rw [hga, hgb]
  have e1 : i.toNat = x₁ + (i - (x₁ : Int)).toNat := by omega
  have e2 : (i - (x₁ : Int) + (y₁ : Int)).toNat = y₁ + (i - (x₁ : Int)).toNat := by omega
  congr 1
  have ha : a.get ⟨i.toNat, hna⟩ = a.get ⟨x₁ + (i - (x₁ : Int)).toNat, hxi⟩ := by
    congr 1
    exact Fin.ext e1
  have hb : b.get ⟨(i - (x₁ : Int) + (y₁ : Int)).toNat, hnb⟩ =
      b.get ⟨y₁ + (i - (x₁ : Int)).toNat, hyi⟩ := by
    congr 1
    exact Fin.ext e2
  rw [ha, hb, heq]

/-- The two invariants of the forward run, by induction on the depth: if
no depth before `d` fired, every diagonal value computed at depth `d`
satisfies `PtInv`, and the computed values dominate every depth-`d`
reachable point (the furthest-reaching property). -/
theorem run_inv (a b : List α) : ∀ d : Nat,
    (∀ i : Nat, i < d →
      (fwdSteps a b (i : Int) (ks (i : Int)) (runState a b i)).2 = none) →
    (∀ k ∈ ks (d : Int), PtInv a b d k (fwdVal a b (runState a b d) (d : Int) k)) ∧
    (∀ x y : Nat, Reach a b d x y →
      (x : Int) ≤ fwdVal a b (runState a b d) (d : Int) ((x : Int) - (y : Int))) := by
  intro d
  induction d with
  | zero =>
    intro _
    constructor
    · intro k hk
      rw [mem_ks] at hk
      have hk0 : k = 0 := by omega
      subst hk0
      exact base_ptInv a b
    · intro x y hr
      obtain ⟨s, x₁, y₁, hxs, hys, hrun, hbase⟩ := hr.decomp
      rcases hbase with ⟨-, hx1, hy1⟩ | ⟨d', hd', -⟩
      · subst hx1; subst hy1
        have hk : (x : Int) - (y : Int) = 0 := by omega
        rw [hk]
        have hch : chooseX (runState a b 0) (((0 : Nat)) : Int) 0 = 0 := by
          unfold chooseX
          rw [if_pos (Or.inl (by simp))]
          rfl
        show (x : Int) ≤ (slideEnd a b _ _).1
        rw [hch]
        show (x : Int) ≤ (slideEnd a b ((0 : Nat) : Int) ((0 : Nat) : Int)).1
        apply slideEnd_complete a b ((0 : Nat) : Int) ((0 : Nat) : Int) (x : Int) (by omega)
        intro i hi1 hi2
        exact run_to_pyGet a b hrun i hi1 (by push_cast; omega)
      · cases hd'
  | succ n ih =>
    intro hnf
    have hnf' : ∀ i : Nat, i < n →
        (fwdSteps a b (i : Int) (ks (i : Int)) (runState a b i)).2 = none :=
      fun i hi => hnf i (by omega)
    obtain ⟨ihPt, ihDom⟩ := ih hnf'
    have hfe : fwdSteps a b (n : Int) (ks (n : Int)) (runState a b n) =
        (runState a b (n + 1), none) := by
      have h2 := hnf n (Nat.lt_succ_self n)
      rw [show runState a b (n + 1) =
        (fwdSteps a b (n : Int) (ks (n : Int)) (runState a b n)).1 from rfl]
      exact Prod.ext rfl h2
    obtain ⟨hun, hval, -⟩ :=
      ((fwdSteps_cases a b (n : Int) (ks (n : Int)) (runState a b n)
        ks_parity (ks_nodup _)).1) (runState a b (n + 1)) hfe
    constructor
    · intro k hk
      have hk' := mem_ks.mp hk
      apply step_ptInv a b (by omega : 1 ≤ n + 1)
      · intro hcond
        have hd1 : n + 1 - 1 = n := by omega
        rw [hd1]
        have hmem : k + 1 ∈ ks (n : Int) := by
          rw [mem_ks]
          rcases hcond with hcon | ⟨hne, -⟩
          · push_cast at hcon hk' ⊢
            omega
          · push_cast at hne hk' ⊢
            omega
        rw [hval (k + 1) hmem]
        exact ihPt (k + 1) hmem
      · intro hcond
        have hd1 : n + 1 - 1 = n := by omega
        rw [hd1]
        push_neg at hcond
        have hne := hcond.1
        have hmem : k - 1 ∈ ks (n : Int) := by
          rw [mem_ks]
          push_cast at hne hk' ⊢
          omega
        rw [hval (k - 1) hmem]
        exact ihPt (k - 1) hmem
    · intro x y hr
      obtain ⟨s, x₁, y₁, hxs, hys, hrun, hbase⟩ := hr.decomp
      rcases hbase with ⟨hd0, -, -⟩ | ⟨d', hd', hpred⟩
      · cases hd0
      · have hdd : d' = n := by omega
        rw [hdd] at hpred
        have hkeq : (x : Int) - (y : Int) = (x₁ : Int) - (y₁ : Int) := by omega
        rw [hkeq]
        have hx0ge : (x₁ : Int) ≤ chooseX (runState a b (n + 1)) (((n + 1 : Nat)) : Int)
            ((x₁ : Int) - (y₁ : Int)) := by
          rcases hpred with ⟨x₂, hx₂, hx₂n, hRe⟩ | ⟨y₂, hy₂, hy₂m, hRe⟩
          · have hb2 := hRe.diag_bound
            have hpar2 := hRe.parity
            have hmem : (x₁ : Int) - (y₁ : Int) - 1 ∈ ks (n : Int) := by
              rw [mem_ks]
              push_cast
              omega
            have hdom := ihDom x₂ y₁ hRe
            have hkk : (x₂ : Int) - (y₁ : Int) = (x₁ : Int) - (y₁ : Int) - 1 := by omega
            rw [hkk] at hdom
            have hge := chooseX_ge_left (v := runState a b (n + 1))
              (d := (((n + 1 : Nat)) : Int)) (k := (x₁ : Int) - (y₁ : Int)) (by
                push_cast
                omega)
            rw [hval _ hmem] at hge
            omega
          · have hb2 := hRe.diag_bound
            have hpar2 := hRe.parity
            have hmem : (x₁ : Int) - (y₁ : Int) + 1 ∈ ks (n : Int) := by
              rw [mem_ks]
              push_cast
              omega
            have hdom := ihDom x₁ y₂ hRe
            have hkk : (x₁ : Int) - (y₂ : Int) = (x₁ : Int) - (y₁ : Int) + 1 := by omega
            rw [hkk] at hdom
            have hge := chooseX_ge_right (v := runState a b (n + 1))
              (d := (((n + 1 : Nat)) : Int)) (k := (x₁ : Int) - (y₁ : Int)) (by
                push_cast
                omega)
            rw [hval _ hmem] at hge
            omega
        show (x : Int) ≤ (slideEnd a b _ _).1
        set x0 := chooseX (runState a b (n + 1)) (((n + 1 : Nat)) : Int)
          ((x₁ : Int) - (y₁ : Int)) with hx0
        by_cases hcase : (x : Int) ≤ x0
        · have := (slideEnd_spec a b x0 (x0 - ((x₁ : Int) - (y₁ : Int)))).1
          omega
        · apply slideEnd_complete a b x0 (x0 - ((x₁ : Int) - (y₁ : Int))) (x : Int)
            (by omega)
          intro i hi1 hi2
          obtain ⟨h1, h2, h3⟩ := run_to_pyGet a b hrun i (by omega) (by omega)
          have e : i - x0 + (x0 - ((x₁ : Int) - (y₁ : Int))) =
              i - (x₁ : Int) + (y₁ : Int) := by ring
          rw [e]
          exact ⟨h1, h2, h3⟩

/-! ## Termination of the search at exactly the minimal cost -/

/-- No depth strictly below the minimal script cost can fire the corner
check: a fired value would certify a script shorter than the minimum. -/
theorem run_no_fire (a b : List α) :
    ∀ i : Nat, i < sInf (edCosts a b) →
      (fwdSteps a b (i : Int) (ks (i : Int)) (runState a b i)).2 = none := by
  intro i
  induction i using Nat.strong_induction_on with
  | _ i ih =>
    intro hi
    by_contra hfire
    obtain ⟨v', r, hr⟩ : ∃ v' r,
        fwdSteps a b (i : Int) (ks (i : Int)) (runState a b i) = (v', some r) := by
      rcases hres : fwdSteps a b (i : Int) (ks (i : Int)) (runState a b i) with ⟨v', res⟩
      cases res with
      | none => exact absurd (by rw [hres]) hfire
      | some r => exact ⟨v', r, rfl⟩
    obtain ⟨k, hk, hr1, hr2, hrn, hrm⟩ :=
      (fwdSteps_cases a b (i : Int) (ks (i : Int)) (runState a b i)
        ks_parity (ks_nodup _)).2 v' r hr
    have hinv := (run_inv a b i (fun j hj => ih j hj (by omega))).1 k hk
    obtain ⟨⟨x₀, y₀, d₀, hx₀, hy₀, hR, hsum⟩, -⟩ := hinv
    have hcorner := hR.to_corner
    have hxle := hR.le_lengths
    have hmem := mem_edCosts_iff_reach.mpr hcorner
    have hle := Nat.sInf_le hmem
    rw [← hr1] at hx₀ hsum
    omega

/-- The search does fire by the depth equal to the minimal script cost:
the dominance invariant puts the diagonal `n - m` value past the corner. -/
theorem run_fires (a b : List α) :
    (fwdSteps a b ((sInf (edCosts a b) : Nat) : Int)
      (ks ((sInf (edCosts a b) : Nat) : Int))
      (runState a b (sInf (edCosts a b)))).2 ≠ none := by
  set Dm := sInf (edCosts a b) with hDm
  intro hnone
  have hmem : Dm ∈ edCosts a b := Nat.sInf_mem (edCosts_nonempty a b)
  have hreach : Reach a b Dm a.length b.length := mem_edCosts_iff_reach.mp hmem
  have hfe : fwdSteps a b (Dm : Int) (ks (Dm : Int)) (runState a b Dm) =
      ((fwdSteps a b (Dm : Int) (ks (Dm : Int)) (runState a b Dm)).1, none) :=
    Prod.ext rfl hnone
  obtain ⟨-, -, hnof⟩ :=
    (fwdSteps_cases a b (Dm : Int) (ks (Dm : Int)) (runState a b Dm)
      ks_parity (ks_nodup _)).1 _ hfe
  have hdom := (run_inv a b Dm (fun j hj => run_no_fire a b j hj)).2
    a.length b.length hreach
  have hb := hreach.diag_bound
  have hpar := hreach.parity
  have hkmem : (a.length : Int) - (b.length : Int) ∈ ks (Dm : Int) := by
    rw [mem_ks]
    push_cast
    omega
  exact hnof _ hkmem ⟨hdom, by omega⟩

/-- Whatever fires at the minimal depth is exactly the far corner, on the
diagonal `n - m`, and the computed diagonal value there is exactly `n`. -/
theorem run_fire_exact (a b : List α) {v' : Int → Int} {r : Int × Int}
    (h : fwdSteps a b ((sInf (edCosts a b) : Nat) : Int)
      (ks ((sInf (edCosts a b) : Nat) : Int))
      (runState a b (sInf (edCosts a b))) = (v', some r)) :
    r = ((a.length : Int), (b.length : Int)) ∧
      fwdVal a b (runState a b (sInf (edCosts a b)))
        ((sInf (edCosts a b) : Nat) : Int)
        ((a.length : Int) - (b.length : Int)) = (a.length : Int) := by
  set Dm := sInf (edCosts a b) with hDm
  obtain ⟨k, hk, hr1, hr2, hrn, hrm⟩ :=
    (fwdSteps_cases a b (Dm : Int) (ks (Dm : Int)) (runState a b Dm)
      ks_parity (ks_nodup _)).2 v' r h
  have hinv := (run_inv a b Dm (fun j hj => run_no_fire a b j hj)).1 k hk
  obtain ⟨⟨x₀, y₀, d₀, hx₀, hy₀, hR, hsum⟩, -⟩ := hinv
  have hcorner := hR.to_corner
  have hxle := hR.le_lengths
  have hmem := mem_edCosts_iff_reach.mpr hcorner
  have hle : Dm ≤ d₀ + (a.length - x₀) + (b.length - y₀) := Nat.sInf_le hmem
  rw [← hr1] at hx₀ hsum
  have hy₀' : (y₀ : Int) ≤ r.2 := by omega
  have hr1n : r.1 = (a.length : Int) := by omega
  have hr2m : r.2 = (b.length : Int) := by omega
  have hkval : k = (a.length : Int) - (b.length : Int) := by omega
  constructor
  · exact Prod.ext hr1n hr2m
  · rw [← hkval, ← hr1, hr1n]

theorem full_cost_mem (a b : List α) : a.length + b.length ∈ edCosts a b := by
  refine ⟨a.map make_delete ++ b.map make_insert, ⟨?_, ?_, ?_⟩, ?_⟩
  · intro e he
    rcases List.mem_append.mp he with he | he
    · obtain ⟨v, -, rfl⟩ := List.mem_map.mp he
      intro hcontra; cases hcontra
    · obtain ⟨v, -, rfl⟩ := List.mem_map.mp he
      intro hcontra; cases hcontra
  · rw [origOf_append, origOf_map_delete, origOf_map_insert, List.append_nil]
  · rw [modOf_append, modOf_map_delete, modOf_map_insert, List.nil_append]
  · rw [cost_append, cost_map_delete, cost_map_insert]

/-- The outer loop, started at depth `dd` in the run's state with enough
fuel, appends exactly the states of depths `dd … Dm` to the trace and
reports the minimal cost `Dm` as the distance. -/
theorem findPathGo_run (a b : List α) :
    ∀ (fuel dd : Nat) (trace : List (Int → Int)),
      dd ≤ sInf (edCosts a b) → sInf (edCosts a b) - dd < fuel →
      findPathGo a b fuel (dd : Int) (runState a b dd) trace =
        (trace ++ (List.range' dd (sInf (edCosts a b) + 1 - dd)).map (runState a b),
          some ((sInf (edCosts a b) : Nat) : Int)) := by
  intro fuel
  induction fuel with
  | zero => intro dd trace h1 h2; omega
  | succ f ih =>
    intro dd trace h1 h2
    by_cases hddm : dd < sInf (edCosts a b)
    · have hnone := run_no_fire a b dd hddm
      rcases hres : fwdSteps a b (dd : Int) (ks (dd : Int)) (runState a b dd)
        with ⟨v1, res⟩
      have hres2 : res = none := by rw [hres] at hnone; exact hnone
      subst hres2
      have hv1 : runState a b (dd + 1) = v1 := by
        rw [show runState a b (dd + 1) =
          (fwdSteps a b (dd : Int) (ks (dd : Int)) (runState a b dd)).1 from rfl, hres]
      simp only [findPathGo]
      rw [hres]
      have hcast : (dd : Int) + 1 = ((dd + 1 : Nat) : Int) := by push_cast; ring
      rw [hcast, ← hv1]
      show findPathGo a b f (((dd + 1 : Nat)) : Int) (runState a b (dd + 1))
          (trace ++ [runState a b dd]) = _
      rw [ih (dd + 1) (trace ++ [runState a b dd]) (by omega) (by omega)]
      have hrange : List.range' dd (sInf (edCosts a b) + 1 - dd) =
          dd :: List.range' (dd + 1) (sInf (edCosts a b) + 1 - (dd + 1)) := by
        have hc : sInf (edCosts a b) + 1 - dd = (sInf (edCosts a b) + 1 - (dd + 1)) + 1 := by
          omega
        rw [hc]
        rfl
      rw [hrange]
      simp [List.append_assoc]
    · have hdd : dd = sInf (edCosts a b) := by omega
      subst hdd
      have hfire := run_fires a b
      rcases hres : fwdSteps a b ((sInf (edCosts a b) : Nat) : Int)
          (ks ((sInf (edCosts a b) : Nat) : Int))
          (runState a b (sInf (edCosts a b))) with ⟨v1, res⟩
      cases res with
      | none => rw [hres] at hfire; exact absurd rfl hfire
      | some r =>
        simp only [findPathGo]
        rw [hres]
        have hc : sInf (edCosts a b) + 1 - sInf (edCosts a b) = 1 := by omega
        rw [hc]
        rfl

/-- `_find_path` run to completion: the trace records the states of every
depth `0 … Dm` and the recorded distance is the minimal script cost. -/
theorem findPath_eq (a b : List α) :
    findPath a b = ((List.range (sInf (edCosts a b) + 1)).map (runState a b),
      some ((sInf (edCosts a b) : Nat) : Int)) := by
  have hle : sInf (edCosts a b) ≤ a.length + b.length := Nat.sInf_le (full_cost_mem a b)
  have h := findPathGo_run a b (a.length + b.length + 1) 0 [] (by omega) (by omega)
  unfold findPath
  have h0 : runState a b 0 = fun _ => (0 : Int) := rfl
  rw [← h0]
  have hcast : ((0 : Nat) : Int) = (0 : Int) := by norm_num
  rw [← hcast]
  rw [h]
  rw [List.nil_append, Nat.sub_zero, List.range_eq_range']

/-- On non-empty inputs `edit_distance` returns the minimal script cost. -/
theorem edit_distance_eq (a b : List α) (ha : a.length ≠ 0) (hb : b.length ≠ 0) :
    edit_distance a b = ((sInf (edCosts a b) : Nat) : Int) := by
  unfold edit_distance
  rw [if_neg (by omega : ¬(a.length = 0 ∧ b.length = 0)), if_neg ha, if_neg hb,
    findPath_eq]
  rfl

/-! ## Backtracking: support lemmas -/

theorem origOf_map_equal {β : Type} (l : List β) (f : β → α) :
    origOf (l.map fun v => make_equal (f v)) = l.map f := by
  induction l with
  | nil => rfl
  | cons v l ih => simpa using ih

theorem modOf_map_equal {β : Type} (l : List β) (f : β → α) :
    modOf (l.map fun v => make_equal (f v)) = l.map f := by
  induction l with
  | nil => rfl
  | cons v l ih => simpa using ih

theorem cost_map_equal {β : Type} (l : List β) (f : β → α) :
    cost (l.map fun v => make_equal (f v)) = 0 := by
  induction l with
  | nil => rfl
  | cons v l ih => simpa using ih

theorem revmap {β : Type u} (s : Nat) (f : Nat → β) :
    ((List.range s).map f).reverse = (List.range s).map fun i => f (s - 1 - i) := by
  induction s with
  | zero => rfl
  | succ t ih =>
    conv_lhs => rw [List.range_succ]
    conv_rhs => rw [List.range_succ_eq_map]
    simp only [List.map_append, List.reverse_append, List.map_cons, List.map_nil,
      List.reverse_cons, List.reverse_nil, List.nil_append, List.map_map,
      List.cons_append]
    rw [ih]
    congr 1
    congr 1
    funext i
    simp only [Function.comp_apply]
    congr 1
    omega

theorem pyIdx_eq_get {l : List α} {i : Int} (h0 : 0 ≤ i) (h : i < (l.length : Int)) :
    ∃ hn : i.toNat < l.length, pyIdx l i = l.get ⟨i.toNat, hn⟩ := by
  obtain ⟨hn, hg⟩ := pyGet_eq_get h0 h
  refine ⟨hn, ?_⟩
  show (pyGet l i).getD default = _
  rw [hg]
  rfl

theorem take_split (l : List α) (x0 : Int) (s : Nat) (h0 : 0 ≤ x0)
    (hle : x0 + s ≤ (l.length : Int)) :
    l.take (x0 + s).toNat =
      l.take x0.toNat ++ (List.range s).map fun i : Nat => pyIdx l (x0 + (i : Int)) := by
  induction s with
  | zero => simp
  | succ t ih =>
    have hle' : x0 + t ≤ (l.length : Int) := by push_cast at hle ⊢; omega
    have hxt : x0 + t < (l.length : Int) := by push_cast at hle; omega
    obtain ⟨hn, hg⟩ := pyIdx_eq_get (by omega : (0 : Int) ≤ x0 + t) hxt
    have e1 : (x0 + ((t + 1 : Nat) : Int)).toNat = (x0 + t).toNat + 1 := by
      push_cast; omega
    rw [e1, List.take_succ, ih hle', List.range_succ, List.map_append, List.append_assoc]
    congr 1
    congr 1
    rw [List.getElem?_eq_getElem hn]
    simp only [Option.toList_some, List.map_cons, List.map_nil]
    rw [hg]
    rfl

/-- The backward snake walk: with the stopping pattern of either branch
of the backtracker, it takes exactly `s` steps and emits the `Equal`
entries for `a[x-1], …, a[x-s]` in that order. -/
theorem backSnakeGo_run (a : List α) :
    ∀ (s fuel : Nat) (x y px py : Int), s ≤ fuel →
      ((x - px = s ∧ (s : Int) + 1 ≤ y - py) ∨ ((s : Int) + 1 ≤ x - px ∧ y - py = s)) →
      backSnakeGo a fuel x y px py =
        (x - s, y - s,
          (List.range s).map fun i : Nat => make_equal (pyIdx a (x - 1 - (i : Int)))) := by
  intro s
  induction s with
  | zero =>
    intro fuel x y px py _ hcond
    have hstop : ¬(px < x ∧ py < y) := by omega
    cases fuel with
    | zero => simp [backSnakeGo]
    | succ f =>
      simp only [backSnakeGo]
      rw [if_neg hstop]
      simp
  | succ t ih =>
    intro fuel x y px py hfu hcond
    obtain ⟨f, rfl⟩ : ∃ f, fuel = f + 1 := ⟨fuel - 1, by omega⟩
    have hgo : px < x ∧ py < y := by
      constructor <;> omega
    simp only [backSnakeGo]
    rw [if_pos hgo]
    rw [ih f (x - 1) (y - 1) px py (by omega) (by push_cast at hcond ⊢; omega)]
    refine Prod.ext ?_ (Prod.ext ?_ ?_)
    · show x - 1 - (t : Int) = x - ((t + 1 : Nat) : Int)
      push_cast
      ring
    · show y - 1 - (t : Int) = y - ((t + 1 : Nat) : Int)
      push_cast
      ring
    · show make_equal (pyIdx a (x - 1)) ::
          (List.range t).map (fun i : Nat => make_equal (pyIdx a (x - 1 - 1 - (i : Int)))) = _
      rw [List.range_succ_eq_map, List.map_cons, List.map_map]
      congr 1
      · congr 2
        push_cast
        ring
      · congr 1
        funext i
        simp only [Function.comp_apply]
        congr 2
        push_cast
        ring

theorem map_range_congr {β : Type u} (s : Nat) (f g : Nat → β)
    (h : ∀ i < s, f i = g i) : (List.range s).map f = (List.range s).map g := by
  induction s with
  | zero => rfl
  | succ t ih =>
    rw [List.range_succ, List.map_append, List.map_append,
      ih fun i hi => h i (by omega)]
    simp only [List.map_cons, List.map_nil]
    rw [h t (by omega)]

theorem origOf_reverse (s : List (EditAction α)) :
    origOf s.reverse = (origOf s).reverse := by
  simp [origOf, List.filter_reverse, List.map_reverse]

theorem modOf_reverse (s : List (EditAction α)) :
    modOf s.reverse = (modOf s).reverse := by
  simp [modOf, List.filter_reverse, List.map_reverse]

theorem cost_reverse (s : List (EditAction α)) :
    cost s.reverse = cost s := by
  simp [cost, List.filter_reverse]

theorem revTrace_zero (a b : List α) :
    revTrace a b 0 = [(0, runState a b 0)] := rfl

theorem revTrace_succ (a b : List α) (dd : Nat) :
    revTrace a b (dd + 1) = (dd + 1, runState a b (dd + 1)) :: revTrace a b dd := by
  unfold revTrace
  rw [List.range_succ, List.map_append, List.reverse_append]
  simp

/-- Reversed prefix of length `x = W + s`: the descending run of elements
`l[x-1], …, l[W]` followed by the reversed prefix of length `W`. -/
theorem take_run_rev (l : List α) (W x : Int) (s : Nat) (hW : 0 ≤ W)
    (hx : x = W + (s : Int)) (hle : x ≤ (l.length : Int)) :
    (l.take x.toNat).reverse =
      ((List.range s).map fun i : Nat => pyIdx l (x - 1 - (i : Int))) ++
        (l.take W.toNat).reverse := by
  have hxt : x.toNat = (W + (s : Int)).toNat := by omega
  rw [hxt, take_split l W s hW (by omega), List.reverse_append, revmap]
  congr 1
  apply map_range_congr
  intro i hi
  congr 1
  omega

/-- Reversed prefix of length `x = W + 1 + s`: the descending run
`l[x-1], …, l[W+1]`, then `l[W]`, then the reversed prefix of length `W`. -/
theorem take_middle_rev (l : List α) (W x : Int) (s : Nat) (hW : 0 ≤ W)
    (hx : x = W + 1 + (s : Int)) (hle : x ≤ (l.length : Int)) :
    (l.take x.toNat).reverse =
      ((List.range s).map fun i : Nat => pyIdx l (x - 1 - (i : Int))) ++
        pyIdx l W :: (l.take W.toNat).reverse := by
  rw [take_run_rev l (W + 1) x s (by omega) (by omega) hle]
  congr 1
  have h1 : (W + 1).toNat = (W + ((1 : Nat) : Int)).toNat := by omega
  rw [h1, take_split l W 1 hW (by omega), List.reverse_append]
  have h2 : List.range 1 = [0] := rfl
  simp only [h2, List.map_cons, List.map_nil, List.reverse_cons,
    List.reverse_nil, List.nil_append, List.cons_append]
  congr 2
  omega

/-- `enum` of a map over `range` is the graph of the function. -/
theorem enum_map_range {β : Type u} (n : Nat) (f : Nat → β) :
    ((List.range n).map f).enum = (List.range n).map fun i : Nat => (i, f i) := by
  induction n with
  | zero => rfl
  | succ t ih =>
    rw [List.range_succ, List.map_append, List.map_append, List.enum_append, ih]
    congr 1
    simp [List.enumFrom]

/-- Backtracking invariant: started at an on-path point `(x, y)` at depth
`dd ≤ D` whose `x` coordinate equals the recorded furthest-reaching value
of its diagonal, the trace walk over depths `dd … 0` emits (in reverse
order) the `Equal`/`Insert`/`Delete` entries of a script spelling
`a.take x` against `b.take y` with exactly `dd` non-`Equal` entries. -/
theorem tracePathGo_run (a b : List α) :
    ∀ (dd : Nat) (x y : Int),
      dd ≤ sInf (edCosts a b) →
      0 ≤ x → 0 ≤ y → x ≤ (a.length : Int) → y ≤ (b.length : Int) →
      Reach a b dd x.toNat y.toNat →
      x = fwdVal a b (runState a b dd) (dd : Int) (x - y) →
      origOf (tracePathGo a b (revTrace a b dd) x y) = (a.take x.toNat).reverse ∧
      modOf (tracePathGo a b (revTrace a b dd) x y) = (b.take y.toNat).reverse ∧
      cost (tracePathGo a b (revTrace a b dd) x y) = dd := by
  intro dd
  induction dd with
  | zero =>
    intro x y _ hx0 hy0 hxn hym hreach hval
    have hdb := hreach.diag_bound
    have hxy : x = y := by omega
    subst hxy
    have hch : chooseX (runState a b 0) (((0 : Nat)) : Int) (x - x) = 0 := by
      unfold chooseX
      rw [if_pos (Or.inl (show x - x = -(((0 : Nat)) : Int) by push_cast; ring))]
      rfl
    unfold fwdVal at hval
    rw [hch] at hval
    obtain ⟨-, -, hrun, -, -, -⟩ := slideEnd_spec a b 0 (0 - (x - x))
    rw [← hval] at hrun
    have hc0 : x - x = -(((0 : Nat)) : Int) ∨
        (x - x ≠ (((0 : Nat)) : Int) ∧
          runState a b 0 (x - x - 1) < runState a b 0 (x - x + 1)) :=
      Or.inl (by push_cast; ring)
    have hbs : backSnake a x x (runState a b 0 (x - x + 1))
        (runState a b 0 (x - x + 1) - (x - x + 1)) =
        (x - (x.toNat : Int), x - (x.toNat : Int),
          (List.range x.toNat).map fun i : Nat => make_equal (pyIdx a (x - 1 - (i : Int)))) := by
      have hr0 : runState a b 0 (x - x + 1) = 0 := rfl
      rw [hr0]
      show backSnakeGo a (x - 0).toNat x x 0 (0 - (x - x + 1)) = _
      exact backSnakeGo_run a x.toNat (x - 0).toNat x x 0 (0 - (x - x + 1))
        (by omega) (Or.inl ⟨by omega, by omega⟩)
    have h3 : (backSnake a x x (runState a b 0 (x - x + 1))
        (runState a b 0 (x - x + 1) - (x - x + 1))).2.2 =
        (List.range x.toNat).map fun i : Nat => make_equal (pyIdx a (x - 1 - (i : Int))) := by
      rw [hbs]
    have heqsb : ((List.range x.toNat).map fun i : Nat => pyIdx a (x - 1 - (i : Int))) =
        (List.range x.toNat).map fun i : Nat => pyIdx b (x - 1 - (i : Int)) := by
      apply map_range_congr
      intro i hi
      obtain ⟨-, -, hg⟩ := hrun (x - 1 - (i : Int)) (by omega) (by omega)
      show (pyGet a (x - 1 - (i : Int))).getD default =
        (pyGet b (x - 1 - (i : Int))).getD default
      rw [hg, show x - 1 - (i : Int) - 0 + (0 - (x - x)) = x - 1 - (i : Int) from by ring]
    simp only [tracePathGo]
    rw [if_pos hc0, h3, if_neg (lt_irrefl 0), List.append_nil]
    refine ⟨?_, ?_, ?_⟩
    · rw [origOf_map_equal, take_run_rev a 0 x x.toNat le_rfl (by omega) hxn]
      simp
    · rw [modOf_map_equal, heqsb, take_run_rev b 0 x x.toNat le_rfl (by omega) hym]
      simp
    · rw [cost_map_equal]
  | succ dd ih =>
    intro x y hdm hx0 hy0 hxn hym hreach hval
    have hdb := hreach.diag_bound
    have hpar := hreach.parity
    have hnone := run_no_fire a b dd (by omega)
    have hfe : fwdSteps a b (dd : Int) (ks (dd : Int)) (runState a b dd) =
        ((fwdSteps a b (dd : Int) (ks (dd : Int)) (runState a b dd)).1, none) :=
      Prod.ext rfl hnone
    obtain ⟨-, hvals, -⟩ :=
      (fwdSteps_cases a b (dd : Int) (ks (dd : Int)) (runState a b dd)
        ks_parity (ks_nodup _)).1 _ hfe
    rw [revTrace_succ]
    by_cases hc : x - y = -(((dd + 1 : Nat)) : Int) ∨
        (x - y ≠ (((dd + 1 : Nat)) : Int) ∧
          runState a b (dd + 1) (x - y - 1) < runState a b (dd + 1) (x - y + 1))
    · -- vertical step: the predecessor sits on diagonal `k + 1`
      have hkne : x - y = -(((dd + 1 : Nat)) : Int) ∨ x - y ≠ (((dd + 1 : Nat)) : Int) :=
        hc.imp (fun h => h) And.left
      have hpkmem : x - y + 1 ∈ ks (dd : Int) := by
        rw [mem_ks]
        refine ⟨?_, ?_, ?_⟩ <;> rcases hkne with h | h <;> omega
      have hpx_val : runState a b (dd + 1) (x - y + 1) =
          fwdVal a b (runState a b dd) (dd : Int) (x - y + 1) := hvals _ hpkmem
      obtain ⟨⟨x₀, y₀, d₀, hxx0, hyy0, -, -⟩, hongrid⟩ :=
        (run_inv a b dd fun j hj => run_no_fire a b j (by omega)).1 _ hpkmem
      set W := fwdVal a b (runState a b dd) (dd : Int) (x - y + 1) with hW
      have hch : chooseX (runState a b (dd + 1)) (((dd + 1 : Nat)) : Int) (x - y) =
          runState a b (dd + 1) (x - y + 1) := by
        unfold chooseX
        rw [if_pos hc]
      unfold fwdVal at hval
      rw [hch, hpx_val] at hval
      obtain ⟨hle, -, hrun, -, -, -⟩ := slideEnd_spec a b W (W - (x - y))
      rw [← hval] at hle hrun
      have hW0 : 0 ≤ W := by omega
      have hpy0 : 0 ≤ W - (x - y + 1) := by omega
      have hWn : W ≤ (a.length : Int) := by omega
      have hpym : W - (x - y + 1) ≤ (b.length : Int) := by omega
      have hre : Reach a b dd W.toNat (W - (x - y + 1)).toNat := hongrid hWn hpym
      set s := (x - W).toNat with hs
      have hsx : x - W = (s : Int) := by omega
      have hbs : backSnake a x y (runState a b (dd + 1) (x - y + 1))
          (runState a b (dd + 1) (x - y + 1) - (x - y + 1)) =
          (x - (s : Int), y - (s : Int),
            (List.range s).map fun i : Nat => make_equal (pyIdx a (x - 1 - (i : Int)))) := by
        rw [hpx_val]
        show backSnakeGo a (x - W).toNat x y W (W - (x - y + 1)) = _
        exact backSnakeGo_run a s (x - W).toNat x y W (W - (x - y + 1))
          (by omega) (Or.inl ⟨by omega, by omega⟩)
      have h1 : (backSnake a x y (runState a b (dd + 1) (x - y + 1))
          (runState a b (dd + 1) (x - y + 1) - (x - y + 1))).1 = x - (s : Int) := by
        rw [hbs]
      have h2 : (backSnake a x y (runState a b (dd + 1) (x - y + 1))
          (runState a b (dd + 1) (x - y + 1) - (x - y + 1))).2.1 = y - (s : Int) := by
        rw [hbs]
      have h3 : (backSnake a x y (runState a b (dd + 1) (x - y + 1))
          (runState a b (dd + 1) (x - y + 1) - (x - y + 1))).2.2 =
          (List.range s).map fun i : Nat => make_equal (pyIdx a (x - 1 - (i : Int))) := by
        rw [hbs]
      have hfire : x - (s : Int) = runState a b (dd + 1) (x - y + 1) := by
        rw [hpx_val]
        omega
      have hout : tracePathGo a b
          ((dd + 1, runState a b (dd + 1)) :: revTrace a b dd) x y =
          ((List.range s).map fun i : Nat => make_equal (pyIdx a (x - 1 - (i : Int)))) ++
            make_insert (pyIdx b (y - (s : Int) - 1)) ::
              tracePathGo a b (revTrace a b dd) (x - (s : Int)) (y - (s : Int) - 1) := by
        simp only [tracePathGo]
        rw [if_pos hc, h1, h2, h3, if_pos (by omega : 0 < dd + 1), if_pos hfire]
      have hxs : x - (s : Int) = W := by omega
      have hys : y - (s : Int) - 1 = W - (x - y + 1) := by omega
      have hvp : W = fwdVal a b (runState a b dd) (dd : Int) (W - (W - (x - y + 1))) := by
        rw [show W - (W - (x - y + 1)) = x - y + 1 from by ring]
      obtain ⟨hihO, hihM, hihC⟩ :=
        ih W (W - (x - y + 1)) (by omega) hW0 hpy0 hWn hpym hre hvp
      have heqsb : ((List.range s).map fun i : Nat => pyIdx a (x - 1 - (i : Int))) =
          (List.range s).map fun i : Nat => pyIdx b (y - 1 - (i : Int)) := by
        apply map_range_congr
        intro i hi
        obtain ⟨-, -, hg⟩ := hrun (x - 1 - (i : Int)) (by omega) (by omega)
        show (pyGet a (x - 1 - (i : Int))).getD default =
          (pyGet b (y - 1 - (i : Int))).getD default
        rw [hg, show x - 1 - (i : Int) - W + (W - (x - y)) = y - 1 - (i : Int) from by ring]
      rw [hout, hxs, hys]
      refine ⟨?_, ?_, ?_⟩
      · rw [origOf_append, origOf_map_equal, origOf_insert_cons, hihO,
          take_run_rev a W x s hW0 (by omega) hxn]
      · rw [modOf_append, modOf_map_equal, modOf_insert_cons, hihM, heqsb,
          take_middle_rev b (W - (x - y + 1)) y s hpy0 (by omega) hym]
      · rw [cost_append, cost_map_equal, cost_insert_cons, hihC]
        omega
    · -- horizontal step: the predecessor sits on diagonal `k - 1`
      have hcne : x - y ≠ -(((dd + 1 : Nat)) : Int) := fun h => hc (Or.inl h)
      have hpkmem : x - y - 1 ∈ ks (dd : Int) := by
        rw [mem_ks]
        refine ⟨?_, ?_, ?_⟩ <;> omega
      have hpx_val : runState a b (dd + 1) (x - y - 1) =
          fwdVal a b (runState a b dd) (dd : Int) (x - y - 1) := hvals _ hpkmem
      obtain ⟨⟨x₀, y₀, d₀, hxx0, hyy0, -, -⟩, hongrid⟩ :=
        (run_inv a b dd fun j hj => run_no_fire a b j (by omega)).1 _ hpkmem
      set W := fwdVal a b (runState a b dd) (dd : Int) (x - y - 1) with hW
      have hch : chooseX (runState a b (dd + 1)) (((dd + 1 : Nat)) : Int) (x - y) =
          runState a b (dd + 1) (x - y - 1) + 1 := by
        unfold chooseX
        rw [if_neg hc]
      unfold fwdVal at hval
      rw [hch, hpx_val] at hval
      obtain ⟨hle, -, hrun, -, -, -⟩ := slideEnd_spec a b (W + 1) (W + 1 - (x - y))
      rw [← hval] at hle hrun
      have hW0 : 0 ≤ W := by omega
      have hpy0 : 0 ≤ W - (x - y - 1) := by omega
      have hWn : W ≤ (a.length : Int) := by omega
      have hpym : W - (x - y - 1) ≤ (b.length : Int) := by omega
      have hre : Reach a b dd W.toNat (W - (x - y - 1)).toNat := hongrid hWn hpym
      set s := (x - W - 1).toNat with hs
      have hsx : x - W - 1 = (s : Int) := by omega
      have hbs : backSnake a x y (runState a b (dd + 1) (x - y - 1))
          (runState a b (dd + 1) (x - y - 1) - (x - y - 1)) =
          (x - (s : Int), y - (s : Int),
            (List.range s).map fun i : Nat => make_equal (pyIdx a (x - 1 - (i : Int)))) := by
        rw [hpx_val]
        show backSnakeGo a (x - W).toNat x y W (W - (x - y - 1)) = _
        exact backSnakeGo_run a s (x - W).toNat x y W (W - (x - y - 1))
          (by omega) (Or.inr ⟨by omega, by omega⟩)
      have h1 : (backSnake a x y (runState a b (dd + 1) (x - y - 1))
          (runState a b (dd + 1) (x - y - 1) - (x - y - 1))).1 = x - (s : Int) := by
        rw [hbs]
      have h2 : (backSnake a x y (runState a b (dd + 1) (x - y - 1))
          (runState a b (dd + 1) (x - y - 1) - (x - y - 1))).2.1 = y - (s : Int) := by
        rw [hbs]
      have h3 : (backSnake a x y (runState a b (dd + 1) (x - y - 1))
          (runState a b (dd + 1) (x - y - 1) - (x - y - 1))).2.2 =
          (List.range s).map fun i : Nat => make_equal (pyIdx a (x - 1 - (i : Int))) := by
        rw [hbs]
      have hnofire : ¬(x - (s : Int) = runState a b (dd + 1) (x - y - 1)) := by
        rw [hpx_val]
        omega
      have hout : tracePathGo a b
          ((dd + 1, runState a b (dd + 1)) :: revTrace a b dd) x y =
          ((List.range s).map fun i : Nat => make_equal (pyIdx a (x - 1 - (i : Int)))) ++
            make_delete (pyIdx a (x - (s : Int) - 1)) ::
              tracePathGo a b (revTrace a b dd) (x - (s : Int) - 1) (y - (s : Int)) := by
        simp only [tracePathGo]
        rw [if_neg hc, h1, h2, h3, if_pos (by omega : 0 < dd + 1), if_neg hnofire]
      have hxs : x - (s : Int) - 1 = W := by omega
      have hys : y - (s : Int) = W - (x - y - 1) := by omega
      have hvp : W = fwdVal a b (runState a b dd) (dd : Int) (W - (W - (x - y - 1))) := by
        rw [show W - (W - (x - y - 1)) = x - y - 1 from by ring]
      obtain ⟨hihO, hihM, hihC⟩ :=
        ih W (W - (x - y - 1)) (by omega) hW0 hpy0 hWn hpym hre hvp
      have heqsb : ((List.range s).map fun i : Nat => pyIdx a (x - 1 - (i : Int))) =
          (List.range s).map fun i : Nat => pyIdx b (y - 1 - (i : Int)) := by
        apply map_range_congr
        intro i hi
        obtain ⟨-, -, hg⟩ := hrun (x - 1 - (i : Int)) (by omega) (by omega)
        show (pyGet a (x - 1 - (i : Int))).getD default =
          (pyGet b (y - 1 - (i : Int))).getD default
        rw [hg, show x - 1 - (i : Int) - (W + 1) + (W + 1 - (x - y)) = y - 1 - (i : Int)
          from by ring]
      rw [hout, hxs, hys]
      refine ⟨?_, ?_, ?_⟩
      · rw [origOf_append, origOf_map_equal, origOf_delete_cons, hihO,
          take_middle_rev a W x s hW0 (by omega) hxn]
      · rw [modOf_append, modOf_map_equal, modOf_delete_cons, hihM, heqsb,
          take_run_rev b (W - (x - y - 1)) y s hpy0 (by omega) hym]
      · rw [cost_append, cost_map_equal, cost_delete_cons, hihC]
        omega

/-! ## Assembling the engine correctness facts -/

theorem pureOps_replaceFree {s : List (EditAction α)} (h : pureOps s) :
    ReplaceFree s := by
  intro e he hrep
  rcases h e he with h1 | h1 | h1 <;> rw [hrep] at h1 <;> exact OpType.noConfusion h1

theorem diff_left_empty (b : List α) : diff ([] : List α) b = b.map make_insert := by
  unfold diff compute
  by_cases hb : b.length = 0
  · have hbe : b = [] := List.length_eq_zero.mp hb
    subst hbe
    rfl
  · rw [if_neg (fun h => hb h.2),
      if_pos (show List.length ([] : List α) = 0 from rfl)]

theorem diff_right_empty (a : List α) (ha : a.length ≠ 0) :
    diff a ([] : List α) = a.map make_delete := by
  unfold diff compute
  rw [if_neg (fun h => ha h.1), if_neg ha,
      if_pos (show List.length ([] : List α) = 0 from rfl)]

/-- On non-empty inputs the script of the quadratic engine spells the two
inputs back and its number of non-`Equal` entries is the least realizable
script cost. -/
theorem diff_main (a b : List α) (ha : a.length ≠ 0) (hb : b.length ≠ 0) :
    origOf (diff a b) = a ∧ modOf (diff a b) = b ∧
      cost (diff a b) = sInf (edCosts a b) := by
  obtain ⟨v', r, hr⟩ : ∃ v' r, fwdSteps a b ((sInf (edCosts a b) : Nat) : Int)
      (ks ((sInf (edCosts a b) : Nat) : Int))
      (runState a b (sInf (edCosts a b))) = (v', some r) := by
    rcases hres : fwdSteps a b ((sInf (edCosts a b) : Nat) : Int)
      (ks ((sInf (edCosts a b) : Nat) : Int))
      (runState a b (sInf (edCosts a b))) with ⟨w, res⟩
    cases res with
    | none => exact absurd (by rw [hres]) (run_fires a b)
    | some r => exact ⟨w, r, rfl⟩
  have hval := (run_fire_exact a b hr).2
  have hfp1 : (findPath a b).1 =
      (List.range (sInf (edCosts a b) + 1)).map (runState a b) := by
    rw [findPath_eq]
  have htr : ((List.range (sInf (edCosts a b) + 1)).map (runState a b)).enum.reverse =
      revTrace a b (sInf (edCosts a b)) := by
    rw [enum_map_range]
    rfl
  have hreach : Reach a b (sInf (edCosts a b)) a.length b.length :=
    mem_edCosts_iff_reach.mp (Nat.sInf_mem (edCosts_nonempty a b))
  have hreach' : Reach a b (sInf (edCosts a b))
      ((a.length : Int)).toNat ((b.length : Int)).toNat := by
    rw [show ((a.length : Int)).toNat = a.length from by omega,
      show ((b.length : Int)).toNat = b.length from by omega]
    exact hreach
  obtain ⟨hO, hM, hC⟩ := tracePathGo_run a b (sInf (edCosts a b))
    (a.length : Int) (b.length : Int) le_rfl (by omega) (by omega) le_rfl le_rfl
    hreach' hval.symm
  unfold diff compute tracePath
  rw [if_neg (fun h => ha h.1), if_neg ha, if_neg hb, hfp1, htr]
  refine ⟨?_, ?_, ?_⟩
  · rw [origOf_reverse, hO, show ((a.length : Int)).toNat = a.length from by omega,
      List.take_length, List.reverse_reverse]
  · rw [modOf_reverse, hM, show ((b.length : Int)).toNat = b.length from by omega,
      List.take_length, List.reverse_reverse]
  · rw [cost_reverse, hC]

/-- The quadratic engine's script is always a valid replace-free script
between its inputs. -/
theorem diff_validScript (A B : List α) : ValidScript (diff A B) A B := by
  by_cases ha : A.length = 0
  · have hA : A = [] := List.length_eq_zero.mp ha
    subst hA
    rw [diff_left_empty]
    refine ⟨?_, origOf_map_insert B, modOf_map_insert B⟩
    intro e he
    obtain ⟨v, -, rfl⟩ := List.mem_map.mp he
    intro hcontra
    cases hcontra
  · by_cases hb : B.length = 0
    · have hB : B = [] := List.length_eq_zero.mp hb
      subst hB
      rw [diff_right_empty A ha]
      refine ⟨?_, origOf_map_delete A, modOf_map_delete A⟩
      intro e he
      obtain ⟨v, -, rfl⟩ := List.mem_map.mp he
      intro hcontra
      cases hcontra
    · obtain ⟨hO, hM, -⟩ := diff_main A B ha hb
      exact ⟨pureOps_replaceFree (diff_pureOps A B), hO, hM⟩

/-- A valid script from the empty sequence consists of inserts only, so
its cost is forced: the length of the produced sequence. -/
theorem cost_valid_left_empty {s : List (EditAction α)} {B : List α}
    (h : ValidScript s ([] : List α) B) : cost s = B.length := by
  obtain ⟨hrf, ho, hm⟩ := h
  have hlen : (s.filter fun e => e.op = OpType.equal ∨ e.op = OpType.delete).length = 0 := by
    have hl := congrArg List.length ho
    simpa [origOf] using hl
  have hfil : (s.filter fun e => e.op = OpType.equal ∨ e.op = OpType.delete) = [] :=
    List.length_eq_zero.mp hlen
  have hnone : ∀ e ∈ s, ¬(e.op = OpType.equal ∨ e.op = OpType.delete) := by
    intro e he
    have hh := List.filter_eq_nil_iff.mp hfil e he
    simpa using hh
  have hins : ∀ e ∈ s, e.op = OpType.insert := by
    intro e he
    cases hop : e.op with
    | insert => rfl
    | delete => exact absurd (Or.inr hop) (hnone e he)
    | equal => exact absurd (Or.inl hop) (hnone e he)
    | replace => exact absurd hop (hrf e he)
  have hkeep : (s.filter fun e => e.op = OpType.equal ∨ e.op = OpType.insert) = s :=
    List.filter_eq_self.mpr fun e he => by simp [hins e he]
  have hkeep2 : (s.filter fun e => e.op ≠ OpType.equal) = s :=
    List.filter_eq_self.mpr fun e he => by simp [hins e he]
  have hmod : B.length = s.length := by
    rw [← hm]
    unfold modOf
    rw [hkeep, List.length_map]
  unfold cost
  rw [hkeep2, hmod]

/-- A valid script onto the empty sequence consists of deletes only, so
its cost is forced: the length of the consumed sequence. -/
theorem cost_valid_right_empty {s : List (EditAction α)} {A : List α}
    (h : ValidScript s A ([] : List α)) : cost s = A.length := by
  obtain ⟨hrf, ho, hm⟩ := h
  have hlen : (s.filter fun e => e.op = OpType.equal ∨ e.op = OpType.insert).length = 0 := by
    have hl := congrArg List.length hm
    simpa [modOf] using hl
  have hfil : (s.filter fun e => e.op = OpType.equal ∨ e.op = OpType.insert) = [] :=
    List.length_eq_zero.mp hlen
  have hnone : ∀ e ∈ s, ¬(e.op = OpType.equal ∨ e.op = OpType.insert) := by
    intro e he
    have hh := List.filter_eq_nil_iff.mp hfil e he
    simpa using hh
  have hdel : ∀ e ∈ s, e.op = OpType.delete := by
    intro e he
    cases hop : e.op with
    | insert => exact absurd (Or.inr hop) (hnone e he)
    | delete => rfl
    | equal => exact absurd (Or.inl hop) (hnone e he)
    | replace => exact absurd hop (hrf e he)
  have hkeep : (s.filter fun e => e.op = OpType.equal ∨ e.op = OpType.delete) = s :=
    List.filter_eq_self.mpr fun e he => by simp [hdel e he]
  have hkeep2 : (s.filter fun e => e.op ≠ OpType.equal) = s :=
    List.filter_eq_self.mpr fun e he => by simp [hdel e he]
  have horig : A.length = s.length := by
    rw [← ho]
    unfold origOf
    rw [hkeep, List.length_map]
  unfold cost
  rw [hkeep2, horig]

/-- C1: for every pair of sequences the quadratic engine's script patches
the original back to the modified sequence, and the values of its
`Equal`/`Delete` entries in order reproduce the original exactly. -/
theorem C1_roundtrip (A B : List α) :
    patch A (diff A B) = some B ∧ origOf (diff A B) = A := by
  obtain ⟨hrf, ho, hm⟩ := diff_validScript A B
  refine ⟨?_, ho⟩
  unfold patch
  rw [patchGo_success A (diff A B) 0 hrf (by rw [ho, List.drop_zero]) (by omega), hm]

/-- Two valid scripts compose: an insert/delete script from `A` to `B`
and one from `B` to `C` yield one from `A` to `C` of at most the summed
cost (matching inserts of the first against deletes/equals of the second). -/
theorem script_compose : ∀ (n : Nat) (s1 s2 : List (EditAction α)) (A B C : List α),
    s1.length + s2.length ≤ n →
    ValidScript s1 A B → ValidScript s2 B C →
    ∃ s : List (EditAction α), ValidScript s A C ∧ cost s ≤ cost s1 + cost s2 := by
  intro n
  induction n with
  | zero =>
    intro s1 s2 A B C hn h1 h2
    have hs1 : s1 = [] := List.length_eq_zero.mp (by omega)
    have hs2 : s2 = [] := List.length_eq_zero.mp (by omega)
    subst hs1
    subst hs2
    exact ⟨[], ⟨fun e he => absurd he (List.not_mem_nil e), h1.2.1, h2.2.2⟩, le_rfl⟩
  | succ n ihn =>
    intro s1 s2 A B C hn h1 h2
    obtain ⟨hrf1, ho1, hm1⟩ := h1
    obtain ⟨hrf2, ho2, hm2⟩ := h2
    cases s1 with
    | nil =>
      refine ⟨s2, ⟨hrf2, ?_, hm2⟩, by simp⟩
      rw [ho2, ← hm1, ← ho1]
      rfl
    | cons e t1 =>
      rcases e with ⟨op1, v, ov1⟩
      cases op1 with
      | replace =>
        exact absurd rfl (hrf1 ⟨OpType.replace, v, ov1⟩ (List.mem_cons_self _ _))
      | delete =>
        rw [origOf_cons_del] at ho1
        rw [modOf_cons_del] at hm1
        obtain ⟨s, ⟨hrf, ho, hm⟩, hc⟩ := ihn t1 s2 (origOf t1) B C
          (by simp only [List.length_cons] at hn; omega)
          ⟨fun f hf => hrf1 f (List.mem_cons_of_mem _ hf), rfl, hm1⟩ ⟨hrf2, ho2, hm2⟩
        refine ⟨⟨OpType.delete, v, none⟩ :: s, ⟨?_, ?_, ?_⟩, ?_⟩
        · intro f hf
          rcases List.mem_cons.mp hf with rfl | hf
          · intro hcon; cases hcon
          · exact hrf f hf
        · rw [origOf_cons_del, ho, ← ho1]
        · rw [modOf_cons_del, hm]
        · simp only [cost_cons_del]
          omega
      | insert =>
        rw [origOf_cons_ins] at ho1
        rw [modOf_cons_ins] at hm1
        cases s2 with
        | nil =>
          exfalso
          have hB : B = [] := by rw [← ho2]; rfl
          rw [hB] at hm1
          cases hm1
        | cons f t2 =>
          rcases f with ⟨op2, w, ov2⟩
          cases op2 with
          | replace =>
            exact absurd rfl (hrf2 ⟨OpType.replace, w, ov2⟩ (List.mem_cons_self _ _))
          | insert =>
            rw [origOf_cons_ins] at ho2
            rw [modOf_cons_ins] at hm2
            obtain ⟨s, ⟨hrf, ho, hm⟩, hc⟩ :=
              ihn (⟨OpType.insert, v, ov1⟩ :: t1) t2 A B (modOf t2)
                (by simp only [List.length_cons] at hn ⊢; omega)
                ⟨hrf1, by rw [origOf_cons_ins]; exact ho1, by rw [modOf_cons_ins]; exact hm1⟩
                ⟨fun g hg => hrf2 g (List.mem_cons_of_mem _ hg), ho2, rfl⟩
            refine ⟨⟨OpType.insert, w, none⟩ :: s, ⟨?_, ?_, ?_⟩, ?_⟩
            · intro g hg
              rcases List.mem_cons.mp hg with rfl | hg
              · intro hcon; cases hcon
              · exact hrf g hg
            · rw [origOf_cons_ins, ho]
            · rw [modOf_cons_ins, hm, ← hm2]
            · simp only [cost_cons_ins] at hc ⊢
              omega
          | delete =>
            rw [origOf_cons_del] at ho2
            rw [modOf_cons_del] at hm2
            have h12 := hm1.trans ho2.symm
            injection h12 with hv ht
            obtain ⟨s, ⟨hrf, ho, hm⟩, hc⟩ := ihn t1 t2 (origOf t1) (modOf t1) C
              (by simp only [List.length_cons] at hn; omega)
              ⟨fun g hg => hrf1 g (List.mem_cons_of_mem _ hg), rfl, rfl⟩
              ⟨fun g hg => hrf2 g (List.mem_cons_of_mem _ hg), ht.symm, hm2⟩
            refine ⟨s, ⟨hrf, ?_, hm⟩, ?_⟩
            · rw [ho, ← ho1]
            · simp only [cost_cons_ins, cost_cons_del]
              omega
          | equal =>
            rw [origOf_cons_eq] at ho2
            rw [modOf_cons_eq] at hm2
            have h12 := hm1.trans ho2.symm
            injection h12 with hv ht
            obtain ⟨s, ⟨hrf, ho, hm⟩, hc⟩ := ihn t1 t2 (origOf t1) (modOf t1) (modOf t2)
              (by simp only [List.length_cons] at hn; omega)
              ⟨fun g hg => hrf1 g (List.mem_cons_of_mem _ hg), rfl, rfl⟩
              ⟨fun g hg => hrf2 g (List.mem_cons_of_mem _ hg), ht.symm, rfl⟩
            refine ⟨⟨OpType.insert, w, none⟩ :: s, ⟨?_, ?_, ?_⟩, ?_⟩
            · intro g hg
              rcases List.mem_cons.mp hg with rfl | hg
              · intro hcon; cases hcon
              · exact hrf g hg
            · rw [origOf_cons_ins, ho, ← ho1]
            · rw [modOf_cons_ins, hm, ← hm2]
            · simp only [cost_cons_ins, cost_cons_eq]
              omega
      | equal =>
        rw [origOf_cons_eq] at ho1
        rw [modOf_cons_eq] at hm1
        cases s2 with
        | nil =>
          exfalso
          have hB : B = [] := by rw [← ho2]; rfl
          rw [hB] at hm1
          cases hm1
        | cons f t2 =>
          rcases f with ⟨op2, w, ov2⟩
          cases op2 with
          | replace =>
            exact absurd rfl (hrf2 ⟨OpType.replace, w, ov2⟩ (List.mem_cons_self _ _))
          | insert =>
            rw [origOf_cons_ins] at ho2
            rw [modOf_cons_ins] at hm2
            obtain ⟨s, ⟨hrf, ho, hm⟩, hc⟩ :=
              ihn (⟨OpType.equal, v, ov1⟩ :: t1) t2 A B (modOf t2)
                (by simp only [List.length_cons] at hn ⊢; omega)
                ⟨hrf1, by rw [origOf_cons_eq]; exact ho1, by rw [modOf_cons_eq]; exact hm1⟩
                ⟨fun g hg => hrf2 g (List.mem_cons_of_mem _ hg), ho2, rfl⟩
            refine ⟨⟨OpType.insert, w, none⟩ :: s, ⟨?_, ?_, ?_⟩, ?_⟩
            · intro g hg
              rcases List.mem_cons.mp hg with rfl | hg
              · intro hcon; cases hcon
              · exact hrf g hg
            · rw [origOf_cons_ins, ho]
            · rw [modOf_cons_ins, hm, ← hm2]
            · simp only [cost_cons_ins, cost_cons_eq] at hc ⊢
              omega
          | delete =>
            rw [origOf_cons_del] at ho2
            rw [modOf_cons_del] at hm2
            have h12 := hm1.trans ho2.symm
            injection h12 with hv ht
            obtain ⟨s, ⟨hrf, ho, hm⟩, hc⟩ := ihn t1 t2 (origOf t1) (modOf t1) C
              (by simp only [List.length_cons] at hn; omega)
              ⟨fun g hg => hrf1 g (List.mem_cons_of_mem _ hg), rfl, rfl⟩
              ⟨fun g hg => hrf2 g (List.mem_cons_of_mem _ hg), ht.symm, hm2⟩
            refine ⟨⟨OpType.delete, v, none⟩ :: s, ⟨?_, ?_, ?_⟩, ?_⟩
            · intro g hg
              rcases List.mem_cons.mp hg with rfl | hg
              · intro hcon; cases hcon
              · exact hrf g hg
            · rw [origOf_cons_del, ho, ← ho1]
            · rw [modOf_cons_del, hm]
            · simp only [cost_cons_del, cost_cons_eq]
              omega
          | equal =>
            rw [origOf_cons_eq] at ho2
            rw [modOf_cons_eq] at hm2
            have h12 := hm1.trans ho2.symm
            injection h12 with hv ht
            obtain ⟨s, ⟨hrf, ho, hm⟩, hc⟩ := ihn t1 t2 (origOf t1) (modOf t1) (modOf t2)
              (by simp only [List.length_cons] at hn; omega)
              ⟨fun g hg => hrf1 g (List.mem_cons_of_mem _ hg), rfl, rfl⟩
              ⟨fun g hg => hrf2 g (List.mem_cons_of_mem _ hg), ht.symm, rfl⟩
            refine ⟨⟨OpType.equal, v, none⟩ :: s, ⟨?_, ?_, ?_⟩, ?_⟩
            · intro g hg
              rcases List.mem_cons.mp hg with rfl | hg
              · intro hcon; cases hcon
              · exact hrf g hg
            · rw [origOf_cons_eq, ho, ← ho1]
            · rw [modOf_cons_eq, hm, hv, ← hm2]
            · simp only [cost_cons_eq]
              omega

theorem edit_distance_nonneg (a b : List α) : 0 ≤ edit_distance a b := by
  unfold edit_distance
  by_cases h1 : a.length = 0 ∧ b.length = 0
  · rw [if_pos h1]
  · rw [if_neg h1]
    by_cases h2 : a.length = 0
    · rw [if_pos h2]
    · rw [if_neg h2]
      by_cases h3 : b.length = 0
      · rw [if_pos h3]
      · rw [if_neg h3]
        have hfp : (findPath a b).2 = some ((sInf (edCosts a b) : Nat) : Int) := by
          rw [findPath_eq]
        rw [hfp, Option.getD_some]
        exact Int.natCast_nonneg _

/-- C3: for every pair of sequences, the number of non-`Equal` entries of
the quadratic engine's script is the least cost over all insert/delete
scripts between the two sequences — the true edit distance. -/
theorem C3_minimality (A B : List α) : IsLeast (edCosts A B) (cost (diff A B)) := by
  have hv := diff_validScript A B
  refine ⟨⟨diff A B, hv, rfl⟩, ?_⟩
  intro c hc
  by_cases ha : A.length = 0
  · have hA : A = [] := List.length_eq_zero.mp ha
    subst hA
    obtain ⟨s, hvs, rfl⟩ := hc
    rw [cost_valid_left_empty hv, cost_valid_left_empty hvs]
  · by_cases hb : B.length = 0
    · have hB : B = [] := List.length_eq_zero.mp hb
      subst hB
      obtain ⟨s, hvs, rfl⟩ := hc
      rw [cost_valid_right_empty hv, cost_valid_right_empty hvs]
    · obtain ⟨-, -, hC⟩ := diff_main A B ha hb
      rw [hC]
      exact Nat.sInf_le hc

/-- C7 (amended): the triangle inequality
`edit_distance A C ≤ edit_distance A B + edit_distance B C` holds whenever
the middle sequence `B` is non-empty; with `B` empty the right-hand calls
hit the empty-input zero-return of `edit_distance` and the inequality can
fail. -/
theorem C7_triangle_amended (A B C : List α) (hB : B ≠ []) :
    edit_distance A C ≤ edit_distance A B + edit_distance B C := by
  have hBl : B.length ≠ 0 := fun h => hB (List.length_eq_zero.mp h)
  by_cases hA : A.length = 0
  · have hLHS : edit_distance A C = 0 := by
      unfold edit_distance
      by_cases hC : C.length = 0
      · rw [if_pos ⟨hA, hC⟩]
      · rw [if_neg (fun h => hC h.2), if_pos hA]
    rw [hLHS]
    exact add_nonneg (edit_distance_nonneg A B) (edit_distance_nonneg B C)
  · by_cases hC : C.length = 0
    · have hLHS : edit_distance A C = 0 := by
        unfold edit_distance
        rw [if_neg (fun h => hA h.1), if_neg hA, if_pos hC]
      rw [hLHS]
      exact add_nonneg (edit_distance_nonneg A B) (edit_distance_nonneg B C)
    · rw [edit_distance_eq A C hA hC, edit_distance_eq A B hA hBl,
        edit_distance_eq B C hBl hC]
      obtain ⟨s1, hv1, hc1⟩ := Nat.sInf_mem (edCosts_nonempty A B)
      obtain ⟨s2, hv2, hc2⟩ := Nat.sInf_mem (edCosts_nonempty B C)
      obtain ⟨s, hv, hc⟩ :=
        script_compose (s1.length + s2.length) s1 s2 A B C le_rfl hv1 hv2
      have hle : sInf (edCosts A C) ≤ cost s := Nat.sInf_le ⟨s, hv, rfl⟩
      push_cast
      omega

/-- Closed instance of the amended C7 triangle inequality with its
non-empty-middle hypothesis discharged at concrete sequences. -/
theorem C7_triangle_amended_witness :
    (([1] : List Int) ≠ []) ∧
      edit_distance ([1] : List Int) [2] ≤
        edit_distance ([1] : List Int) [1] + edit_distance ([1] : List Int) [2] :=
  ⟨by decide, C7_triangle_amended [1] [1] [2] (by decide)⟩

/-! ## Linear engine: the backward search is the forward search on the
reversed sequences, so the quadratic engine's invariants transfer. -/

theorem edCosts_reverse (a b : List α) : edCosts a.reverse b.reverse = edCosts a b := by
  ext c
  constructor
  · rintro ⟨s, ⟨hrf, ho, hm⟩, rfl⟩
    refine ⟨s.reverse, ⟨?_, ?_, ?_⟩, cost_reverse s⟩
    · intro e he
      exact hrf e (List.mem_reverse.mp he)
    · rw [origOf_reverse, ho, List.reverse_reverse]
    · rw [modOf_reverse, hm, List.reverse_reverse]
  · rintro ⟨s, ⟨hrf, ho, hm⟩, rfl⟩
    refine ⟨s.reverse, ⟨?_, ?_, ?_⟩, cost_reverse s⟩
    · intro e he
      exact hrf e (List.mem_reverse.mp he)
    · rw [origOf_reverse, ho]
    · rw [modOf_reverse, hm]

theorem sInf_parity (a b : List α) :
    (sInf (edCosts a b) + a.length + b.length) % 2 = 0 := by
  have h := (mem_edCosts_iff_reach.mp (Nat.sInf_mem (edCosts_nonempty a b))).parity
  omega

theorem pyGet_reverse (l : List α) {i : Int} (h0 : 0 ≤ i) (h : i < (l.length : Int)) :
    pyGet l.reverse i = pyGet l ((l.length : Int) - 1 - i) := by
  rw [pyGet_nonneg _ h0, pyGet_nonneg _ (by omega : (0 : Int) ≤ (l.length : Int) - 1 - i)]
  rw [List.get?_eq_getElem?, List.get?_eq_getElem?]
  rw [List.getElem?_reverse (by omega : i.toNat < l.length)]
  congr 1
  omega

theorem slideRevGo_eq (a b : List α) :
    ∀ (fuel : Nat) (x y : Int), 0 ≤ x → 0 ≤ y →
      slideRevGo a b fuel x y = slideGo a.reverse b.reverse fuel x y := by
  intro fuel
  induction fuel with
  | zero => intro x y _ _; rfl
  | succ f ih =>
    intro x y hx hy
    have hlen : (a.reverse.length : Int) = (a.length : Int) := by rw [List.length_reverse]
    have hlenb : (b.reverse.length : Int) = (b.length : Int) := by rw [List.length_reverse]
    simp only [slideRevGo, slideGo, hlen, hlenb]
    by_cases hb : x < (a.length : Int) ∧ y < (b.length : Int)
    · rw [pyGet_reverse a hx hb.1, pyGet_reverse b hy hb.2]
      by_cases hc : pyGet a ((a.length : Int) - 1 - x) = pyGet b ((b.length : Int) - 1 - y)
      · rw [if_pos ⟨hb.1, hb.2, hc⟩, if_pos ⟨hb.1, hb.2, hc⟩,
          ih (x + 1) (y + 1) (by omega) (by omega)]
      · rw [if_neg (fun h => hc h.2.2), if_neg (fun h => hc h.2.2)]
    · rw [if_neg (fun h => hb ⟨h.1, h.2.1⟩), if_neg (fun h => hb ⟨h.1, h.2.1⟩)]

theorem slideEndRev_eq (a b : List α) (x y : Int) (hx : 0 ≤ x) (hy : 0 ≤ y) :
    slideEndRev a b x y = slideEnd a.reverse b.reverse x y := by
  unfold slideEndRev slideEnd
  rw [show ((a.reverse.length : Int) - x).toNat = ((a.length : Int) - x).toNat from by
    rw [List.length_reverse]]
  exact slideRevGo_eq a b _ x y hx hy

theorem slideRevGo_diag (a b : List α) :
    ∀ (fuel : Nat) (x y : Int),
      (slideRevGo a b fuel x y).1 - (slideRevGo a b fuel x y).2 = x - y := by
  intro fuel
  induction fuel with
  | zero => intro x y; rfl
  | succ f ih =>
    intro x y
    simp only [slideRevGo]
    by_cases hc : x < (a.length : Int) ∧ y < (b.length : Int) ∧
        pyGet a ((a.length : Int) - 1 - x) = pyGet b ((b.length : Int) - 1 - y)
    · rw [if_pos hc]
      rw [ih (x + 1) (y + 1)]
      ring
    · rw [if_neg hc]

theorem slideRevGo_ge (a b : List α) :
    ∀ (fuel : Nat) (x y : Int), x ≤ (slideRevGo a b fuel x y).1 := by
  intro fuel
  induction fuel with
  | zero => intro x y; exact le_rfl
  | succ f ih =>
    intro x y
    simp only [slideRevGo]
    by_cases hc : x < (a.length : Int) ∧ y < (b.length : Int) ∧
        pyGet a ((a.length : Int) - 1 - x) = pyGet b ((b.length : Int) - 1 - y)
    · rw [if_pos hc]
      exact le_trans (by omega) (ih (x + 1) (y + 1))
    · rw [if_neg hc]

/-- The value the inner loop stores for a listed diagonal when the depth
completes without firing. -/
theorem runState_succ_val (a b : List α) (d : Nat)
    (hnf : (fwdSteps a b (d : Int) (ks (d : Int)) (runState a b d)).2 = none)
    {k : Int} (hk : k ∈ ks (d : Int)) :
    runState a b (d + 1) k = fwdVal a b (runState a b d) (d : Int) k := by
  have hfe : fwdSteps a b (d : Int) (ks (d : Int)) (runState a b d) =
      ((fwdSteps a b (d : Int) (ks (d : Int)) (runState a b d)).1, none) :=
    Prod.ext rfl hnf
  obtain ⟨-, hvals, -⟩ := (fwdSteps_cases a b (d : Int) (ks (d : Int)) (runState a b d)
    ks_parity (ks_nodup _)).1 _ hfe
  exact hvals _ hk

/-- The greedy start of the snake on a visited diagonal is on-grid: its
coordinates are non-negative, and past depth `0` at least one of them is
positive. -/
theorem chooseX_bounds (a b : List α) (d : Nat) {k : Int} (hk : k ∈ ks (d : Int))
    (hnf : ∀ i : Nat, i < d →
      (fwdSteps a b (i : Int) (ks (i : Int)) (runState a b i)).2 = none) :
    0 ≤ chooseX (runState a b d) (d : Int) k ∧
    k ≤ chooseX (runState a b d) (d : Int) k ∧
    (1 ≤ d → 1 ≤ chooseX (runState a b d) (d : Int) k +
      (chooseX (runState a b d) (d : Int) k - k)) := by
  cases d with
  | zero =>
    have hk0 : k = 0 := by
      rw [mem_ks] at hk
      omega
    subst hk0
    have hch : chooseX (runState a b 0) (((0 : Nat)) : Int) 0 = 0 := by
      unfold chooseX
      rw [if_pos (Or.inl (show (0 : Int) = -(((0 : Nat)) : Int) from by norm_num))]
      rfl
    rw [hch]
    exact ⟨le_rfl, le_rfl, by omega⟩
  | succ d' =>
    rw [mem_ks] at hk
    by_cases hc : k = -(((d' + 1 : Nat)) : Int) ∨
        (k ≠ (((d' + 1 : Nat)) : Int) ∧
          runState a b (d' + 1) (k - 1) < runState a b (d' + 1) (k + 1))
    · have hkne : k = -(((d' + 1 : Nat)) : Int) ∨ k ≠ (((d' + 1 : Nat)) : Int) :=
        hc.imp (fun h => h) And.left
      have hpk : k + 1 ∈ ks (d' : Int) := by
        rw [mem_ks]
        refine ⟨?_, ?_, ?_⟩ <;> rcases hkne with h | h <;> omega
      have hval := runState_succ_val a b d' (hnf d' (by omega)) hpk
      obtain ⟨⟨x₀, y₀, d₀, hxx0, hyy0, -, -⟩, -⟩ :=
        (run_inv a b d' fun j hj => hnf j (by omega)).1 _ hpk
      have hch : chooseX (runState a b (d' + 1)) (((d' + 1 : Nat)) : Int) k =
          runState a b (d' + 1) (k + 1) := by
        unfold chooseX
        rw [if_pos hc]
      rw [hch, hval]
      refine ⟨by omega, by omega, fun _ => by omega⟩
    · have hcne : k ≠ -(((d' + 1 : Nat)) : Int) := fun h => hc (Or.inl h)
      have hpk : k - 1 ∈ ks (d' : Int) := by
        rw [mem_ks]
        refine ⟨?_, ?_, ?_⟩ <;> omega
      have hval := runState_succ_val a b d' (hnf d' (by omega)) hpk
      obtain ⟨⟨x₀, y₀, d₀, hxx0, hyy0, -, -⟩, -⟩ :=
        (run_inv a b d' fun j hj => hnf j (by omega)).1 _ hpk
      have hch : chooseX (runState a b (d' + 1)) (((d' + 1 : Nat)) : Int) k =
          runState a b (d' + 1) (k - 1) + 1 := by
        unfold chooseX
        rw [if_neg hc]
      rw [hch, hval]
      refine ⟨by omega, by omega, fun _ => by omega⟩

theorem bwdVal_congr {a b : List α} {v v' : Int → Int} {d k : Int}
    (h : ∀ j, (j = k - 1 ∨ j = k + 1) → v' j = v j) :
    bwdVal a b v' d k = bwdVal a b v d k := by
  unfold bwdVal
  rw [chooseX_congr h]

/-- Characterization of the forward half of one `_find_middle_snake`
depth: on a normal exit every listed diagonal holds its computed value and
no overlap check passed; an early exit returns the snake of a listed
diagonal whose check passed. -/
theorem snakeFwdSteps_cases (a b : List α) (n delta : Int) (odd : Bool) (d : Int) :
    ∀ (L : List Int) (vf vb : Int → Int), (∀ k ∈ L, (k - d) % 2 = 0) → L.Nodup →
      (∀ vf' : Int → Int, snakeFwdSteps a b n delta odd d L vf vb = (vf', none) →
        (∀ j, j ∉ L → vf' j = vf j) ∧
        (∀ k ∈ L, vf' k = fwdVal a b vf d k) ∧
        (∀ k ∈ L, ¬(odd = true ∧ (-(d - 1) ≤ k - delta ∧ k - delta ≤ d - 1) ∧
            n ≤ fwdVal a b vf d k + vb (delta - k)))) ∧
      (∀ (vf' : Int → Int) (r : Int × Int × Int × Int × Int),
        snakeFwdSteps a b n delta odd d L vf vb = (vf', some r) →
        ∃ k ∈ L, r = (chooseX vf d k, chooseX vf d k - k,
            fwdVal a b vf d k, fwdVal a b vf d k - k, 2 * d - 1) ∧
          odd = true ∧ (-(d - 1) ≤ k - delta ∧ k - delta ≤ d - 1) ∧
          n ≤ fwdVal a b vf d k + vb (delta - k)) := by
  intro L
  induction L with
  | nil =>
    intro vf vb _ _
    constructor
    · intro vf' h
      simp only [snakeFwdSteps] at h
      injection h with h1 h2
      subst h1
      exact ⟨fun j _ => rfl, fun k hk => absurd hk (List.not_mem_nil k),
        fun k hk => absurd hk (List.not_mem_nil k)⟩
    · intro vf' r h
      simp [snakeFwdSteps] at h
  | cons k L' ih =>
    intro vf vb hpar hnd
    have hp2 : (slideEnd a b (chooseX vf d k) (chooseX vf d k - k)).2 =
        fwdVal a b vf d k - k := by
      have := (slideEnd_spec a b (chooseX vf d k) (chooseX vf d k - k)).2.1
      unfold fwdVal
      omega
    have hfv : (slideEnd a b (chooseX vf d k) (chooseX vf d k - k)).1 =
        fwdVal a b vf d k := rfl
    have hkpar : (k - d) % 2 = 0 := hpar k (List.mem_cons_self _ _)
    have hpar' : ∀ k' ∈ L', (k' - d) % 2 = 0 := fun k' hk' =>
      hpar k' (List.mem_cons_of_mem _ hk')
    have hknotin : k ∉ L' := (List.nodup_cons.mp hnd).1
    have hnd' : L'.Nodup := (List.nodup_cons.mp hnd).2
    have hupd : ∀ k' ∈ L', ∀ j, (j = k' - 1 ∨ j = k' + 1) →
        upd vf k (fwdVal a b vf d k) j = vf j := by
      rintro k' hk' j (rfl | rfl)
      all_goals
        have hp' := hpar' k' hk'
        have : k' - 1 ≠ k ∧ k' + 1 ≠ k := by constructor <;> (intro hcon; omega)
        unfold upd
        first
        | rw [if_neg this.1]
        | rw [if_neg this.2]
    have hfvcongr : ∀ k' ∈ L',
        fwdVal a b (upd vf k (fwdVal a b vf d k)) d k' = fwdVal a b vf d k' :=
      fun k' hk' => fwdVal_congr (hupd k' hk')
    have hchcongr : ∀ k' ∈ L',
        chooseX (upd vf k (fwdVal a b vf d k)) d k' = chooseX vf d k' :=
      fun k' hk' => chooseX_congr (hupd k' hk')
    have hvfk : upd vf k ((slideEnd a b (chooseX vf d k) (chooseX vf d k - k)).1) k =
        fwdVal a b vf d k := by
      unfold upd
      rw [if_pos rfl, hfv]
    by_cases hfire : odd = true ∧ (-(d - 1) ≤ k - delta ∧ k - delta ≤ d - 1) ∧
        n ≤ fwdVal a b vf d k + vb (delta - k)
    · constructor
      · intro vf' h
        simp only [snakeFwdSteps, hvfk] at h
        rw [if_pos hfire] at h
        injection h with h1 h2
        injection h2
      · intro vf' r h
        simp only [snakeFwdSteps, hvfk, hp2] at h
        rw [if_pos hfire] at h
        injection h with h1 h2
        injection h2 with h2
        refine ⟨k, List.mem_cons_self _ _, by rw [← h2, hfv], hfire.1, hfire.2.1, hfire.2.2⟩
    · have hnot : ¬(odd = true ∧ (-(d - 1) ≤ k - delta ∧ k - delta ≤ d - 1) ∧
          n ≤ upd vf k ((slideEnd a b (chooseX vf d k) (chooseX vf d k - k)).1) k +
            vb (delta - k)) := by
        rw [hvfk]
        exact hfire
      obtain ⟨ihnone, ihsome⟩ := ih (upd vf k (fwdVal a b vf d k)) vb hpar' hnd'
      have hrec : snakeFwdSteps a b n delta odd d L'
          (upd vf k ((slideEnd a b (chooseX vf d k) (chooseX vf d k - k)).1)) vb =
          snakeFwdSteps a b n delta odd d L' (upd vf k (fwdVal a b vf d k)) vb := by
        rw [hfv]
      constructor
      · intro vf' h
        simp only [snakeFwdSteps] at h
        rw [if_neg hnot, hrec] at h
        obtain ⟨hun, hval, hnofire⟩ := ihnone vf' h
        refine ⟨?_, ?_, ?_⟩
        · intro j hj
          have hj1 : j ∉ L' := fun hc => hj (List.mem_cons_of_mem _ hc)
          have hj2 : j ≠ k := fun hc => hj (hc ▸ List.mem_cons_self _ _)
          rw [hun j hj1]
          unfold upd
          rw [if_neg hj2]
        · intro k' hk'
          rcases List.mem_cons.mp hk' with rfl | hk'
          · rw [hun k' hknotin]
            unfold upd
            rw [if_pos rfl]
          · rw [hval k' hk', hfvcongr k' hk']
        · intro k' hk'
          rcases List.mem_cons.mp hk' with rfl | hk'
          · exact hfire
          · have := hnofire k' hk'
            rw [hfvcongr k' hk'] at this
            exact this
      · intro vf' r h
        simp only [snakeFwdSteps] at h
        rw [if_neg hnot, hrec] at h
        obtain ⟨k', hk', h1, h2, h3, h4⟩ := ihsome vf' r h
        rw [hfvcongr k' hk', hchcongr k' hk'] at h1
        rw [hfvcongr k' hk'] at h4
        exact ⟨k', List.mem_cons_of_mem _ hk', h1, h2, h3, h4⟩

/-- Characterization of the backward half of one `_find_middle_snake`
depth, mirroring the forward one; the returned tuple is the zero-length
snake at the backward post-slide point, in forward coordinates. -/
theorem snakeBwdSteps_cases (a b : List α) (n m delta : Int) (odd : Bool) (d : Int) :
    ∀ (L : List Int) (vf vb : Int → Int), (∀ k ∈ L, (k - d) % 2 = 0) → L.Nodup →
      (∀ vb' : Int → Int, snakeBwdSteps a b n m delta odd d L vf vb = (vb', none) →
        (∀ j, j ∉ L → vb' j = vb j) ∧
        (∀ k ∈ L, vb' k = bwdVal a b vb d k) ∧
        (∀ k ∈ L, ¬(¬odd = true ∧ (-d ≤ k - delta ∧ k - delta ≤ d) ∧
            n ≤ bwdVal a b vb d k + vf (delta - k)))) ∧
      (∀ (vb' : Int → Int) (r : Int × Int × Int × Int × Int),
        snakeBwdSteps a b n m delta odd d L vf vb = (vb', some r) →
        ∃ k ∈ L, r = (n - bwdVal a b vb d k, m - (bwdVal a b vb d k - k),
            n - bwdVal a b vb d k, m - (bwdVal a b vb d k - k), 2 * d) ∧
          ¬odd = true ∧ (-d ≤ k - delta ∧ k - delta ≤ d) ∧
          n ≤ bwdVal a b vb d k + vf (delta - k)) := by
  intro L
  induction L with
  | nil =>
    intro vf vb _ _
    constructor
    · intro vb' h
      simp only [snakeBwdSteps] at h
      injection h with h1 h2
      subst h1
      exact ⟨fun j _ => rfl, fun k hk => absurd hk (List.not_mem_nil k),
        fun k hk => absurd hk (List.not_mem_nil k)⟩
    · intro vb' r h
      simp [snakeBwdSteps] at h
  | cons k L' ih =>
    intro vf vb hpar hnd
    have hp2 : (slideEndRev a b (chooseX vb d k) (chooseX vb d k - k)).2 =
        bwdVal a b vb d k - k := by
      have := slideRevGo_diag a b ((a.length : Int) - chooseX vb d k).toNat
        (chooseX vb d k) (chooseX vb d k - k)
      unfold bwdVal slideEndRev
      omega
    have hfv : (slideEndRev a b (chooseX vb d k) (chooseX vb d k - k)).1 =
        bwdVal a b vb d k := rfl
    have hkpar : (k - d) % 2 = 0 := hpar k (List.mem_cons_self _ _)
    have hpar' : ∀ k' ∈ L', (k' - d) % 2 = 0 := fun k' hk' =>
      hpar k' (List.mem_cons_of_mem _ hk')
    have hknotin : k ∉ L' := (List.nodup_cons.mp hnd).1
    have hnd' : L'.Nodup := (List.nodup_cons.mp hnd).2
    have hupd : ∀ k' ∈ L', ∀ j, (j = k' - 1 ∨ j = k' + 1) →
        upd vb k (bwdVal a b vb d k) j = vb j := by
      rintro k' hk' j (rfl | rfl)
      all_goals
        have hp' := hpar' k' hk'
        have : k' - 1 ≠ k ∧ k' + 1 ≠ k := by constructor <;> (intro hcon; omega)
        unfold upd
        first
        | rw [if_neg this.1]
        | rw [if_neg this.2]
    have hbvcongr : ∀ k' ∈ L',
        bwdVal a b (upd vb k (bwdVal a b vb d k)) d k' = bwdVal a b vb d k' :=
      fun k' hk' => bwdVal_congr (hupd k' hk')
    have hvbk : upd vb k ((slideEndRev a b (chooseX vb d k) (chooseX vb d k - k)).1) k =
        bwdVal a b vb d k := by
      unfold upd
      rw [if_pos rfl, hfv]
    by_cases hfire : ¬odd = true ∧ (-d ≤ k - delta ∧ k - delta ≤ d) ∧
        n ≤ bwdVal a b vb d k + vf (delta - k)
    · constructor
      · intro vb' h
        simp only [snakeBwdSteps, hvbk] at h
        rw [if_pos hfire] at h
        injection h with h1 h2
        injection h2
      · intro vb' r h
        simp only [snakeBwdSteps, hvbk] at h
        rw [if_pos hfire] at h
        injection h with h1 h2
        injection h2 with h2
        refine ⟨k, List.mem_cons_self _ _, by rw [← h2, hfv, hp2], hfire.1,
          hfire.2.1, hfire.2.2⟩
    · have hnot : ¬(¬odd = true ∧ (-d ≤ k - delta ∧ k - delta ≤ d) ∧
          n ≤ upd vb k ((slideEndRev a b (chooseX vb d k) (chooseX vb d k - k)).1) k +
            vf (delta - k)) := by
        rw [hvbk]
        exact hfire
      obtain ⟨ihnone, ihsome⟩ := ih vf (upd vb k (bwdVal a b vb d k)) hpar' hnd'
      have hrec : snakeBwdSteps a b n m delta odd d L' vf
          (upd vb k ((slideEndRev a b (chooseX vb d k) (chooseX vb d k - k)).1)) =
          snakeBwdSteps a b n m delta odd d L' vf
            (upd vb k (bwdVal a b vb d k)) := by
        rw [hfv]
      constructor
      · intro vb' h
        simp only [snakeBwdSteps] at h
        rw [if_neg hnot, hrec] at h
        obtain ⟨hun, hval, hnofire⟩ := ihnone vb' h
        refine ⟨?_, ?_, ?_⟩
        · intro j hj
          have hj1 : j ∉ L' := fun hc => hj (List.mem_cons_of_mem _ hc)
          have hj2 : j ≠ k := fun hc => hj (hc ▸ List.mem_cons_self _ _)
          rw [hun j hj1]
          unfold upd
          rw [if_neg hj2]
        · intro k' hk'
          rcases List.mem_cons.mp hk' with rfl | hk'
          · rw [hun k' hknotin]
            unfold upd
            rw [if_pos rfl]
          · rw [hval k' hk', hbvcongr k' hk']
        · intro k' hk'
          rcases List.mem_cons.mp hk' with rfl | hk'
          · exact hfire
          · have := hnofire k' hk'
            rw [hbvcongr k' hk'] at this
            exact this
      · intro vb' r h
        simp only [snakeBwdSteps] at h
        rw [if_neg hnot, hrec] at h
        obtain ⟨k', hk', h1, h2, h3, h4⟩ := ihsome vb' r h
        rw [hbvcongr k' hk'] at h1 h4
        exact ⟨k', List.mem_cons_of_mem _ hk', h1, h2, h3, h4⟩

/-- An unlisted diagonal is untouched by a depth that completes without
firing. -/
theorem runState_succ_untouched (a b : List α) (d : Nat)
    (hnf : (fwdSteps a b (d : Int) (ks (d : Int)) (runState a b d)).2 = none)
    {j : Int} (hj : j ∉ ks (d : Int)) :
    runState a b (d + 1) j = runState a b d j := by
  have hfe : fwdSteps a b (d : Int) (ks (d : Int)) (runState a b d) =
      ((fwdSteps a b (d : Int) (ks (d : Int)) (runState a b d)).1, none) :=
    Prod.ext rfl hnf
  obtain ⟨hun, -, -⟩ := (fwdSteps_cases a b (d : Int) (ks (d : Int)) (runState a b d)
    ks_parity (ks_nodup _)).1 _ hfe
  exact hun _ hj

theorem cost_cons_general (e : EditAction α) (s : List (EditAction α)) :
    cost (e :: s) = (if e.op = OpType.equal then 0 else 1) + cost s := by
  by_cases h : e.op = OpType.equal
  · rw [if_pos h]
    simp [cost, List.filter_cons, h]
  · rw [if_neg h]
    simp [cost, List.filter_cons, h]
    omega

theorem script_split_cost :
    ∀ (s : List (EditAction α)) (d1 : Nat), d1 ≤ cost s →
      ∃ s1 s2 : List (EditAction α), s = s1 ++ s2 ∧ cost s1 = d1 := by
  intro s
  induction s with
  | nil =>
    intro d1 h
    have hc0 : cost ([] : List (EditAction α)) = 0 := rfl
    have : d1 = 0 := by omega
    subst this
    exact ⟨[], [], rfl, rfl⟩
  | cons e t ih =>
    intro d1 h
    rw [cost_cons_general] at h
    by_cases he : e.op = OpType.equal
    · rw [if_pos he] at h
      obtain ⟨s1, s2, rfl, hc⟩ := ih d1 (by omega)
      exact ⟨e :: s1, s2, rfl, by rw [cost_cons_general, if_pos he, hc]; omega⟩
    · rw [if_neg he] at h
      cases d1 with
      | zero => exact ⟨[], e :: t, rfl, rfl⟩
      | succ d1' =>
        obtain ⟨s1, s2, rfl, hc⟩ := ih d1' (by omega)
        refine ⟨e :: s1, s2, rfl, ?_⟩
        rw [cost_cons_general, if_neg he, hc]
        omega

theorem reverse_drop_eq (l : List α) (k : Nat) :
    (l.drop k).reverse = l.reverse.take (l.length - k) := by
  have h : l.reverse = (l.drop k).reverse ++ (l.take k).reverse := by
    rw [← List.reverse_append, List.take_append_drop]
  have hlen : (l.drop k).reverse.length = l.length - k := by
    rw [List.length_reverse, List.length_drop]
  rw [h, ← hlen, List.take_left]

/-- Split an optimal corner path: a point reached forward with exactly
`d1` edits whose complement corner is reached in the reversed problem with
the remaining budget. -/
theorem reach_split (a b : List α) (d1 : Nat) (hd1 : d1 ≤ sInf (edCosts a b)) :
    ∃ x1 y1 : Nat, x1 ≤ a.length ∧ y1 ≤ b.length ∧
      Reach a b d1 x1 y1 ∧
      Reach a.reverse b.reverse (sInf (edCosts a b) - d1)
        (a.length - x1) (b.length - y1) := by
  obtain ⟨s, hrf, ho, hm, hc⟩ :=
    (mem_edCosts_iff_reach.mp (Nat.sInf_mem (edCosts_nonempty a b))).to_script
  rw [List.take_length] at ho hm
  obtain ⟨s1, s2, rfl, hc1⟩ := script_split_cost s d1 (by omega)
  rw [origOf_append] at ho
  rw [modOf_append] at hm
  have hxlen : (origOf s1).length + (origOf s2).length = a.length := by
    have := congrArg List.length ho
    simpa using this
  have hylen : (modOf s1).length + (modOf s2).length = b.length := by
    have := congrArg List.length hm
    simpa using this
  refine ⟨(origOf s1).length, (modOf s1).length, by omega, by omega, ?_, ?_⟩
  · have ho1 : origOf s1 = a.take (origOf s1).length := by
      rw [← ho, List.take_left]
    have hm1 : modOf s1 = b.take (modOf s1).length := by
      rw [← hm, List.take_left]
    have := script_to_reach s1 (fun e he => hrf e (List.mem_append_left _ he))
      (origOf s1).length (modOf s1).length (by omega) (by omega) ho1 hm1
    rwa [hc1] at this
  · have ho2 : origOf s2 = a.drop (origOf s1).length := by
      rw [← ho, List.drop_left]
    have hm2 : modOf s2 = b.drop (modOf s1).length := by
      rw [← hm, List.drop_left]
    have hrf2 : ReplaceFree s2.reverse := fun e he =>
      hrf e (List.mem_append_right _ (List.mem_reverse.mp he))
    have ho2r : origOf s2.reverse = a.reverse.take (a.length - (origOf s1).length) := by
      rw [origOf_reverse, ho2, reverse_drop_eq]
    have hm2r : modOf s2.reverse = b.reverse.take (b.length - (modOf s1).length) := by
      rw [modOf_reverse, hm2, reverse_drop_eq]
    have hcx : a.length - (origOf s1).length ≤ a.reverse.length := by
      rw [List.length_reverse]
      omega
    have hcy : b.length - (modOf s1).length ≤ b.reverse.length := by
      rw [List.length_reverse]
      omega
    have := script_to_reach s2.reverse hrf2
      (a.length - (origOf s1).length) (b.length - (modOf s1).length) hcx hcy ho2r hm2r
    have hc2 : cost s2.reverse = sInf (edCosts a b) - d1 := by
      rw [cost_reverse]
      rw [cost_append] at hc
      omega
    rwa [hc2] at this

/-- A forward overlap hit in the first half of the search returns a sane
snake: within the window and the depth bound, the stored value cannot have
left the grid, and a reported distance above `1` forbids the degenerate
corner snakes. -/
theorem fwdFire_snakeOK (a b : List α) (d : Nat) (k : Int)
    (hd : 2 * d ≤ sInf (edCosts a b) + 1) (hk : k ∈ ks (d : Int))
    (hwin : -((d : Int) - 1) ≤ k - ((a.length : Int) - (b.length : Int)) ∧
      k - ((a.length : Int) - (b.length : Int)) ≤ (d : Int) - 1) :
    SnakeOK a b (chooseX (runState a b d) (d : Int) k,
      chooseX (runState a b d) (d : Int) k - k,
      fwdVal a b (runState a b d) (d : Int) k,
      fwdVal a b (runState a b d) (d : Int) k - k, 2 * (d : Int) - 1) := by
  have hnfa : ∀ i : Nat, i < d →
      (fwdSteps a b (i : Int) (ks (i : Int)) (runState a b i)).2 = none :=
    fun i hi => run_no_fire a b i (by omega)
  obtain ⟨hx0, hkx0, hsum⟩ := chooseX_bounds a b d hk hnfa
  obtain ⟨⟨x₀, y₀, d₀, hxx0, hyy0, hR0, hbud⟩, hongrid⟩ := (run_inv a b d hnfa).1 k hk
  have hX : (slideEnd a b (chooseX (runState a b d) (d : Int) k)
      (chooseX (runState a b d) (d : Int) k - k)).1 =
      fwdVal a b (runState a b d) (d : Int) k := rfl
  have hle : chooseX (runState a b d) (d : Int) k ≤
      fwdVal a b (runState a b d) (d : Int) k := by
    rw [← hX]
    exact (slideEnd_spec a b _ _).1
  have hrun := (slideEnd_spec a b (chooseX (runState a b d) (d : Int) k)
    (chooseX (runState a b d) (d : Int) k - k)).2.2.1
  rw [hX] at hrun
  have hDle : sInf (edCosts a b) ≤ d₀ + (a.length - x₀) + (b.length - y₀) :=
    Nat.sInf_le (mem_edCosts_iff_reach.mpr hR0.to_corner)
  obtain ⟨hx0n, hy0m⟩ := hR0.le_lengths
  obtain ⟨X, hXdef⟩ : ∃ X : Int, X = fwdVal a b (runState a b d) (d : Int) k := ⟨_, rfl⟩
  obtain ⟨C, hCdef⟩ : ∃ C : Int, C = chooseX (runState a b d) (d : Int) k := ⟨_, rfl⟩
  rw [← hXdef] at hxx0 hyy0 hbud hongrid hle hrun ⊢
  rw [← hCdef] at hx0 hkx0 hsum hle hrun ⊢
  obtain ⟨Dm, hDmdef⟩ : ∃ Dm : Nat, Dm = sInf (edCosts a b) := ⟨_, rfl⟩
  rw [← hDmdef] at hd hDle
  have hXn : X ≤ (a.length : Int) := by
    clear * - hxx0 hyy0 hbud hDle hx0n hy0m hd hwin
    omega
  have hXkm : X - k ≤ (b.length : Int) := by
    clear * - hxx0 hyy0 hbud hDle hx0n hy0m hd hwin
    omega
  unfold SnakeOK
  dsimp only
  refine ⟨hx0, hle, hXn, by clear * - hkx0; omega, by clear * - hle; omega,
    hXkm, by ring, ?_, ?_⟩
  · intro i h1 h2
    exact (hrun i h1 h2).2.2
  · intro hdv
    have hd2 : 2 ≤ d := by clear * - hdv; omega
    constructor
    · by_contra hcon
      push_neg at hcon
      have hreach := hongrid hXn hXkm
      rw [show X.toNat = a.length from by clear * - hcon hle hkx0 hXn hXkm; omega,
        show (X - k).toNat = b.length from by clear * - hcon hle hkx0 hXn hXkm; omega]
        at hreach
      have hDd := Nat.sInf_le (mem_edCosts_iff_reach.mpr hreach)
      rw [← hDmdef] at hDd
      clear * - hDd hd hd2
      omega
    · have hs1 := hsum (by clear * - hd2; omega)
      clear * - hs1 hle
      omega

/-- A backward overlap hit (only reachable at even distance) likewise
returns a sane — and here zero-length — snake in forward coordinates. -/
theorem bwdFire_snakeOK (a b : List α) (d : Nat) (k : Int)
    (hd : 2 * d ≤ sInf (edCosts a b) + 1)
    (hDeven : sInf (edCosts a b) % 2 = 0) (hk : k ∈ ks (d : Int))
    (hwin : -(d : Int) ≤ k - ((a.length : Int) - (b.length : Int)) ∧
      k - ((a.length : Int) - (b.length : Int)) ≤ (d : Int)) :
    SnakeOK a b
      ((a.length : Int) - bwdVal a b (runState a.reverse b.reverse d) (d : Int) k,
       (b.length : Int) - (bwdVal a b (runState a.reverse b.reverse d) (d : Int) k - k),
       (a.length : Int) - bwdVal a b (runState a.reverse b.reverse d) (d : Int) k,
       (b.length : Int) - (bwdVal a b (runState a.reverse b.reverse d) (d : Int) k - k),
       2 * (d : Int)) := by
  have hDrev : sInf (edCosts a.reverse b.reverse) = sInf (edCosts a b) := by
    rw [edCosts_reverse]
  have hnfb : ∀ i : Nat, i < d →
      (fwdSteps a.reverse b.reverse (i : Int) (ks (i : Int))
        (runState a.reverse b.reverse i)).2 = none :=
    fun i hi => run_no_fire a.reverse b.reverse i (by rw [hDrev]; omega)
  obtain ⟨hx0, hkx0, hsum⟩ := chooseX_bounds a.reverse b.reverse d hk hnfb
  have hW : bwdVal a b (runState a.reverse b.reverse d) (d : Int) k =
      fwdVal a.reverse b.reverse (runState a.reverse b.reverse d) (d : Int) k := by
    unfold bwdVal fwdVal
    rw [slideEndRev_eq a b _ _ hx0 (by omega)]
  obtain ⟨⟨x₀, y₀, d₀, hxx0, hyy0, hR0, hbud⟩, hongrid⟩ :=
    (run_inv a.reverse b.reverse d hnfb).1 k hk
  rw [← hW] at hxx0 hyy0 hbud hongrid
  have hLa : ((a.reverse.length : Nat) : Int) = (a.length : Int) := by
    rw [List.length_reverse]
  have hLb : ((b.reverse.length : Nat) : Int) = (b.length : Int) := by
    rw [List.length_reverse]
  have hDle : sInf (edCosts a b) ≤ d₀ + (a.reverse.length - x₀) + (b.reverse.length - y₀) := by
    have := Nat.sInf_le (mem_edCosts_iff_reach.mpr hR0.to_corner)
    rw [hDrev] at this
    exact this
  obtain ⟨hx0n, hy0m⟩ := hR0.le_lengths
  have hLna : a.reverse.length = a.length := List.length_reverse a
  have hLnb : b.reverse.length = b.length := List.length_reverse b
  have hge : chooseX (runState a.reverse b.reverse d) (d : Int) k ≤
      bwdVal a b (runState a.reverse b.reverse d) (d : Int) k := by
    unfold bwdVal slideEndRev
    exact slideRevGo_ge a b _ _ _
  obtain ⟨W, hWdef⟩ : ∃ W : Int,
      W = bwdVal a b (runState a.reverse b.reverse d) (d : Int) k := ⟨_, rfl⟩
  obtain ⟨C, hCdef⟩ : ∃ C : Int,
      C = chooseX (runState a.reverse b.reverse d) (d : Int) k := ⟨_, rfl⟩
  rw [← hWdef] at hxx0 hyy0 hbud hongrid hge ⊢
  rw [← hCdef] at hx0 hkx0 hsum hge
  obtain ⟨Dm, hDmdef⟩ : ∃ Dm : Nat, Dm = sInf (edCosts a b) := ⟨_, rfl⟩
  rw [← hDmdef] at hd hDle hDeven
  have hWn : W ≤ (a.length : Int) := by
    clear * - hxx0 hyy0 hbud hDle hx0n hy0m hd hwin hLa hLb
    omega
  have hWkm : W - k ≤ (b.length : Int) := by
    clear * - hxx0 hyy0 hbud hDle hx0n hy0m hd hwin hLa hLb
    omega
  have hW0 : 0 ≤ W := by clear * - hxx0; omega
  have hWk0 : 0 ≤ W - k := by clear * - hyy0; omega
  unfold SnakeOK
  dsimp only
  refine ⟨by clear * - hWn; omega, le_rfl, by clear * - hW0; omega,
    by clear * - hWkm; omega, le_rfl, by clear * - hWk0; omega, by ring, ?_, ?_⟩
  · intro i h1 h2
    exact absurd (lt_of_le_of_lt h1 h2) (lt_irrefl _)
  · intro hdv
    have hd1 : 1 ≤ d := by clear * - hdv; omega
    constructor
    · have hs1 := hsum hd1
      clear * - hs1 hge hWn hWkm
      omega
    · by_contra hcon
      push_neg at hcon
      have hreach := hongrid (by clear * - hcon hWn hWkm hLa hLb; omega)
        (by clear * - hcon hWn hWkm hLa hLb; omega)
      rw [show W.toNat = a.reverse.length from by
            clear * - hcon hWn hWkm hW0 hWk0 hLa hLb; omega,
        show (W - k).toNat = b.reverse.length from by
            clear * - hcon hWn hWkm hW0 hWk0 hLa hLb; omega] at hreach
      have hDd := Nat.sInf_le (mem_edCosts_iff_reach.mpr hreach)
      rw [hDrev, ← hDmdef] at hDd
      clear * - hDd hd hdv hDeven
      omega

/-- The `for d` loop of `_find_middle_snake`, started at a no-fire state
in the first half of the search, fires by depth `⌈D/2⌉` and returns a sane
snake. -/
theorem findMiddleSnakeGo_run (a b : List α) (odd : Bool)
    (hodd : odd = true ↔ sInf (edCosts a b) % 2 = 1) :
    ∀ (fuel d : Nat),
      d ≤ (sInf (edCosts a b) + 1) / 2 →
      (sInf (edCosts a b) + 1) / 2 - d < fuel →
      ∃ r, findMiddleSnakeGo a b (a.length : Int) (b.length : Int)
          ((a.length : Int) - (b.length : Int)) odd fuel (d : Int)
          (runState a b d) (runState a.reverse b.reverse d) = some r ∧
        SnakeOK a b r := by
  intro fuel
  induction fuel with
  | zero =>
    intro d h1 h2
    omega
  | succ f ih =>
    intro d hdle hfuel
    have hDrev : sInf (edCosts a.reverse b.reverse) = sInf (edCosts a b) := by
      rw [edCosts_reverse]
    rcases hF : snakeFwdSteps a b (a.length : Int)
        ((a.length : Int) - (b.length : Int)) odd (d : Int) (ks (d : Int))
        (runState a b d) (runState a.reverse b.reverse d) with ⟨vf', res⟩
    cases res with
    | some r =>
      obtain ⟨k, hk, hr, hoddT, hwin, hcheck⟩ :=
        (snakeFwdSteps_cases a b (a.length : Int)
          ((a.length : Int) - (b.length : Int)) odd (d : Int) (ks (d : Int))
          (runState a b d) (runState a.reverse b.reverse d) ks_parity (ks_nodup _)).2
          vf' r hF
      refine ⟨r, ?_, ?_⟩
      · simp only [findMiddleSnakeGo]
        rw [hF]
      · subst hr
        exact fwdFire_snakeOK a b d k (by omega) hk hwin
    | none =>
      obtain ⟨hFun, hFval, hFnof⟩ :=
        (snakeFwdSteps_cases a b (a.length : Int)
          ((a.length : Int) - (b.length : Int)) odd (d : Int) (ks (d : Int))
          (runState a b d) (runState a.reverse b.reverse d) ks_parity (ks_nodup _)).1
          vf' hF
      rcases hB : snakeBwdSteps a b (a.length : Int) (b.length : Int)
          ((a.length : Int) - (b.length : Int)) odd (d : Int) (ks (d : Int))
          vf' (runState a.reverse b.reverse d) with ⟨vb', res2⟩
      cases res2 with
      | some r =>
        obtain ⟨k, hk, hr, hoddF, hwin, hcheck⟩ :=
          (snakeBwdSteps_cases a b (a.length : Int) (b.length : Int)
            ((a.length : Int) - (b.length : Int)) odd (d : Int) (ks (d : Int))
            vf' (runState a.reverse b.reverse d) ks_parity (ks_nodup _)).2 vb' r hB
        refine ⟨r, ?_, ?_⟩
        · simp only [findMiddleSnakeGo, hF, hB]
        · subst hr
          have hDeven : sInf (edCosts a b) % 2 = 0 := by
            rcases Nat.mod_two_eq_zero_or_one (sInf (edCosts a b)) with h | h
            · exact h
            · exact absurd (hodd.mpr h) hoddF
          exact bwdFire_snakeOK a b d k (by omega) hDeven hk hwin
      | none =>
        obtain ⟨hBun, hBval, hBnof⟩ :=
          (snakeBwdSteps_cases a b (a.length : Int) (b.length : Int)
            ((a.length : Int) - (b.length : Int)) odd (d : Int) (ks (d : Int))
            vf' (runState a.reverse b.reverse d) ks_parity (ks_nodup _)).1 vb' hB
        by_cases hdd : d < (sInf (edCosts a b) + 1) / 2
        · -- no fire yet: advance one depth
          have hdDm : d < sInf (edCosts a b) := by omega
          have hdDmrev : d < sInf (edCosts a.reverse b.reverse) := by omega
          have hvfeq : vf' = runState a b (d + 1) := by
            funext j
            by_cases hj : j ∈ ks (d : Int)
            · rw [hFval j hj,
                runState_succ_val a b d (run_no_fire a b d hdDm) hj]
            · rw [hFun j hj,
                runState_succ_untouched a b d (run_no_fire a b d hdDm) hj]
          have hnfbd : ∀ i : Nat, i < d →
              (fwdSteps a.reverse b.reverse (i : Int) (ks (i : Int))
                (runState a.reverse b.reverse i)).2 = none :=
            fun i hi => run_no_fire a.reverse b.reverse i (by omega)
          have hvbeq : vb' = runState a.reverse b.reverse (d + 1) := by
            funext j
            by_cases hj : j ∈ ks (d : Int)
            · obtain ⟨hc0, hck, -⟩ := chooseX_bounds a.reverse b.reverse d hj hnfbd
              have hbw : bwdVal a b (runState a.reverse b.reverse d) (d : Int) j =
                  fwdVal a.reverse b.reverse (runState a.reverse b.reverse d)
                    (d : Int) j := by
                unfold bwdVal fwdVal
                rw [slideEndRev_eq a b _ _ hc0 (by omega)]
              rw [hBval j hj, hbw,
                runState_succ_val a.reverse b.reverse d
                  (run_no_fire a.reverse b.reverse d hdDmrev) hj]
            · rw [hBun j hj,
                runState_succ_untouched a.reverse b.reverse d
                  (run_no_fire a.reverse b.reverse d hdDmrev) hj]
          simp only [findMiddleSnakeGo, hF, hB]
          rw [hvfeq, hvbeq, show ((d : Int) + 1) = (((d + 1 : Nat)) : Int) from by
            push_cast; ring]
          exact ih (d + 1) (by omega) (by omega)
        · -- at depth ⌈D/2⌉ some check must have fired
          exfalso
          have hdeq : d = (sInf (edCosts a b) + 1) / 2 := by omega
          have hnfa' : ∀ i : Nat, i < d →
              (fwdSteps a b (i : Int) (ks (i : Int)) (runState a b i)).2 = none :=
            fun i hi => run_no_fire a b i (by omega)
          have hnfb' : ∀ i : Nat, i < d →
              (fwdSteps a.reverse b.reverse (i : Int) (ks (i : Int))
                (runState a.reverse b.reverse i)).2 = none :=
            fun i hi => run_no_fire a.reverse b.reverse i (by omega)
          rcases Nat.mod_two_eq_zero_or_one (sInf (edCosts a b)) with hp | hp
          · -- even distance: the backward check at the split diagonal fires
            have hoddF : ¬odd = true := fun h => by
              rw [hodd] at h
              omega
            obtain ⟨x1, y1, hx1n, hy1m, hRf, hRb⟩ :=
              reach_split a b d (by omega)
            rw [show sInf (edCosts a b) - d = d from by omega] at hRb
            have hdbF := hRf.diag_bound
            have hparF := hRf.parity
            have hdbB := hRb.diag_bound
            have hparB := hRb.parity
            have hkstar : ((x1 : Int) - (y1 : Int)) ∈ ks (d : Int) := by
              rw [mem_ks]
              refine ⟨by omega, by omega, by omega⟩
            have hkb : ((a.length - x1 : Nat) : Int) - ((b.length - y1 : Nat) : Int) ∈
                ks (d : Int) := by
              rw [mem_ks]
              refine ⟨by omega, by omega, by omega⟩
            have hdomF := (run_inv a b d hnfa').2 x1 y1 hRf
            have hdomB := (run_inv a.reverse b.reverse d hnfb').2
              (a.length - x1) (b.length - y1) hRb
            obtain ⟨hc0, hck, -⟩ := chooseX_bounds a.reverse b.reverse d hkb hnfb'
            have hbw : bwdVal a b (runState a.reverse b.reverse d) (d : Int)
                (((a.length - x1 : Nat) : Int) - ((b.length - y1 : Nat) : Int)) =
                fwdVal a.reverse b.reverse (runState a.reverse b.reverse d) (d : Int)
                  (((a.length - x1 : Nat) : Int) - ((b.length - y1 : Nat) : Int)) := by
              unfold bwdVal fwdVal
              rw [slideEndRev_eq a b _ _ hc0 (by omega)]
            refine hBnof (((a.length - x1 : Nat) : Int) - ((b.length - y1 : Nat) : Int))
              hkb ⟨hoddF, ⟨by omega, by omega⟩, ?_⟩
            rw [hbw, show ((a.length : Int) - (b.length : Int)) -
                (((a.length - x1 : Nat) : Int) - ((b.length - y1 : Nat) : Int)) =
                ((x1 : Int) - (y1 : Int)) from by omega,
              hFval ((x1 : Int) - (y1 : Int)) hkstar]
            obtain ⟨F, hFdef⟩ : ∃ F : Int,
                F = fwdVal a b (runState a b d) (d : Int) ((x1 : Int) - (y1 : Int)) :=
              ⟨_, rfl⟩
            obtain ⟨Bv, hBvdef⟩ : ∃ Bv : Int,
                Bv = fwdVal a.reverse b.reverse (runState a.reverse b.reverse d) (d : Int)
                  (((a.length - x1 : Nat) : Int) - ((b.length - y1 : Nat) : Int)) :=
              ⟨_, rfl⟩
            rw [← hFdef] at hdomF ⊢
            rw [← hBvdef] at hdomB ⊢
            clear * - hdomF hdomB hx1n hy1m
            omega
          · -- odd distance: the forward check at the split diagonal fires
            have hoddT : odd = true := hodd.mpr hp
            have hd1 : 1 ≤ d := by omega
            obtain ⟨x1, y1, hx1n, hy1m, hRf, hRb⟩ :=
              reach_split a b d (by omega)
            rw [show sInf (edCosts a b) - d = d - 1 from by omega] at hRb
            have hdbF := hRf.diag_bound
            have hparF := hRf.parity
            have hdbB := hRb.diag_bound
            have hparB := hRb.parity
            have hkstar : ((x1 : Int) - (y1 : Int)) ∈ ks (d : Int) := by
              rw [mem_ks]
              refine ⟨by omega, by omega, by omega⟩
            have hkb : ((a.length - x1 : Nat) : Int) - ((b.length - y1 : Nat) : Int) ∈
                ks ((d - 1 : Nat) : Int) := by
              rw [mem_ks]
              refine ⟨by omega, by omega, by omega⟩
            have hdomF := (run_inv a b d hnfa').2 x1 y1 hRf
            have hnfb'' : ∀ i : Nat, i < d - 1 →
                (fwdSteps a.reverse b.reverse (i : Int) (ks (i : Int))
                  (runState a.reverse b.reverse i)).2 = none :=
              fun i hi => hnfb' i (by omega)
            have hdomB := (run_inv a.reverse b.reverse (d - 1) hnfb'').2
              (a.length - x1) (b.length - y1) hRb
            have hbv : runState a.reverse b.reverse d
                (((a.length - x1 : Nat) : Int) - ((b.length - y1 : Nat) : Int)) =
                fwdVal a.reverse b.reverse (runState a.reverse b.reverse (d - 1))
                  ((d - 1 : Nat) : Int)
                  (((a.length - x1 : Nat) : Int) - ((b.length - y1 : Nat) : Int)) := by
              have h := runState_succ_val a.reverse b.reverse (d - 1)
                (hnfb' (d - 1) (by omega)) hkb
              rw [show d - 1 + 1 = d from by omega] at h
              exact h
            refine hFnof ((x1 : Int) - (y1 : Int)) hkstar ⟨hoddT, ⟨by omega, by omega⟩, ?_⟩
            rw [show ((a.length : Int) - (b.length : Int)) - ((x1 : Int) - (y1 : Int)) =
                (((a.length - x1 : Nat) : Int) - ((b.length - y1 : Nat) : Int)) from by
                omega,
              hbv]
            obtain ⟨F, hFdef⟩ : ∃ F : Int,
                F = fwdVal a b (runState a b d) (d : Int) ((x1 : Int) - (y1 : Int)) :=
              ⟨_, rfl⟩
            obtain ⟨Bv, hBvdef⟩ : ∃ Bv : Int,
                Bv = fwdVal a.reverse b.reverse (runState a.reverse b.reverse (d - 1))
                  ((d - 1 : Nat) : Int)
                  (((a.length - x1 : Nat) : Int) - ((b.length - y1 : Nat) : Int)) :=
              ⟨_, rfl⟩
            rw [← hFdef] at hdomF ⊢
            rw [← hBvdef] at hdomB ⊢
            clear * - hdomF hdomB hx1n hy1m
            omega

/-- `_find_middle_snake` always returns through one of the two overlap
checks, and the returned snake is sane; the `(0, 0, n, m, n + m)` fallback
is unreachable. -/
theorem find_middle_snake_spec (a b : List α) :
    SnakeOK a b (find_middle_snake a b) := by
  have hpar := sInf_parity a b
  have hle : sInf (edCosts a b) ≤ a.length + b.length :=
    Nat.sInf_le (full_cost_mem a b)
  have hodd : (decide (((a.length : Int) - (b.length : Int)) % 2 ≠ 0)) = true ↔
      sInf (edCosts a b) % 2 = 1 := by
    rw [decide_eq_true_eq]
    omega
  obtain ⟨r, heq, hOK⟩ := findMiddleSnakeGo_run a b
    (decide (((a.length : Int) - (b.length : Int)) % 2 ≠ 0)) hodd
    ((((a.length : Int) + (b.length : Int) + 1) / 2).toNat + 1) 0
    (Nat.zero_le _) (by omega)
  have heq' : findMiddleSnakeGo a b (a.length : Int) (b.length : Int)
      ((a.length : Int) - (b.length : Int))
      (decide (((a.length : Int) - (b.length : Int)) % 2 ≠ 0))
      ((((a.length : Int) + (b.length : Int) + 1) / 2).toNat + 1) 0
      (fun _ => 0) (fun _ => 0) = some r := heq
  unfold find_middle_snake
  simp only [heq', Option.getD_some]
  exact hOK

theorem simple_diff_roundtrip :
    ∀ a b : List α, origOf (simple_diff a b) = a ∧ modOf (simple_diff a b) = b := by
  intro a
  induction a with
  | nil =>
    intro b
    have h : simple_diff ([] : List α) b =
        ([] : List α).map make_delete ++ b.map make_insert := by
      cases b <;> rfl
    rw [h, List.map_nil, List.nil_append, origOf_map_insert, modOf_map_insert]
    exact ⟨rfl, rfl⟩
  | cons x a ih =>
    intro b
    cases b with
    | nil =>
      have h : simple_diff (x :: a) ([] : List α) =
          (x :: a).map make_delete ++ ([] : List α).map make_insert := rfl
      rw [h, List.map_nil, List.append_nil, origOf_map_delete, modOf_map_delete]
      exact ⟨rfl, rfl⟩
    | cons y b =>
      by_cases hxy : x = y
      · subst hxy
        have h : simple_diff (x :: a) (x :: b) = make_equal x :: simple_diff a b := by
          simp only [simple_diff]
          rw [if_pos trivial]
        rw [h, origOf_equal_cons, modOf_equal_cons, (ih b).1, (ih b).2]
        exact ⟨rfl, rfl⟩
      · have h : simple_diff (x :: a) (y :: b) =
            make_delete x :: simple_diff a (y :: b) := by
          simp only [simple_diff]
          rw [if_neg hxy]
        rw [h, origOf_delete_cons, modOf_delete_cons,
          (ih (y :: b)).1, (ih (y :: b)).2]
        exact ⟨rfl, rfl⟩

theorem pySlice_all (l : List α) : pySlice l 0 (l.length : Int) = l := by
  unfold pySlice
  rw [Int.toNat_zero, List.drop_zero, sub_zero, Int.toNat_natCast, List.take_length]

theorem pySlice_length (l : List α) {s e : Int} (h0 : 0 ≤ s) (hse : s ≤ e)
    (he : e ≤ (l.length : Int)) :
    ((pySlice l s e).length : Int) = e - s := by
  unfold pySlice
  rw [List.length_take, List.length_drop]
  omega

theorem pyGet_pySlice (l : List α) {s e j : Int} (h0 : 0 ≤ s) (hj : 0 ≤ j)
    (hje : j < e - s) (he : e ≤ (l.length : Int)) :
    pyGet (pySlice l s e) j = pyGet l (s + j) := by
  unfold pyGet pySlice
  rw [if_pos hj, if_pos (show (0 : Int) ≤ s + j from by omega),
    List.get?_eq_getElem?, List.get?_eq_getElem?,
    List.getElem?_take_of_lt (show j.toNat < (e - s).toNat from by omega),
    List.getElem?_drop]
  congr 1
  omega

theorem pySlice_split (l : List α) {s t e : Int} (h0 : 0 ≤ s) (hst : s ≤ t)
    (hte : t ≤ e) :
    pySlice l s e = pySlice l s t ++ pySlice l t e := by
  unfold pySlice
  rw [show (e - s).toNat = (t - s).toNat + (e - t).toNat from by omega,
    List.take_add, List.drop_drop,
    show s.toNat + (t - s).toNat = t.toNat from by omega]

theorem pySlice_eq_map (l : List α) {s e : Int} (h0 : 0 ≤ s) (hse : s ≤ e)
    (he : e ≤ (l.length : Int)) :
    pySlice l s e =
      (List.range (e - s).toNat).map fun i : Nat => pyIdx l (s + (i : Int)) := by
  apply List.ext_getElem?
  intro n
  rw [List.getElem?_map]
  by_cases hn : n < (e - s).toNat
  · rw [List.getElem?_range hn, Option.map_some']
    have hlen : n < (pySlice l s e).length := by
      have := pySlice_length l h0 hse he
      omega
    have hin : (s + (n : Int)).toNat < l.length := by omega
    have hval : pyGet l (s + (n : Int)) =
        some (l.get ⟨(s + (n : Int)).toNat, hin⟩) := by
      unfold pyGet
      rw [if_pos (show (0 : Int) ≤ s + (n : Int) from by omega),
        List.get?_eq_getElem?, List.getElem?_eq_getElem hin]
      rfl
    have hL : (pySlice l s e)[n]? = pyGet (pySlice l s e) (n : Int) := by
      unfold pyGet
      rw [if_pos (Int.natCast_nonneg n), Int.toNat_natCast, List.get?_eq_getElem?]
    have hget : pyGet (pySlice l s e) (n : Int) = pyGet l (s + (n : Int)) :=
      pyGet_pySlice l h0 (by omega) (by omega) he
    rw [hL, hget, hval]
    congr 1
    unfold pyIdx
    rw [hval, Option.getD_some]
  · rw [List.getElem?_eq_none (show (List.range (e - s).toNat).length ≤ n from by
        rw [List.length_range]; omega),
      List.getElem?_eq_none (show (pySlice l s e).length ≤ n from by
        have := pySlice_length l h0 hse he
        omega)]
    rfl

theorem origOf_middleEquals (orig : List α) (xs xmid u : Int) :
    origOf (middleEquals orig xs xmid u) =
      (List.range (u - xmid).toNat).map
        fun i : Nat => pyIdx orig (xs + (xmid + (i : Int))) := by
  unfold middleEquals
  rw [origOf_map_equal]

theorem modOf_middleEquals (orig : List α) (xs xmid u : Int) :
    modOf (middleEquals orig xs xmid u) =
      (List.range (u - xmid).toNat).map
        fun i : Nat => pyIdx orig (xs + (xmid + (i : Int))) := by
  unfold middleEquals
  rw [modOf_map_equal]

theorem lcsDiff_run (orig modl : List α) :
    ∀ (fuel : Nat) (xs xe ys ye : Int),
      0 ≤ xs → xs ≤ xe → xe ≤ (orig.length : Int) →
      0 ≤ ys → ys ≤ ye → ye ≤ (modl.length : Int) →
      (xe - xs).toNat + (ye - ys).toNat < fuel →
      ∃ s, lcsDiff orig modl fuel xs xe ys ye = some s ∧
        origOf s = pySlice orig xs xe ∧ modOf s = pySlice modl ys ye := by
  intro fuel
  induction fuel with
  | zero =>
    intro xs xe ys ye _ _ _ _ _ _ h
    omega
  | succ f ih =>
    intro xs xe ys ye hxs0 hxse hxeL hys0 hyse hyeL hfuel
    have haL : ((pySlice orig xs xe).length : Int) = xe - xs :=
      pySlice_length orig hxs0 hxse hxeL
    have hbL : ((pySlice modl ys ye).length : Int) = ye - ys :=
      pySlice_length modl hys0 hyse hyeL
    by_cases ha0 : (pySlice orig xs xe).length = 0
    · refine ⟨(pySlice modl ys ye).map make_insert, ?_, ?_, modOf_map_insert _⟩
      · simp only [lcsDiff]
        rw [if_pos ha0]
      · rw [origOf_map_insert, List.eq_nil_of_length_eq_zero ha0]
    · by_cases hb0 : (pySlice modl ys ye).length = 0
      · refine ⟨(pySlice orig xs xe).map make_delete, ?_, origOf_map_delete _, ?_⟩
        · simp only [lcsDiff]
          rw [if_neg ha0, if_pos hb0]
        · rw [modOf_map_delete, List.eq_nil_of_length_eq_zero hb0]
      · by_cases hone : (pySlice orig xs xe).length = 1 ∨
            (pySlice modl ys ye).length = 1
        · refine ⟨simple_diff (pySlice orig xs xe) (pySlice modl ys ye), ?_,
            (simple_diff_roundtrip _ _).1, (simple_diff_roundtrip _ _).2⟩
          simp only [lcsDiff]
          rw [if_neg ha0, if_neg hb0, if_pos hone]
        · have hOK := find_middle_snake_spec (pySlice orig xs xe) (pySlice modl ys ye)
          rcases hs : find_middle_snake (pySlice orig xs xe) (pySlice modl ys ye)
            with ⟨xm, ym, u, v, dv⟩
          rw [hs] at hOK
          unfold SnakeOK at hOK
          dsimp only at hOK
          obtain ⟨hxm0, hxmu, huA, hym0, hymv, hvB, hdiag, heqs, hrec⟩ := hOK
          by_cases hdv : 1 < dv
          · obtain ⟨hsum, hpos⟩ := hrec hdv
            obtain ⟨left, hleq, hlo, hlm⟩ := ih xs (xs + xm) ys (ys + ym)
              hxs0 (by omega) (by omega) hys0 (by omega) (by omega) (by omega)
            obtain ⟨right, hreq, hro, hrm⟩ := ih (xs + u) xe (ys + v) ye
              (by omega) (by omega) hxeL (by omega) (by omega) hyeL (by omega)
            refine ⟨left ++ middleEquals orig xs xm u ++ right, ?_, ?_, ?_⟩
            · simp only [lcsDiff]
              rw [if_neg ha0, if_neg hb0, if_neg hone, hs]
              dsimp only
              rw [if_pos hdv, hleq, hreq]
              rfl
            · rw [origOf_append, origOf_append, hlo, hro, origOf_middleEquals,
                show (List.range (u - xm).toNat).map
                    (fun i : Nat => pyIdx orig (xs + (xm + (i : Int)))) =
                  pySlice orig (xs + xm) (xs + u) from ?_]
              · rw [← pySlice_split orig (by omega) (by omega) (by omega),
                  ← pySlice_split orig (by omega) (by omega) (by omega)]
              · rw [pySlice_eq_map orig (by omega) (by omega) (by omega),
                  show (xs + u - (xs + xm)) = u - xm from by ring]
                exact map_range_congr _ _ _ fun i _ => by rw [add_assoc]
            · rw [modOf_append, modOf_append, hlm, hrm, modOf_middleEquals,
                show (List.range (u - xm).toNat).map
                    (fun i : Nat => pyIdx orig (xs + (xm + (i : Int)))) =
                  pySlice modl (ys + ym) (ys + v) from ?_]
              · rw [← pySlice_split modl (by omega) (by omega) (by omega),
                  ← pySlice_split modl (by omega) (by omega) (by omega)]
              · rw [pySlice_eq_map modl (by omega) (by omega) (by omega),
                  show (ys + v - (ys + ym)) = v - ym from by ring,
                  show (v - ym).toNat = (u - xm).toNat from by omega]
                refine map_range_congr _ _ _ fun i hi => ?_
                have hglt : (i : Int) < u - xm := by
                  clear * - hi hxmu
                  omega
                have h1 : pyGet (pySlice orig xs xe) (xm + (i : Int)) =
                    pyGet (pySlice modl ys ye) ((xm + (i : Int)) - xm + ym) :=
                  heqs (xm + (i : Int)) (by omega) (by omega)
                have h2 : pyGet (pySlice orig xs xe) (xm + (i : Int)) =
                    pyGet orig (xs + (xm + (i : Int))) :=
                  pyGet_pySlice orig hxs0 (by omega) (by omega) hxeL
                have h3 : pyGet (pySlice modl ys ye) ((xm + (i : Int)) - xm + ym) =
                    pyGet modl (ys + ((xm + (i : Int)) - xm + ym)) :=
                  pyGet_pySlice modl hys0 (by omega) (by omega) hyeL
                unfold pyIdx
                rw [← h2, h1, h3,
                  show (ys + ((xm + (i : Int)) - xm + ym)) = ys + (ym + (i : Int))
                    from by ring, add_assoc]
          · refine ⟨simple_diff (pySlice orig xs xe) (pySlice modl ys ye), ?_,
              (simple_diff_roundtrip _ _).1, (simple_diff_roundtrip _ _).2⟩
            simp only [lcsDiff]
            rw [if_neg ha0, if_neg hb0, if_neg hone, hs]
            dsimp only
            rw [if_neg hdv]

theorem linear_roundtrip (a b : List α) :
    ∃ s, diff_linear_myers a b = some s ∧ origOf s = a ∧ modOf s = b := by
  unfold diff_linear_myers linearCompute
  by_cases ha : a.length = 0
  · have hA : a = [] := List.length_eq_zero.mp ha
    subst hA
    by_cases hb : b.length = 0
    · have hB : b = [] := List.length_eq_zero.mp hb
      subst hB
      exact ⟨[], rfl, rfl, rfl⟩
    · refine ⟨b.map make_insert, ?_, origOf_map_insert b, modOf_map_insert b⟩
      rw [if_neg (fun h => hb h.2),
        if_pos (show List.length ([] : List α) = 0 from rfl)]
  · by_cases hb : b.length = 0
    · have hB : b = [] := List.length_eq_zero.mp hb
      subst hB
      refine ⟨a.map make_delete, ?_, origOf_map_delete a, modOf_map_delete a⟩
      rw [if_neg (fun h => ha h.1), if_neg ha,
        if_pos (show List.length ([] : List α) = 0 from rfl)]
    · obtain ⟨s, hseq, ho, hm⟩ := lcsDiff_run a b (a.length + b.length + 1)
        0 (a.length : Int) 0 (b.length : Int) le_rfl (by positivity) le_rfl
        le_rfl (by positivity) le_rfl (by omega)
      rw [pySlice_all] at ho
      rw [pySlice_all] at hm
      refine ⟨s, ?_, ho, hm⟩
      rw [if_neg (fun h => ha h.1), if_neg ha, if_neg hb]
      exact hseq

/-- C2 (amended): the engines need not produce scripts of equal length,
but both engines satisfy the reconstruction invariant on every pair of
inputs — the quadratic engine's script rebuilds `A` and `B` exactly, and
the linear-space engine always returns a script that rebuilds `A` and `B`
exactly — and on an empty input (where no search runs) both engines
return the very same all-insert or all-delete script. -/
theorem C2_agreement_amended :
    (∀ A B : List α, origOf (diff A B) = A ∧ modOf (diff A B) = B) ∧
    (∀ A B : List α, ∃ s, diff_linear_myers A B = some s ∧
      origOf s = A ∧ modOf s = B) ∧
    (∀ B : List α, diff_linear_myers ([] : List α) B = some (B.map make_insert) ∧
      diff ([] : List α) B = B.map make_insert) ∧
    (∀ A : List α, diff_linear_myers A ([] : List α) = some (A.map make_delete) ∧
      diff A ([] : List α) = A.map make_delete) := by
  refine ⟨fun A B => ⟨(diff_validScript A B).2.1, (diff_validScript A B).2.2⟩,
    fun A B => linear_roundtrip A B,
    fun B => ⟨?_, diff_left_empty B⟩, fun A => ⟨?_, ?_⟩⟩
  · unfold diff_linear_myers linearCompute
    by_cases hb : B.length = 0
    · have hB : B = [] := List.length_eq_zero.mp hb
      subst hB
      rfl
    · rw [if_neg (fun h => hb h.2),
        if_pos (show List.length ([] : List α) = 0 from rfl)]
  · unfold diff_linear_myers linearCompute
    by_cases ha : A.length = 0
    · have hA : A = [] := List.length_eq_zero.mp ha
      subst hA
      rfl
    · rw [if_neg (fun h => ha h.1), if_neg ha,
        if_pos (show List.length ([] : List α) = 0 from rfl)]
  · by_cases ha : A.length = 0
    · have hA : A = [] := List.length_eq_zero.mp ha
      subst hA
      rw [diff_left_empty]
      rfl
    · exact diff_right_empty A ha

end MyersVerif
